import Mathlib

/-!
# Recursive-descent front end: scanner and parser

A shallow embedding of `main.c` (scanner `get_next_token`, parser `program`)
and theorems about it.

Modelling conventions.

* The source buffer `input` is a `List Char`; reading `input[i]` at or beyond
  the end of the list gives the terminator `'\0'`, and an interior `'\0'`
  acts as the terminator exactly as it does for a C string.
* The C globals `input, current_pos, line, column` are the fields of
  `Scanner`; `lookahead` is the second component of `Parser`.
* `int` values (`line`, `column`, `start_pos`, `end_pos`) are `Int`; overflow
  of a 32-bit `int` (more than `2^31` lines or columns) is not modelled.
* `start_pos = column - strlen(lexeme)` is computed in `Int`, and `make_token`
  keeps the first 255 characters of the lexeme as `strncpy` does.
* The local arrays `char lexeme[256]` of `get_next_token` are lists: the list
  holds the characters stored so far and its length is the index `i`.  The C
  code stays inside the array exactly when the lexeme has fewer than 256
  characters (the identifier case writes the terminator at `lexeme[i]`; in the
  number case `strlen` reads up to a terminator).  A longer lexeme overruns
  the array, which is undefined in C; the list model does not represent the
  overrun, and the token it yields for such a lexeme stands for no behaviour
  of the C code.  On inputs whose lexemes fit (`LexemesFit`) list and array
  agree.
* The character classes of `<ctype.h>` are those of the "C" locale.
* `while` loops and the recursion of `expression` carry a fuel argument and
  return `none` / `Stop.fuel` when it runs out.
* `exit(1)` after a diagnostic is `Except.error (Stop.exit d p)`, where `d` is
  the diagnostic and `p` the parser state at the moment of the exit.
* The `DEBUG:` lines printed by the parser are not modelled.
-/

namespace RDP

/-! ## Data model -/

/-- Token kinds, the C enumeration `TokenType`. -/
inductive TokenType
  | TOK_PROGRAM | TOK_INT | TOK_FLOAT | TOK_IF | TOK_ELSE | TOK_WHILE
  | TOK_PLUS | TOK_MINUS | TOK_MUL | TOK_DIV | TOK_ASSIGN
  | TOK_LT | TOK_GT | TOK_LTE | TOK_GTE | TOK_EQ | TOK_NEQ
  | TOK_SEMI | TOK_COMMA | TOK_LPAREN | TOK_RPAREN | TOK_LBRACE | TOK_RBRACE
  | TOK_ID | TOK_NUM
  | TOK_EOF | TOK_ERROR
  deriving DecidableEq, Repr

open TokenType

/-- The C structure `Token`. -/
structure Token where
  type : TokenType
  lexeme : List Char
  line : Int
  start_pos : Int
  end_pos : Int
  deriving DecidableEq, Repr

/-- The scanner's global state: `input`, `current_pos`, `line`, `column`. -/
structure Scanner where
  input : List Char
  current_pos : Nat
  line : Int
  column : Int
  deriving DecidableEq, Repr

/-- The string terminator `'\0'`. -/
def NUL : Char := Char.ofNat 0

/-- The C expression `input[i]`. -/
def char_at (s : Scanner) (i : Nat) : Char := s.input.getD i NUL

/-! ## Character classes (`<ctype.h>`, "C" locale) -/

def isspace (c : Char) : Bool :=
  c = ' ' || c = '\t' || c = '\n' || c = Char.ofNat 11 || c = Char.ofNat 12 || c = '\r'

def isdigit (c : Char) : Bool := decide ('0' ≤ c ∧ c ≤ '9')

def isalpha (c : Char) : Bool :=
  decide ('a' ≤ c ∧ c ≤ 'z') || decide ('A' ≤ c ∧ c ≤ 'Z')

def isalnum (c : Char) : Bool := isalpha c || isdigit c

def tolower (c : Char) : Char :=
  if 'A' ≤ c ∧ c ≤ 'Z' then Char.ofNat (c.toNat + 32) else c

/-! ## Scanner -/

def init_scanner (src : List Char) : Scanner :=
  { input := src, current_pos := 0, line := 1, column := 1 }

def consume_char (s : Scanner) : Scanner :=
  if char_at s s.current_pos = '\n' then
    { s with line := s.line + 1, column := 1, current_pos := s.current_pos + 1 }
  else if char_at s s.current_pos = '\r' then
    if char_at s (s.current_pos + 1) = '\n' then
      { s with line := s.line + 1, column := 1, current_pos := s.current_pos + 1 + 1 }
    else
      { s with column := s.column + 1, current_pos := s.current_pos + 1 }
  else
    { s with column := s.column + 1, current_pos := s.current_pos + 1 }

def peek_char (s : Scanner) : Char := char_at s s.current_pos

/-- The function `make_token`: `strncpy` keeps at most 255 characters of the
lexeme, the positions are computed from the current `line` and `column`. -/
def make_token (s : Scanner) (type : TokenType) (lexeme : List Char) : Token :=
  { type := type
    lexeme := lexeme.take 255
    line := s.line
    start_pos := s.column - (lexeme.length : Int)
    end_pos := s.column - 1 }

/-- Fuel that is enough for every loop started in state `s`: each iteration
consumes at least one character before the terminator. -/
def fuelOf (s : Scanner) : Nat := s.input.length - s.current_pos + 1

/-- The loops `while (P(peek_char())) { lexeme[i++] = peek_char(); consume_char(); }`
of `get_next_token` (with `P` one of `isalnum`, `isdigit`).  The argument
`lexeme` holds the characters stored in `char lexeme[256]` so far and its
length is the index `i`; the C loop writes outside the array once the length
has reached 256, which the list does not represent. -/
def lexeme_loop (P : Char → Bool) : Nat → Scanner → List Char → Option (Scanner × List Char)
  | 0, _, _ => none
  | fuel + 1, s, lexeme =>
    if P (peek_char s) then
      lexeme_loop P fuel (consume_char s) (lexeme ++ [peek_char s])
    else
      some (s, lexeme)

/-- The inner `while (1)` of the comment case, entered after `/` and `*` have
been consumed.  The flag is `true` when the loop left through `break` (the
comment was closed) and `false` when it met the terminator. -/
def comment_loop : Nat → Scanner → Option (Scanner × Bool)
  | 0, _ => none
  | fuel + 1, s =>
    if peek_char s = NUL then
      some (s, false)
    else if peek_char s = '*' ∧ char_at s (s.current_pos + 1) = '/' then
      some (consume_char (consume_char s), true)
    else
      comment_loop fuel (consume_char s)

/-- The keyword comparisons (`strcmp`) that follow the identifier loop. -/
def keyword_or_id (lexeme : List Char) : TokenType :=
  if lexeme = "Program".toList then TOK_PROGRAM
  else if lexeme = "int".toList then TOK_INT
  else if lexeme = "float".toList then TOK_FLOAT
  else if lexeme = "if".toList then TOK_IF
  else if lexeme = "else".toList then TOK_ELSE
  else if lexeme = "while".toList then TOK_WHILE
  else TOK_ID

/-- The fractional part of the number case: `if (peek_char() == '.') { ... }`. -/
def scan_fraction (s1 : Scanner) (l1 : List Char) : Option (Scanner × List Char) :=
  if peek_char s1 = '.' then
    lexeme_loop isdigit (fuelOf s1) (consume_char s1) (l1 ++ [peek_char s1])
  else
    some (s1, l1)

/-- The optional sign of the exponent: `if (peek_char() == '+' || peek_char() == '-') { ... }`. -/
def scan_sign (s3 : Scanner) (l3 : List Char) : Scanner × List Char :=
  if peek_char s3 = '+' ∨ peek_char s3 = '-' then
    (consume_char s3, l3 ++ [peek_char s3])
  else
    (s3, l3)

/-- The exponent part of the number case: `if (tolower(peek_char()) == 'e') { ... }`. -/
def scan_exponent (s2 : Scanner) (l2 : List Char) : Option (Scanner × List Char) :=
  if tolower (peek_char s2) = 'e' then
    let x := scan_sign (consume_char s2) (l2 ++ [peek_char s2])
    lexeme_loop isdigit (fuelOf x.1) x.1 x.2
  else
    some (s2, l2)

/-- The number case of `get_next_token` (entered when `isdigit(c)`): the
integer digits, the fractional part, the exponent part, then
`make_token(TOK_NUM, lexeme)`.  The lists `l1`, `l2`, `l5` hold what the
zero-initialised `char lexeme[256]` holds; no terminator is written, so the C
code is defined only when fewer than 256 characters are stored, and the list
model agrees with it there. -/
def scan_number (s : Scanner) : Option (Token × Scanner) :=
  match lexeme_loop isdigit (fuelOf s) s [] with
  | none => none
  | some (s1, l1) =>
    match scan_fraction s1 l1 with
    | none => none
    | some (s2, l2) =>
      match scan_exponent s2 l2 with
      | none => none
      | some (s5, l5) => some (make_token s5 TOK_NUM l5, s5)

/-- The cases `=`, `<`, `>`, `!` of the `switch`: one character is consumed,
and a following `=` makes the two-character operator. -/
def scan_two (s : Scanner) (two : TokenType) (twoLex : List Char)
    (one : TokenType) (oneLex : List Char) : Token × Scanner :=
  let s1 := consume_char s
  if peek_char s1 = '=' then
    let s2 := consume_char s1
    (make_token s2 two twoLex, s2)
  else
    (make_token s1 one oneLex, s1)

/-- The `switch (c)` of `get_next_token`. -/
def scan_switch (c : Char) (s : Scanner) : Token × Scanner :=
  let s1 := consume_char s
  if c = '+' then (make_token s1 TOK_PLUS ['+'], s1)
  else if c = '-' then (make_token s1 TOK_MINUS ['-'], s1)
  else if c = '*' then (make_token s1 TOK_MUL ['*'], s1)
  else if c = '/' then (make_token s1 TOK_DIV ['/'], s1)
  else if c = '=' then scan_two s TOK_EQ ['=', '='] TOK_ASSIGN ['=']
  else if c = '<' then scan_two s TOK_LTE ['<', '='] TOK_LT ['<']
  else if c = '>' then scan_two s TOK_GTE ['>', '='] TOK_GT ['>']
  else if c = '!' then scan_two s TOK_NEQ ['!', '='] TOK_ERROR ['!']
  else if c = ';' then (make_token s1 TOK_SEMI [';'], s1)
  else if c = '{' then (make_token s1 TOK_LBRACE ['{'], s1)
  else if c = '}' then (make_token s1 TOK_RBRACE ['}'], s1)
  else if c = '(' then (make_token s1 TOK_LPAREN ['('], s1)
  else if c = ')' then (make_token s1 TOK_RPAREN [')'], s1)
  else (make_token s1 TOK_ERROR [c], s1)

/-- The outer `while (1)` of `get_next_token`.  In the identifier case and
the number case the lexeme is a list where the C code has `char lexeme[256]`:
the result is that of the C code when the lexeme has fewer than 256
characters, and stands for no behaviour of the C code otherwise. -/
def get_next_token_loop : Nat → Scanner → Option (Token × Scanner)
  | 0, _ => none
  | fuel + 1, s =>
    let c := peek_char s
    if c = NUL then
      some (make_token s TOK_EOF [], s)
    else if isspace c then
      get_next_token_loop fuel (consume_char s)
    else if c = '/' ∧ char_at s (s.current_pos + 1) = '*' then
      match comment_loop (fuelOf s) (consume_char (consume_char s)) with
      | none => none
      | some (s1, false) => some (make_token s1 TOK_ERROR "Unclosed comment".toList, s1)
      | some (s1, true) => get_next_token_loop fuel s1
    else if isalpha c then
      match lexeme_loop isalnum (fuelOf s) s [] with
      | none => none
      | some (s1, lexeme) => some (make_token s1 (keyword_or_id lexeme) lexeme, s1)
    else if isdigit c then
      scan_number s
    else
      some (scan_switch c s)

/-- The function `get_next_token`: the token returned and the scanner state
after the call. -/
def get_next_token (s : Scanner) : Option (Token × Scanner) :=
  get_next_token_loop (fuelOf s) s

/-! ## Parser -/

/-- The parser's state: the scanner globals and the global `lookahead`. -/
structure Parser where
  sc : Scanner
  lookahead : Token
  deriving DecidableEq, Repr

/-- The diagnostics the parser prints before `exit(1)`; each constructor holds
the arguments of one `printf`. -/
inductive Diag
  /-- From `match`: line, position, expected kind, found kind. -/
  | expected (line pos : Int) (exp found : TokenType)
  /-- From `report_error`: message, line, position, lexeme. -/
  | report (message : String) (line pos : Int) (lexeme : List Char)
  /-- From `declaration_list`: line, position, identifier lexeme. -/
  | declaration (line pos : Int) (lexeme : List Char)
  deriving DecidableEq, Repr

/-- Why a parsing function did not return: `exit(1)` after diagnostic `d` in
parser state `p`, or the model ran out of fuel. -/
inductive Stop
  | exit (d : Diag) (p : Parser)
  | fuel
  deriving DecidableEq, Repr

def token_to_str : TokenType → String
  | TOK_PROGRAM => "Program"
  | TOK_INT => "int"
  | TOK_FLOAT => "float"
  | TOK_IF => "if"
  | TOK_ELSE => "else"
  | TOK_WHILE => "while"
  | TOK_PLUS => "+"
  | TOK_MINUS => "-"
  | TOK_MUL => "*"
  | TOK_DIV => "/"
  | TOK_ASSIGN => "="
  | TOK_LT => "<"
  | TOK_GT => ">"
  | TOK_LTE => "<="
  | TOK_GTE => ">="
  | TOK_EQ => "=="
  | TOK_NEQ => "!="
  | TOK_SEMI => ";"
  | TOK_COMMA => ","
  | TOK_LPAREN => "("
  | TOK_RPAREN => ")"
  | TOK_LBRACE => "\x7b"
  | TOK_RBRACE => "\x7d"
  | TOK_ID => "identifier"
  | TOK_NUM => "number"
  | TOK_EOF => "end-of-file"
  | TOK_ERROR => "error"

/-- The line a diagnostic prints (the `printf` formats of `match`,
`report_error` and `declaration_list`). -/
def Diag.render : Diag → String
  | .expected line pos exp found =>
    "ERROR at line " ++ toString line ++ ", position " ++ toString pos ++
      ": Expected '" ++ token_to_str exp ++ "', found '" ++ token_to_str found ++ "'"
  | .report message line pos lexeme =>
    "ERROR at line " ++ toString line ++ ", position " ++ toString pos ++
      ": " ++ message ++ " (found '" ++ String.mk lexeme ++ "')"
  | .declaration line pos lexeme =>
    "ERROR at line " ++ toString line ++ ", position " ++ toString pos ++
      ": Expected ';' after declaration of '" ++ String.mk lexeme ++ "'"

/-- The function `report_error`: it prints `t->line`, `t->end_pos`, the message
and `t->lexeme`, then exits. -/
def report_error (message : String) (t : Token) (p : Parser) : Except Stop Parser :=
  .error (.exit (.report message t.line t.end_pos t.lexeme) p)

/-- The function `match`. -/
def match_ (expected : TokenType) (p : Parser) : Except Stop Parser :=
  if p.lookahead.type = expected then
    match get_next_token p.sc with
    | some (t, sc) => .ok { sc := sc, lookahead := t }
    | none => .error .fuel
  else
    .error (.exit (.expected p.lookahead.line p.lookahead.start_pos expected p.lookahead.type) p)

mutual

def factor : Nat → Parser → Except Stop Parser
  | 0, _ => .error .fuel
  | fuel + 1, p =>
    match p.lookahead.type with
    | TOK_ID => match_ TOK_ID p
    | TOK_NUM => match_ TOK_NUM p
    | TOK_LPAREN => do
      let p1 ← match_ TOK_LPAREN p
      let p2 ← expression fuel p1
      match_ TOK_RPAREN p2
    | _ => report_error "Unexpected token in factor" p.lookahead p

/-- The `while` loop of `term`. -/
def term_loop : Nat → Parser → Except Stop Parser
  | 0, _ => .error .fuel
  | fuel + 1, p =>
    if p.lookahead.type = TOK_MUL ∨ p.lookahead.type = TOK_DIV then do
      let p1 ← match_ p.lookahead.type p
      let p2 ← factor fuel p1
      term_loop fuel p2
    else
      .ok p

def term : Nat → Parser → Except Stop Parser
  | 0, _ => .error .fuel
  | fuel + 1, p => do
    let p1 ← factor fuel p
    term_loop fuel p1

/-- The `while` loop of `additive_expression`. -/
def additive_expression_loop : Nat → Parser → Except Stop Parser
  | 0, _ => .error .fuel
  | fuel + 1, p =>
    if p.lookahead.type = TOK_PLUS ∨ p.lookahead.type = TOK_MINUS then do
      let p1 ← match_ p.lookahead.type p
      let p2 ← term fuel p1
      additive_expression_loop fuel p2
    else
      .ok p

def additive_expression : Nat → Parser → Except Stop Parser
  | 0, _ => .error .fuel
  | fuel + 1, p => do
    let p1 ← term fuel p
    additive_expression_loop fuel p1

def expression : Nat → Parser → Except Stop Parser
  | 0, _ => .error .fuel
  | fuel + 1, p => do
    let p1 ← additive_expression fuel p
    if p1.lookahead.type = TOK_LT ∨ p1.lookahead.type = TOK_GT ∨
        p1.lookahead.type = TOK_LTE ∨ p1.lookahead.type = TOK_GTE ∨
        p1.lookahead.type = TOK_EQ ∨ p1.lookahead.type = TOK_NEQ then do
      let p2 ← match_ p1.lookahead.type p1
      additive_expression fuel p2
    else
      .ok p1

end

def declaration_list : Nat → Parser → Except Stop Parser
  | 0, _ => .error .fuel
  | fuel + 1, p =>
    if p.lookahead.type = TOK_INT ∨ p.lookahead.type = TOK_FLOAT then do
      let p1 ← match_ p.lookahead.type p
      let id_token := p1.lookahead
      let p2 ← match_ TOK_ID p1
      if p2.lookahead.type ≠ TOK_SEMI then
        .error (.exit (.declaration id_token.line (id_token.end_pos + 1) id_token.lexeme) p2)
      else do
        let p3 ← match_ TOK_SEMI p2
        declaration_list fuel p3
    else
      .ok p

def assignment_stmt (fuel : Nat) (p : Parser) : Except Stop Parser := do
  let p1 ← match_ TOK_ID p
  let p2 ← match_ TOK_ASSIGN p1
  let p3 ← expression fuel p2
  match_ TOK_SEMI p3

/-- Modelled from the spec: `statement`, which `statement_list` calls, has no
definition in `main.c`; of the four alternatives of
`statement := assignment_stmt | selection_stmt | iteration_stmt | compound_stmt`
only `assignment_stmt` has an implemented body, so a statement is an
assignment statement. -/
def statement (fuel : Nat) (p : Parser) : Except Stop Parser :=
  assignment_stmt fuel p

def statement_list : Nat → Parser → Except Stop Parser
  | 0, _ => .error .fuel
  | fuel + 1, p =>
    if p.lookahead.type ≠ TOK_RBRACE then do
      let p1 ← statement fuel p
      statement_list fuel p1
    else
      .ok p

def program (fuel : Nat) (p : Parser) : Except Stop Parser := do
  let p1 ← match_ TOK_PROGRAM p
  let p2 ← match_ TOK_ID p1
  let p3 ← match_ TOK_LBRACE p2
  let p4 ← declaration_list fuel p3
  let p5 ← statement_list fuel p4
  match_ TOK_RBRACE p5

/-- How a run of `main` on a loaded buffer ends. -/
inductive MainResult
  /-- The run printed `Parsing completed successfully.` and returned 0. -/
  | completed (p : Parser)
  /-- The run printed `Parsing failed.` and returned 0. -/
  | failed (p : Parser)
  /-- The run printed diagnostic `d` and left through `exit(1)`. -/
  | exited (d : Diag) (p : Parser)
  deriving DecidableEq, Repr

/-- The part of `main` after the buffer is loaded: `init_scanner`, the first
`get_next_token`, `program()` and the final test of `lookahead`.  The result is
`none` when the fuel does not suffice. -/
def main (fuel : Nat) (buffer : List Char) : Option MainResult :=
  match get_next_token (init_scanner buffer) with
  | none => none
  | some (t, sc) =>
    match program fuel { sc := sc, lookahead := t } with
    | .error .fuel => none
    | .error (.exit d p) => some (.exited d p)
    | .ok p =>
      if p.lookahead.type = TOK_EOF then some (.completed p) else some (.failed p)

/-! ## Specification-level definitions -/

/-- The C string that starts at index `pos` of `input`. -/
def restAt (input : List Char) (pos : Nat) : List Char :=
  (input.drop pos).takeWhile (fun c => c != NUL)

/-- The unread part of the source: the characters from the cursor up to the terminator. -/
def rest (s : Scanner) : List Char := restAt s.input s.current_pos


/-- A scanner state `s'` reached from `s` by consuming characters of the unread
input: same buffer, the cursor has moved over a front part of the unread
input, `line` has grown by the number of `'\n'` characters consumed, and
`column` stays at least 1 if it was. -/
structure Adv (s s' : Scanner) : Prop where
  input : s'.input = s.input
  pos : s'.current_pos + (rest s').length = s.current_pos + (rest s).length
  line : s'.line + ((rest s').count '\n' : Int) = s.line + ((rest s).count '\n' : Int)
  len : (rest s').length ≤ (rest s).length
  col : 1 ≤ s.column → 1 ≤ s'.column

/-- A character class whose members are neither the terminator nor a line
ending character (the classes tested by the lexeme loops are such). -/
def PlainClass (P : Char → Bool) : Prop :=
  ∀ c, P c = true → c ≠ NUL ∧ c ≠ '\n' ∧ c ≠ '\r'

/-- What every call of `get_next_token` guarantees about its token `t` and
final state `s'`, when started in state `s`: the scanner advanced over unread
input, the token was built by `make_token` in the final state, an
end-of-input token is produced at the terminator only, and any other token
consumed at least one character. -/
structure TokenOk (s : Scanner) (t : Token) (s' : Scanner) : Prop where
  adv : Adv s s'
  made : ∃ lexeme, t = make_token s' t.type lexeme
  eof : t.type = TOK_EOF → rest s' = [] ∧ t = make_token s' TOK_EOF []
  progress : t.type ≠ TOK_EOF → (rest s').length < (rest s).length

/-- The scanner state after a lexeme loop over class `P` started in `s`: the
cursor and the column have moved over the longest run of `P` characters. -/
def after_run (P : Char → Bool) (s : Scanner) : Scanner :=
  { s with current_pos := s.current_pos + ((rest s).takeWhile P).length
           column := s.column + (((rest s).takeWhile P).length : Int) }

/-- The tokens returned by `n` successive calls of `get_next_token` from state
`s`, and the scanner state after the last call. -/
def scan_calls : Nat → Scanner → Option (List Token × Scanner)
  | 0, s => some ([], s)
  | n + 1, s =>
    match get_next_token s with
    | none => none
    | some (t, s1) =>
      match scan_calls n s1 with
      | none => none
      | some (ts, s2) => some (t :: ts, s2)

/-- The C string held by a buffer: its characters up to the first `'\0'`. -/
def cstr (buffer : List Char) : List Char := buffer.takeWhile (fun c => c != NUL)

/-- Text that consists only of whitespace characters and terminated block
comments.  A comment is `/*`, a body, and the first `*/` after the opening
(the body followed by `*` has no `*/` inside). -/
inductive WsComments : List Char → Prop
  | nil : WsComments []
  | space {c : Char} {r : List Char} (hc : isspace c = true) (hr : WsComments r) :
      WsComments (c :: r)
  | comment {b r : List Char} (hb : ¬ (['*', '/'] <:+: b ++ ['*'])) (hr : WsComments r) :
      WsComments ('/' :: '*' :: (b ++ '*' :: '/' :: r))

/-- The number of line endings of a text as section 4.1 of the specification
counts them: each `\r\n` pair, each bare `\n` and each bare `\r` is one line
ending (a `\r` directly before a `\n` is counted with that `\n`). -/
def line_endings : List Char → Nat
  | [] => 0
  | c :: r =>
    if c = '\n' then 1 + line_endings r
    else if c = '\r' ∧ r.head? ≠ some '\n' then 1 + line_endings r
    else line_endings r

/-- The sequence of token kinds that the parser state `p` has before it: the
kind of `lookahead`, then the kinds of the tokens that successive calls of
`get_next_token` return, up to and including the first end-of-input. -/
def stream_is : Parser → List TokenType → Bool
  | _, [] => false
  | p, k :: ks =>
    decide (p.lookahead.type = k) &&
      (if k = TOK_EOF then ks.isEmpty
       else
        match get_next_token p.sc with
        | some (t, sc) => stream_is { sc := sc, lookahead := t } ks
        | none => false)

/-- The token kinds of a whole buffer, as `main` reads them: `init_scanner`,
then `get_next_token` until end-of-input. -/
def buffer_tokens (buffer : List Char) (ks : List TokenType) : Bool :=
  match get_next_token (init_scanner buffer) with
  | some (t, sc) => stream_is { sc := sc, lookahead := t } ks
  | none => false

/-- The parser consumes the token kinds `w`, one successful `match` each, on
the way from state `p` to state `p'`. -/
def Consumed : Parser → List TokenType → Parser → Prop
  | p, [], p' => p = p'
  | p, k :: w, p' =>
    p.lookahead.type = k ∧ k ≠ TOK_EOF ∧
      ∃ t sc, get_next_token p.sc = some (t, sc) ∧ Consumed { sc := sc, lookahead := t } w p'

/-- The nonterminals of the expression grammar. -/
inductive NT
  | factor | term | additive | expression
  deriving DecidableEq, Repr

/-- The relational operators `<, >, <=, >=, ==, !=`. -/
def is_relop (k : TokenType) : Prop :=
  k = TOK_LT ∨ k = TOK_GT ∨ k = TOK_LTE ∨ k = TOK_GTE ∨ k = TOK_EQ ∨ k = TOK_NEQ

/-- The expression grammar of the specification, on token kinds:
`factor := identifier | number | '(' expression ')'`,
`term := factor (('*'|'/') factor)*`,
`additive_expression := term (('+'|'-') term)*`,
`expression := additive_expression (relop additive_expression)?`.
A repetition `x (op x)*` is written as `x` or `x op (x (op x)*)`. -/
inductive Derives : NT → List TokenType → Prop
  | factor_id : Derives .factor [TOK_ID]
  | factor_num : Derives .factor [TOK_NUM]
  | factor_paren {e : List TokenType} (he : Derives .expression e) :
      Derives .factor (TOK_LPAREN :: e ++ [TOK_RPAREN])
  | term_one {f : List TokenType} (hf : Derives .factor f) : Derives .term f
  | term_more {f t : List TokenType} {op : TokenType} (hf : Derives .factor f)
      (hop : op = TOK_MUL ∨ op = TOK_DIV) (ht : Derives .term t) :
      Derives .term (f ++ op :: t)
  | additive_one {t : List TokenType} (ht : Derives .term t) : Derives .additive t
  | additive_more {t a : List TokenType} {op : TokenType} (ht : Derives .term t)
      (hop : op = TOK_PLUS ∨ op = TOK_MINUS) (ha : Derives .additive a) :
      Derives .additive (t ++ op :: a)
  | expression_one {a : List TokenType} (ha : Derives .additive a) : Derives .expression a
  | expression_rel {a b : List TokenType} {op : TokenType} (ha : Derives .additive a)
      (hop : is_relop op) (hb : Derives .additive b) :
      Derives .expression (a ++ op :: b)

/-- The grammar rule `declaration_list := (type_name identifier ';')*`. -/
inductive DeclList : List TokenType → Prop
  | nil : DeclList []
  | cons {ty : TokenType} {ds : List TokenType} (hty : ty = TOK_INT ∨ ty = TOK_FLOAT)
      (hds : DeclList ds) : DeclList (ty :: TOK_ID :: TOK_SEMI :: ds)

/-- The grammar rule `statement_list := statement*` with
`statement := assignment_stmt := identifier '=' expression ';'`. -/
inductive StmtList : List TokenType → Prop
  | nil : StmtList []
  | cons {e ss : List TokenType} (he : Derives .expression e) (hss : StmtList ss) :
      StmtList (TOK_ID :: TOK_ASSIGN :: (e ++ TOK_SEMI :: ss))

/-- A sentence of the grammar:
`'Program' identifier '{' declaration_list statement_list '}'` followed by
end-of-input. -/
def Sentence (ks : List TokenType) : Prop :=
  ∃ ds ss, DeclList ds ∧ StmtList ss ∧
    ks = TOK_PROGRAM :: TOK_ID :: TOK_LBRACE :: (ds ++ ss ++ [TOK_RBRACE, TOK_EOF])

/-- What follows the first factor of a term: `(('*'|'/') factor)*`. -/
def TermTail (w : List TokenType) : Prop :=
  w = [] ∨ ∃ op t, (op = TOK_MUL ∨ op = TOK_DIV) ∧ Derives .term t ∧ w = op :: t

/-- What follows the first term of an additive expression: `(('+'|'-') term)*`. -/
def AdditiveTail (w : List TokenType) : Prop :=
  w = [] ∨ ∃ op a, (op = TOK_PLUS ∨ op = TOK_MINUS) ∧ Derives .additive a ∧ w = op :: a

/-- What the six expression functions guarantee when they return. -/
def ExprSound (fuel : Nat) : Prop :=
  (∀ p p', factor fuel p = .ok p' → ∃ w, Derives .factor w ∧ Consumed p w p') ∧
  (∀ p p', term_loop fuel p = .ok p' → ∃ w, TermTail w ∧ Consumed p w p') ∧
  (∀ p p', term fuel p = .ok p' → ∃ w, Derives .term w ∧ Consumed p w p') ∧
  (∀ p p', additive_expression_loop fuel p = .ok p' →
      ∃ w, AdditiveTail w ∧ Consumed p w p') ∧
  (∀ p p', additive_expression fuel p = .ok p' →
      ∃ w, Derives .additive w ∧ Consumed p w p') ∧
  (∀ p p', expression fuel p = .ok p' → ∃ w, Derives .expression w ∧ Consumed p w p')

/-- The parsing function of a nonterminal. -/
def parse_nt : NT → Nat → Parser → Except Stop Parser
  | .factor => factor
  | .term => term
  | .additive => additive_expression
  | .expression => expression

/-- Token kinds that may follow a nonterminal without being taken for its
continuation: `term` loops on `*` and `/`, `additive_expression` on `+` and
`-`, and `expression` takes one relational operator. -/
def follow_ok : NT → TokenType → Prop
  | .factor, _ => True
  | .term, k => k ≠ TOK_MUL ∧ k ≠ TOK_DIV
  | .additive, k => k ≠ TOK_MUL ∧ k ≠ TOK_DIV ∧ k ≠ TOK_PLUS ∧ k ≠ TOK_MINUS
  | .expression, k =>
    k ≠ TOK_MUL ∧ k ≠ TOK_DIV ∧ k ≠ TOK_PLUS ∧ k ≠ TOK_MINUS ∧ ¬ is_relop k

instance : DecidablePred is_relop := fun k => by
  unfold is_relop
  infer_instance

/-- The number of relational operators of a token sequence that stand outside
all parentheses, when the sequence starts at parenthesis depth `d`. -/
def top_relops : Nat → List TokenType → Nat
  | _, [] => 0
  | d, k :: w =>
    if k = TOK_LPAREN then top_relops (d + 1) w
    else if k = TOK_RPAREN then top_relops (d - 1) w
    else (if d = 0 ∧ is_relop k then 1 else 0) + top_relops d w

/-- The number of tokens the parser state has before it, counted generously:
one for a lookahead that is not end-of-input, plus one for every character of
the unread input (every further token consumes at least one character). -/
def tokens_left (p : Parser) : Nat :=
  (rest p.sc).length + (if p.lookahead.type = TOK_EOF then 0 else 1)

/-- A parsing computation `c`, as a function of the fuel, settles: from some
amount of fuel on it has one and the same result, the result is not "out of
fuel", and a returned state satisfies `Q`. -/
def Halts (c : Nat → Except Stop Parser) (Q : Parser → Prop) : Prop :=
  ∃ r N, (∀ fuel, N ≤ fuel → c fuel = r) ∧ r ≠ .error .fuel ∧ ∀ p', r = .ok p' → Q p'

/-- The scanner state after `k` characters have been consumed on the current
line: cursor and column have grown by `k`. -/
def advance (s : Scanner) (k : Nat) : Scanner :=
  { s with current_pos := s.current_pos + k, column := s.column + (k : Int) }

/-- The fractional part at the front of a text: a `.` and the digits after it. -/
def fraction_lexeme : List Char → List Char
  | [] => []
  | c :: y => if c = '.' then c :: y.takeWhile isdigit else []

/-- The sign at the front of a text: one `+` or `-`. -/
def sign_lexeme : List Char → List Char
  | [] => []
  | c :: _ => if c = '+' ∨ c = '-' then [c] else []

/-- The exponent part at the front of a text: `e` or `E`, an optional sign
and the digits after it. -/
def exponent_lexeme : List Char → List Char
  | [] => []
  | c :: y =>
    if c = 'e' ∨ c = 'E' then
      c :: (sign_lexeme y ++ (y.drop (sign_lexeme y).length).takeWhile isdigit)
    else []

/-- The number at the front of a text: the digits, then the fractional part,
then the exponent part. -/
def number_lexeme (x : List Char) : List Char :=
  x.takeWhile isdigit ++ fraction_lexeme (x.dropWhile isdigit) ++
    exponent_lexeme
      ((x.dropWhile isdigit).drop (fraction_lexeme (x.dropWhile isdigit)).length)

/-- The call of `get_next_token` that starts with the cursor on the first
character of a token (state `s1`) returns token `t` of kind `ty` and state
`s'` after consuming exactly the characters `lex`: they are the front of the
unread input, the cursor and the column have moved over them, and the token
was made by `make_token` from `lex` in the final state. -/
structure Lexed (s1 : Scanner) (ty : TokenType) (lex : List Char) (t : Token)
    (s' : Scanner) : Prop where
  call : get_next_token s1 = some (t, s')
  state : s' = advance s1 lex.length
  token : t = make_token s' ty lex
  text : rest s1 = lex ++ rest s'

/-- The operators of two characters: the first character and, when a `=`
follows it, the kind of the two-character token. -/
def two_char_kind (c : Char) : Option TokenType :=
  if c = '=' then some TOK_EQ
  else if c = '<' then some TOK_LTE
  else if c = '>' then some TOK_GTE
  else if c = '!' then some TOK_NEQ
  else none

/-- The single-character tokens `+ - * / = < > ; { } ( )`. -/
def one_char_kind (c : Char) : Option TokenType :=
  if c = '+' then some TOK_PLUS
  else if c = '-' then some TOK_MINUS
  else if c = '*' then some TOK_MUL
  else if c = '/' then some TOK_DIV
  else if c = '=' then some TOK_ASSIGN
  else if c = '<' then some TOK_LT
  else if c = '>' then some TOK_GT
  else if c = ';' then some TOK_SEMI
  else if c = '{' then some TOK_LBRACE
  else if c = '}' then some TOK_RBRACE
  else if c = '(' then some TOK_LPAREN
  else if c = ')' then some TOK_RPAREN
  else none

/-- The operator and punctuation rule of the specification: kind and text of
the token that starts with character `c` when `next` is the character after
it.  One of `= < > !` followed by `=` is the two-character operator; otherwise
a single-character token, and a lexical error for every other character. -/
def operator_spec (c : Char) (next : Option Char) : TokenType × List Char :=
  match two_char_kind c with
  | some k =>
    if next = some '=' then (k, [c, '=']) else ((one_char_kind c).getD TOK_ERROR, [c])
  | none => ((one_char_kind c).getD TOK_ERROR, [c])

/-- A text without whitespace characters. -/
def NoSpace (l : List Char) : Prop := ∀ x ∈ l, isspace x = false

/-- The shape `('.' digits*)?` of the specification's number rule. -/
def FractionShape (f : List Char) : Prop :=
  f = [] ∨ ∃ g, f = '.' :: g ∧ ∀ x ∈ g, isdigit x = true

/-- The shape `(('e'|'E') ('+'|'-')? digits*)?` of the specification's number rule. -/
def ExponentShape (e : List Char) : Prop :=
  e = [] ∨ ∃ m sg g, e = m :: (sg ++ g) ∧ (m = 'e' ∨ m = 'E') ∧
    (sg = [] ∨ sg = ['+'] ∨ sg = ['-']) ∧ ∀ x ∈ g, isdigit x = true

/-- The shape `digits+ ('.' digits*)? (('e'|'E') ('+'|'-')? digits*)?` of the
specification's number rule. -/
def NumberShape (l : List Char) : Prop :=
  ∃ d f e, l = d ++ f ++ e ∧ d ≠ [] ∧ (∀ x ∈ d, isdigit x = true) ∧
    FractionShape f ∧ ExponentShape e

/-- State `s'` is reached from state `s` by calls of `consume_char`. -/
def Reaches (s s' : Scanner) : Prop := ∃ k, s' = Nat.iterate consume_char k s

/-- State `s'` is reached from state `s` by calls of `consume_char`, each of
them made with the cursor on a character other than the terminator. -/
def SafeRun (s s' : Scanner) : Prop :=
  ∃ k, s' = Nat.iterate consume_char k s ∧
    ∀ j, j < k → peek_char (Nat.iterate consume_char j s) ≠ NUL

/-- The lexemes of the text `x` fit the arrays `char lexeme[256]` of
`get_next_token`: every run of alphanumeric characters in `x`, and every
number in `x` (the number lexeme that starts at a digit), has fewer than 256
characters.  The C code stores a lexeme of `k` characters in `lexeme[0]` to
`lexeme[k-1]` and needs `lexeme[k]` for the terminator, so it stays inside
the array exactly when `k < 256`; on such texts the list that stands for the
array in `lexeme_loop` and `scan_number` holds what the array holds. -/
def LexemesFit (x : List Char) : Prop :=
  ∀ y, y <:+ x → (y.takeWhile isalnum).length < 256 ∧
    (isdigit (y.headD NUL) = true → (number_lexeme y).length < 256)

/-! ## The unread input -/

theorem getD_eq_headD_drop (l : List Char) (n : Nat) : l.getD n NUL = (l.drop n).headD NUL := by
  induction l generalizing n with
  | nil => simp
  | cons a l ih =>
    cases n with
    | zero => simp
    | succ n => simp [ih n]

theorem drop_succ_of_drop_cons {l : List Char} {n : Nat} {c : Char} {tl : List Char}
    (h : l.drop n = c :: tl) : l.drop (n + 1) = tl := by
  induction l generalizing n with
  | nil => simp at h
  | cons a l ih =>
    cases n with
    | zero => simp at h; simp [h.2]
    | succ n => simp at h; simpa using ih h

theorem restAt_cons {input : List Char} {pos : Nat} {c : Char} {r : List Char}
    (h : restAt input pos = c :: r) :
    input.getD pos NUL = c ∧ c ≠ NUL ∧ restAt input (pos + 1) = r := by
  unfold restAt at h
  rw [getD_eq_headD_drop]
  cases hd : input.drop pos with
  | nil => rw [hd] at h; simp at h
  | cons a tl =>
    rw [hd] at h
    rw [List.takeWhile_cons] at h
    by_cases ha : (a != NUL) = true
    · rw [if_pos ha] at h
      simp only [List.cons.injEq] at h
      obtain ⟨h1, h2⟩ := h
      subst h1
      refine ⟨rfl, by simpa using ha, ?_⟩
      unfold restAt
      rw [drop_succ_of_drop_cons hd, h2]
    · rw [if_neg ha] at h
      simp at h

theorem restAt_nil {input : List Char} {pos : Nat} (h : restAt input pos = []) :
    input.getD pos NUL = NUL := by
  unfold restAt at h
  rw [getD_eq_headD_drop]
  cases hd : input.drop pos with
  | nil => rfl
  | cons a tl =>
    rw [hd, List.takeWhile_cons] at h
    by_cases ha : (a != NUL) = true
    · rw [if_pos ha] at h; simp at h
    · simp at ha; simp [ha]

theorem peek_char_eq (s : Scanner) : peek_char s = (rest s).headD NUL := by
  unfold peek_char char_at
  cases h : rest s with
  | nil => simpa using restAt_nil h
  | cons c r => simpa using (restAt_cons h).1

theorem rest_ne_NUL {s : Scanner} {c : Char} {r : List Char} (h : rest s = c :: r) : c ≠ NUL :=
  (restAt_cons h).2.1

theorem char_at_succ {s : Scanner} {c : Char} {r : List Char} (h : rest s = c :: r) :
    char_at s (s.current_pos + 1) = r.headD NUL := by
  have h3 := (restAt_cons h).2.2
  unfold char_at
  cases r with
  | nil => simpa using restAt_nil h3
  | cons d r => simpa using (restAt_cons h3).1

theorem rest_eq_nil_iff (s : Scanner) : rest s = [] ↔ peek_char s = NUL := by
  rw [peek_char_eq]
  cases h : rest s with
  | nil => simp
  | cons c r => simp [rest_ne_NUL h]

/-! ## consume_char -/

theorem consume_char_nl {s : Scanner} {r : List Char} (h : rest s = '\n' :: r) :
    consume_char s = { s with line := s.line + 1, column := 1, current_pos := s.current_pos + 1 } ∧
      rest (consume_char s) = r := by
  have h1 := restAt_cons h
  have e : consume_char s =
      { s with line := s.line + 1, column := 1, current_pos := s.current_pos + 1 } := by
    unfold consume_char char_at
    rw [h1.1, if_pos rfl]
  rw [e]
  exact ⟨rfl, h1.2.2⟩

theorem consume_char_crlf {s : Scanner} {r : List Char} (h : rest s = '\r' :: '\n' :: r) :
    consume_char s =
        { s with line := s.line + 1, column := 1, current_pos := s.current_pos + 1 + 1 } ∧
      rest (consume_char s) = r := by
  have h1 := restAt_cons h
  have h2 := restAt_cons h1.2.2
  have e : consume_char s =
      { s with line := s.line + 1, column := 1, current_pos := s.current_pos + 1 + 1 } := by
    unfold consume_char char_at
    rw [h1.1, if_neg (by decide), if_pos rfl, h2.1, if_pos rfl]
  rw [e]
  exact ⟨rfl, h2.2.2⟩

theorem consume_char_plain {s : Scanner} {c : Char} {r : List Char} (h : rest s = c :: r)
    (hn : c ≠ '\n') (hr : c = '\r' → r.headD NUL ≠ '\n') :
    consume_char s = { s with column := s.column + 1, current_pos := s.current_pos + 1 } ∧
      rest (consume_char s) = r := by
  have h1 := restAt_cons h
  have h2 := char_at_succ h
  have e : consume_char s =
      { s with column := s.column + 1, current_pos := s.current_pos + 1 } := by
    unfold consume_char
    unfold char_at at h2
    unfold char_at
    rw [h1.1, if_neg hn]
    by_cases hc : c = '\r'
    · rw [if_pos hc, h2, if_neg (hr hc)]
    · rw [if_neg hc]
  rw [e]
  exact ⟨rfl, h1.2.2⟩

theorem Adv.refl (s : Scanner) : Adv s s := ⟨rfl, rfl, rfl, le_refl _, id⟩

theorem Adv.trans {a b c : Scanner} (h1 : Adv a b) (h2 : Adv b c) : Adv a c :=
  ⟨h2.input.trans h1.input, h2.pos.trans h1.pos, h2.line.trans h1.line, h2.len.trans h1.len,
    fun h => h2.col (h1.col h)⟩

/-- Consuming a character that is not the terminator advances over one
character, or over the two characters of a `\r\n` pair. -/
theorem consume_char_adv {s : Scanner} {c : Char} {r : List Char} (h : rest s = c :: r) :
    Adv s (consume_char s) ∧ (rest (consume_char s)).length < (rest s).length ∧
      (rest (consume_char s) = r ∨ (c = '\r' ∧ r = '\n' :: rest (consume_char s))) := by
  by_cases hn : c = '\n'
  · subst hn
    obtain ⟨e, hr⟩ := consume_char_nl h
    refine ⟨⟨by rw [e], ?_, ?_, ?_, ?_⟩, ?_, Or.inl hr⟩
    · rw [hr, h, e]; simp; omega
    · rw [hr, h, e]; simp; omega
    · rw [hr, h]; simp
    · intro hcol; rw [e]
    · rw [hr, h]; simp
  · by_cases hc : c = '\r' ∧ r.headD NUL = '\n'
    · obtain ⟨hc1, hc2⟩ := hc
      subst hc1
      cases r with
      | nil => simp [NUL] at hc2
      | cons d r =>
        simp at hc2
        subst hc2
        obtain ⟨e, hr⟩ := consume_char_crlf h
        refine ⟨⟨by rw [e], ?_, ?_, ?_, ?_⟩, ?_, Or.inr ⟨rfl, by rw [hr]⟩⟩
        · rw [hr, h, e]; simp; omega
        · rw [hr, h, e]; simp [List.count_cons]; omega
        · rw [hr, h]; simp; omega
        · intro hcol; rw [e]
        · rw [hr, h]; simp; omega
    · obtain ⟨e, hr⟩ := consume_char_plain h hn (fun h1 h2 => hc ⟨h1, h2⟩)
      refine ⟨⟨by rw [e], ?_, ?_, ?_, ?_⟩, ?_, Or.inl hr⟩
      · rw [hr, h, e]; simp; omega
      · rw [hr, h, e]; simp [List.count_cons, Ne.symm hn]
      · rw [hr, h]; simp
      · intro hcol; rw [e]; dsimp only; omega
      · rw [hr, h]; simp

theorem rest_length_lt_fuelOf (s : Scanner) : (rest s).length < fuelOf s := by
  unfold rest restAt fuelOf
  have h1 := (List.takeWhile_sublist (l := s.input.drop s.current_pos) (fun c => c != NUL)).length_le
  have h2 : (s.input.drop s.current_pos).length = s.input.length - s.current_pos := by simp
  omega
/-! ## The lexeme loops -/

theorem restAt_add (input : List Char) (pos : Nat) :
    ∀ k, k ≤ (restAt input pos).length → restAt input (pos + k) = (restAt input pos).drop k := by
  intro k
  induction k generalizing pos with
  | zero => intro _; simp
  | succ k ih =>
    intro hk
    cases h : restAt input pos with
    | nil => rw [h] at hk; simp at hk
    | cons c r =>
      have h1 := (restAt_cons h).2.2
      rw [h] at hk
      have := ih (pos + 1) (by rw [h1]; simpa using hk)
      rw [h1] at this
      rw [show pos + (k + 1) = pos + 1 + k by omega, this]
      simp

theorem lexeme_loop_eq {P : Char → Bool} (hP : PlainClass P) :
    ∀ n s lex, (rest s).length < n →
      lexeme_loop P n s lex =
        some (after_run P s, lex ++ (rest s).takeWhile P) := by
  intro n
  induction n with
  | zero => intro s lex h; omega
  | succ n ih =>
    intro s lex h
    unfold lexeme_loop
    cases hr : rest s with
    | nil =>
      have hp : peek_char s = NUL := (rest_eq_nil_iff s).1 hr
      have : P (peek_char s) = false := by
        rw [hp]
        cases hx : P NUL with
        | false => rfl
        | true => exact absurd rfl (hP NUL hx).1
      simp [this, after_run, hr]
    | cons c r =>
      have hp : peek_char s = c := by rw [peek_char_eq, hr]; rfl
      rw [hp]
      cases hc : P c with
      | false => simp [hc, after_run, hr, List.takeWhile_cons]
      | true =>
        obtain ⟨h1, h2, h3⟩ := hP c hc
        obtain ⟨e, hr1⟩ := consume_char_plain hr h2 (fun h => absurd h h3)
        simp only [if_true]
        rw [ih (consume_char s) (lex ++ [c]) (by rw [hr1]; rw [hr] at h; simpa using h)]
        unfold after_run
        rw [hr1, hr, e]
        simp [List.takeWhile_cons, hc]
        constructor <;> omega

theorem drop_length_takeWhile (P : Char → Bool) (l : List Char) :
    l.drop (l.takeWhile P).length = l.dropWhile P := by
  induction l with
  | nil => rfl
  | cons a l ih =>
    cases h : P a <;> simp [List.takeWhile_cons, List.dropWhile_cons, h, ih]

theorem rest_lexeme_loop {P : Char → Bool} (s : Scanner) :
    rest (after_run P s) = (rest s).dropWhile P := by
  show restAt s.input (s.current_pos + ((rest s).takeWhile P).length) = _
  rw [restAt_add _ _ _ ((List.takeWhile_sublist (l := rest s) P).length_le)]
  exact drop_length_takeWhile P (rest s)

theorem isdigit_plain : PlainClass isdigit := by
  intro c h
  refine ⟨?_, ?_, ?_⟩ <;> (rintro rfl; revert h; decide)

theorem isalnum_plain : PlainClass isalnum := by
  intro c h
  refine ⟨?_, ?_, ?_⟩ <;> (rintro rfl; revert h; decide)

theorem adv_lexeme_loop {P : Char → Bool} (hP : PlainClass P) (s : Scanner) :
    Adv s (after_run P s) := by
  have hl : ((rest s).takeWhile P).length + ((rest s).dropWhile P).length = (rest s).length := by
    rw [← List.length_append, List.takeWhile_append_dropWhile]
  have hc : ((rest s).takeWhile P).count '\n' = 0 := by
    rw [List.count_eq_zero]
    intro hmem
    exact (hP _ (List.mem_takeWhile_imp hmem)).2.1 rfl
  have hc2 : ((rest s).takeWhile P).count '\n' + ((rest s).dropWhile P).count '\n' =
      (rest s).count '\n' := by
    rw [← List.count_append, List.takeWhile_append_dropWhile]
  refine ⟨rfl, ?_, ?_, ?_, ?_⟩
  · rw [rest_lexeme_loop]; show s.current_pos + _ + _ = _; omega
  · rw [rest_lexeme_loop]; show s.line + _ = _; rw [← hc2, hc]; simp
  · rw [rest_lexeme_loop]; omega
  · intro hcol; show (1 : Int) ≤ s.column + _; omega

/-! ## The comment loop -/

theorem comment_loop_total :
    ∀ n s, (rest s).length < n →
      ∃ s' b, comment_loop n s = some (s', b) ∧ Adv s s' ∧ (b = false → rest s' = []) := by
  intro n
  induction n with
  | zero => intro s h; omega
  | succ n ih =>
    intro s h
    unfold comment_loop
    cases hr : rest s with
    | nil =>
      have hp : peek_char s = NUL := (rest_eq_nil_iff s).1 hr
      exact ⟨s, false, by simp [hp], Adv.refl s, fun _ => hr⟩
    | cons c r =>
      have hp : peek_char s = c := by rw [peek_char_eq, hr]; rfl
      have hc : c ≠ NUL := rest_ne_NUL hr
      obtain ⟨ha, hlt, hcase⟩ := consume_char_adv hr
      rw [hp, if_neg hc]
      by_cases hclose : c = '*' ∧ char_at s (s.current_pos + 1) = '/'
      · rw [if_pos hclose]
        refine ⟨_, true, rfl, ?_, by simp⟩
        have h2 : char_at s (s.current_pos + 1) = r.headD NUL := char_at_succ hr
        rw [h2] at hclose
        cases r with
        | nil => simp [NUL] at hclose
        | cons d r =>
          rcases hcase with h3 | h3
          · exact ha.trans (consume_char_adv h3).1
          · obtain ⟨h4, _⟩ := h3
            rw [hclose.1] at h4
            exact absurd h4 (by decide)
      · rw [if_neg hclose]
        obtain ⟨s', b, h1, h2, h3⟩ := ih (consume_char s) (by omega)
        exact ⟨s', b, h1, ha.trans h2, h3⟩

theorem comment_loop_closed :
    ∀ n s b r, (rest s).length < n → rest s = b ++ '*' :: '/' :: r →
      ¬ (['*', '/'] <:+: b ++ ['*']) →
      ∃ s', comment_loop n s = some (s', true) ∧ Adv s s' ∧ rest s' = r := by
  intro n
  induction n with
  | zero => intro s b r h; omega
  | succ n ih =>
    intro s b r h hr hb
    unfold comment_loop
    cases b with
    | nil =>
      simp only [List.nil_append] at hr
      have hp : peek_char s = '*' := by rw [peek_char_eq, hr]; rfl
      have h2 : char_at s (s.current_pos + 1) = '/' := by rw [char_at_succ hr]; rfl
      rw [hp, if_neg (by decide), if_pos ⟨rfl, h2⟩]
      obtain ⟨e1, r1⟩ := consume_char_plain hr (by decide) (fun h => absurd h (by decide))
      obtain ⟨e2, r2⟩ := consume_char_plain r1 (by decide) (fun h => absurd h (by decide))
      exact ⟨_, rfl, (consume_char_adv hr).1.trans (consume_char_adv r1).1, r2⟩
    | cons c b =>
      simp only [List.cons_append] at hr
      have hp : peek_char s = c := by rw [peek_char_eq, hr]; rfl
      have hc : c ≠ NUL := rest_ne_NUL hr
      obtain ⟨ha, hlt, hcase⟩ := consume_char_adv hr
      have h2 : char_at s (s.current_pos + 1) = (b ++ '*' :: '/' :: r).headD NUL :=
        char_at_succ hr
      have hclose : ¬ (c = '*' ∧ char_at s (s.current_pos + 1) = '/') := by
        rintro ⟨rfl, h3⟩
        rw [h2] at h3
        apply hb
        cases b with
        | nil => simp at h3
        | cons d b =>
          simp at h3
          subst h3
          exact ⟨[], b ++ ['*'], by simp⟩
      rw [hp, if_neg hc, if_neg hclose]
      have hb1 : ¬ (['*', '/'] <:+: b ++ ['*']) := by
        intro hx
        apply hb
        obtain ⟨u, v, huv⟩ := hx
        exact ⟨c :: u, v, by simp [← huv]⟩
      rcases hcase with h3 | ⟨h3, h4⟩
      · obtain ⟨s', h5, h6, h7⟩ := ih (consume_char s) b r (by omega) h3 hb1
        exact ⟨s', h5, ha.trans h6, h7⟩
      · cases b with
        | nil => simp at h4
        | cons d b =>
          simp at h4
          have hb2 : ¬ (['*', '/'] <:+: b ++ ['*']) := by
            intro hx
            apply hb1
            obtain ⟨u, v, huv⟩ := hx
            exact ⟨d :: u, v, by simp [← huv]⟩
          obtain ⟨s', h5, h6, h7⟩ := ih (consume_char s) b r (by omega) h4.2.symm hb2
          exact ⟨s', h5, ha.trans h6, h7⟩

theorem comment_loop_unclosed :
    ∀ n s, (rest s).length < n → ¬ (['*', '/'] <:+: rest s) →
      ∃ s', comment_loop n s = some (s', false) ∧ Adv s s' ∧ rest s' = [] := by
  intro n
  induction n with
  | zero => intro s h; omega
  | succ n ih =>
    intro s h hb
    unfold comment_loop
    cases hr : rest s with
    | nil =>
      have hp : peek_char s = NUL := (rest_eq_nil_iff s).1 hr
      exact ⟨s, by simp [hp], Adv.refl s, hr⟩
    | cons c r =>
      have hp : peek_char s = c := by rw [peek_char_eq, hr]; rfl
      have hc : c ≠ NUL := rest_ne_NUL hr
      obtain ⟨ha, hlt, hcase⟩ := consume_char_adv hr
      have h2 : char_at s (s.current_pos + 1) = r.headD NUL := char_at_succ hr
      rw [hr] at hb
      have hclose : ¬ (c = '*' ∧ char_at s (s.current_pos + 1) = '/') := by
        rintro ⟨rfl, h3⟩
        rw [h2] at h3
        apply hb
        cases r with
        | nil => simp [NUL] at h3
        | cons d r =>
          simp at h3
          subst h3
          exact ⟨[], r, by simp⟩
      rw [hp, if_neg hc, if_neg hclose]
      have hb1 : ¬ (['*', '/'] <:+: r) := by
        intro hx
        apply hb
        obtain ⟨u, v, huv⟩ := hx
        exact ⟨c :: u, v, by simp [← huv]⟩
      have hb2 : ¬ (['*', '/'] <:+: rest (consume_char s)) := by
        rcases hcase with h3 | ⟨h3, h4⟩
        · rw [h3]; exact hb1
        · intro hx
          apply hb1
          obtain ⟨u, v, huv⟩ := hx
          exact ⟨'\n' :: u, v, by rw [h4]; simp [← huv]⟩
      obtain ⟨s', h5, h6, h7⟩ := ih (consume_char s) (by omega) hb2
      exact ⟨s', h5, ha.trans h6, h7⟩

/-! ## One call of `get_next_token` -/

theorem rest_of_peek {s : Scanner} {c : Char} (h : peek_char s = c) (hc : c ≠ NUL) :
    ∃ r, rest s = c :: r := by
  rw [peek_char_eq] at h
  cases hr : rest s with
  | nil => rw [hr] at h; exact absurd h.symm hc
  | cons d r => rw [hr] at h; exact ⟨r, by simp at h; rw [h]⟩

theorem make_token_type (s : Scanner) (ty : TokenType) (lex : List Char) :
    (make_token s ty lex).type = ty := rfl

theorem tokenOk_made {s s' : Scanner} {ty : TokenType} {lex : List Char}
    (ha : Adv s s') (hty : ty ≠ TOK_EOF) (hlt : (rest s').length < (rest s).length) :
    TokenOk s (make_token s' ty lex) s' :=
  ⟨ha, ⟨lex, rfl⟩, fun h => absurd h hty, fun _ => hlt⟩

theorem scan_two_ok {s : Scanner} {c : Char} {r : List Char} (hr : rest s = c :: r)
    (two one : TokenType) (twoLex oneLex : List Char)
    (h2 : two ≠ TOK_EOF) (h1 : one ≠ TOK_EOF) :
    TokenOk s (scan_two s two twoLex one oneLex).1 (scan_two s two twoLex one oneLex).2 := by
  obtain ⟨ha, hlt, _⟩ := consume_char_adv hr
  unfold scan_two
  by_cases hp : peek_char (consume_char s) = '='
  · obtain ⟨r2, hr2⟩ := rest_of_peek hp (by decide)
    obtain ⟨ha2, hlt2, _⟩ := consume_char_adv hr2
    simp only [hp, if_true]
    exact tokenOk_made (ha.trans ha2) h2 (by omega)
  · simp only [hp, if_false]
    exact tokenOk_made ha h1 hlt

theorem ite_prop {α : Type} (Q : α → Prop) (p : Prop) [Decidable p] {a b : α}
    (ha : Q a) (hb : Q b) : Q (if p then a else b) := by
  split <;> assumption

theorem scan_switch_ok {s : Scanner} {c : Char} {r : List Char} (hr : rest s = c :: r) :
    TokenOk s (scan_switch c s).1 (scan_switch c s).2 := by
  obtain ⟨ha, hlt, _⟩ := consume_char_adv hr
  let Q : Token × Scanner → Prop := fun x => TokenOk s x.1 x.2
  have one : ∀ (ty : TokenType) (lex : List Char), ty ≠ TOK_EOF →
      Q (make_token (consume_char s) ty lex, consume_char s) :=
    fun ty lex h => tokenOk_made ha h hlt
  have two : ∀ (t2 : TokenType) (l2 : List Char) (t1 : TokenType) (l1 : List Char),
      t2 ≠ TOK_EOF → t1 ≠ TOK_EOF → Q (scan_two s t2 l2 t1 l1) :=
    fun t2 l2 t1 l1 h2 h1 => scan_two_ok hr t2 t1 l2 l1 h2 h1
  show Q (scan_switch c s)
  unfold scan_switch
  exact
    ite_prop Q _ (one TOK_PLUS _ (by decide)) <| ite_prop Q _ (one TOK_MINUS _ (by decide)) <|
    ite_prop Q _ (one TOK_MUL _ (by decide)) <| ite_prop Q _ (one TOK_DIV _ (by decide)) <|
    ite_prop Q _ (two TOK_EQ _ TOK_ASSIGN _ (by decide) (by decide)) <|
    ite_prop Q _ (two TOK_LTE _ TOK_LT _ (by decide) (by decide)) <|
    ite_prop Q _ (two TOK_GTE _ TOK_GT _ (by decide) (by decide)) <|
    ite_prop Q _ (two TOK_NEQ _ TOK_ERROR _ (by decide) (by decide)) <|
    ite_prop Q _ (one TOK_SEMI _ (by decide)) <| ite_prop Q _ (one TOK_LBRACE _ (by decide)) <|
    ite_prop Q _ (one TOK_RBRACE _ (by decide)) <| ite_prop Q _ (one TOK_LPAREN _ (by decide)) <|
    ite_prop Q _ (one TOK_RPAREN _ (by decide)) <| one TOK_ERROR _ (by decide)

theorem keyword_or_id_ne_eof (lex : List Char) : keyword_or_id lex ≠ TOK_EOF := by
  unfold keyword_or_id
  split_ifs <;> decide

theorem lexeme_loop_ok {P : Char → Bool} (hP : PlainClass P) (n : Nat) (s : Scanner)
    (lex : List Char) (h : (rest s).length < n) :
    ∃ s' lex', lexeme_loop P n s lex = some (s', lex') ∧ Adv s s' :=
  ⟨_, _, lexeme_loop_eq hP n s lex h, adv_lexeme_loop hP s⟩

theorem scan_fraction_ok (s1 : Scanner) (l1 : List Char) :
    ∃ s2 l2, scan_fraction s1 l1 = some (s2, l2) ∧ Adv s1 s2 := by
  unfold scan_fraction
  by_cases hp : peek_char s1 = '.'
  · obtain ⟨r, hr⟩ := rest_of_peek hp (by decide)
    obtain ⟨ha, hlt, _⟩ := consume_char_adv hr
    obtain ⟨s2, l2, e, ha2⟩ := lexeme_loop_ok isdigit_plain (fuelOf s1) (consume_char s1)
      (l1 ++ [peek_char s1]) (by have := rest_length_lt_fuelOf s1; omega)
    rw [if_pos hp]
    exact ⟨s2, l2, e, ha.trans ha2⟩
  · rw [if_neg hp]
    exact ⟨s1, l1, rfl, Adv.refl s1⟩

theorem scan_sign_adv (s3 : Scanner) (l3 : List Char) : Adv s3 (scan_sign s3 l3).1 := by
  unfold scan_sign
  by_cases hp : peek_char s3 = '+' ∨ peek_char s3 = '-'
  · rw [if_pos hp]
    have hn : peek_char s3 ≠ NUL := by
      rcases hp with h | h <;> rw [h] <;> decide
    obtain ⟨r, hr⟩ := rest_of_peek rfl hn
    exact (consume_char_adv hr).1
  · rw [if_neg hp]
    exact Adv.refl s3

theorem scan_exponent_ok (s2 : Scanner) (l2 : List Char) :
    ∃ s5 l5, scan_exponent s2 l2 = some (s5, l5) ∧ Adv s2 s5 := by
  unfold scan_exponent
  by_cases hp : tolower (peek_char s2) = 'e'
  · have hn : peek_char s2 ≠ NUL := by
      intro h
      rw [h] at hp
      revert hp
      decide
    obtain ⟨r, hr⟩ := rest_of_peek rfl hn
    obtain ⟨ha, hlt, _⟩ := consume_char_adv hr
    have ha3 := scan_sign_adv (consume_char s2) (l2 ++ [peek_char s2])
    obtain ⟨s5, l5, e, ha5⟩ := lexeme_loop_ok isdigit_plain
      (fuelOf (scan_sign (consume_char s2) (l2 ++ [peek_char s2])).1)
      (scan_sign (consume_char s2) (l2 ++ [peek_char s2])).1
      (scan_sign (consume_char s2) (l2 ++ [peek_char s2])).2 (rest_length_lt_fuelOf _)
    rw [if_pos hp]
    exact ⟨s5, l5, e, (ha.trans ha3).trans ha5⟩
  · rw [if_neg hp]
    exact ⟨s2, l2, rfl, Adv.refl s2⟩

theorem scan_number_ok {s : Scanner} {c : Char} {r : List Char} (hr : rest s = c :: r)
    (hc : isdigit c = true) :
    ∃ s' lex, scan_number s = some (make_token s' TOK_NUM lex, s') ∧ Adv s s' ∧
      (rest s').length < (rest s).length := by
  have e1 := lexeme_loop_eq isdigit_plain (fuelOf s) s [] (rest_length_lt_fuelOf s)
  have a1 := adv_lexeme_loop isdigit_plain s
  have l1 : (rest (after_run isdigit s)).length < (rest s).length := by
    rw [rest_lexeme_loop, hr, List.dropWhile_cons, hc]
    have := (List.dropWhile_suffix (l := r) isdigit).length_le
    simp only [List.length_cons, if_true]; omega
  obtain ⟨s2, l2, e2, a2⟩ := scan_fraction_ok (after_run isdigit s)
    ([] ++ (rest s).takeWhile isdigit)
  obtain ⟨s5, l5, e5, a5⟩ := scan_exponent_ok s2 l2
  refine ⟨s5, l5, ?_, a1.trans (a2.trans a5), ?_⟩
  · unfold scan_number
    rw [e1]
    simp only [e2, e5]
  · have := a2.len
    have := a5.len
    omega

theorem isspace_ne_NUL {c : Char} (h : isspace c = true) : c ≠ NUL := by
  rintro rfl; revert h; decide

theorem get_next_token_loop_ok :
    ∀ n s, (rest s).length < n →
      ∃ t s', get_next_token_loop n s = some (t, s') ∧ TokenOk s t s' := by
  intro n
  induction n with
  | zero => intro s h; omega
  | succ n ih =>
    intro s h
    unfold get_next_token_loop
    simp only
    cases hr : rest s with
    | nil =>
      have hp : peek_char s = NUL := (rest_eq_nil_iff s).1 hr
      rw [if_pos hp]
      exact ⟨_, _, rfl, Adv.refl s, ⟨[], rfl⟩, fun _ => ⟨hr, rfl⟩, fun h => absurd rfl h⟩
    | cons c r =>
      have hp : peek_char s = c := by rw [peek_char_eq, hr]; rfl
      have hc : c ≠ NUL := rest_ne_NUL hr
      obtain ⟨ha, hlt, _⟩ := consume_char_adv hr
      rw [hp, if_neg hc]
      by_cases hs : isspace c = true
      · rw [if_pos hs]
        obtain ⟨t, s', e, ok⟩ := ih (consume_char s) (by omega)
        exact ⟨t, s', e, ha.trans ok.adv, ok.made, ok.eof, fun h => by
          have := ok.progress h; omega⟩
      · rw [if_neg hs]
        by_cases hcm : c = '/' ∧ char_at s (s.current_pos + 1) = '*'
        · rw [if_pos hcm]
          have hp2 : peek_char (consume_char s) = '*' := by
            have h2 := char_at_succ hr
            rw [hcm.2] at h2
            obtain ⟨e, hr1⟩ := consume_char_plain hr (by rw [hcm.1]; decide)
              (fun h => absurd (hcm.1.symm.trans h) (by decide))
            rw [peek_char_eq, hr1]
            exact h2.symm
          obtain ⟨r2, hr2⟩ := rest_of_peek hp2 (by decide)
          obtain ⟨ha2, hlt2, _⟩ := consume_char_adv hr2
          obtain ⟨s1, b, e, ha3, hb⟩ := comment_loop_total (fuelOf s)
            (consume_char (consume_char s)) (by have := rest_length_lt_fuelOf s; omega)
          rw [e]
          have hlen := ha3.len
          cases b with
          | false =>
            refine ⟨_, _, rfl, tokenOk_made ((ha.trans ha2).trans ha3) (by decide) ?_⟩
            rw [hb rfl]; simp; omega
          | true =>
            obtain ⟨t, s', e2, ok⟩ := ih s1 (by omega)
            exact ⟨t, s', e2, ((ha.trans ha2).trans ha3).trans ok.adv, ok.made, ok.eof,
              fun h => by have := ok.progress h; omega⟩
        · rw [if_neg hcm]
          by_cases hal : isalpha c = true
          · rw [if_pos hal]
            rw [lexeme_loop_eq isalnum_plain (fuelOf s) s [] (rest_length_lt_fuelOf s)]
            refine ⟨_, _, rfl, tokenOk_made (adv_lexeme_loop isalnum_plain s)
              (keyword_or_id_ne_eof _) ?_⟩
            rw [rest_lexeme_loop, hr, List.dropWhile_cons]
            have hx : isalnum c = true := by simp [isalnum, hal]
            have := (List.dropWhile_suffix (l := r) isalnum).length_le
            simp only [hx, if_true, List.length_cons]; omega
          · rw [if_neg hal]
            by_cases hd : isdigit c = true
            · rw [if_pos hd]
              obtain ⟨s', lex, e, ha', hlt'⟩ := scan_number_ok hr hd
              exact ⟨_, _, e, tokenOk_made ha' (by decide) hlt'⟩
            · rw [if_neg hd]
              have := scan_switch_ok hr
              exact ⟨_, _, rfl, this⟩

theorem get_next_token_loop_mono :
    ∀ n s r, get_next_token_loop n s = some r → get_next_token_loop (n + 1) s = some r := by
  intro n
  induction n with
  | zero => intro s r h; simp [get_next_token_loop] at h
  | succ n ih =>
    intro s r h
    rw [get_next_token_loop] at h
    rw [get_next_token_loop]
    split_ifs at h ⊢ with h1 h2 h3 h4 h5
    · exact h
    · exact ih _ _ h
    · cases hc : comment_loop (fuelOf s) (consume_char (consume_char s)) with
      | none => rw [hc] at h; simp at h
      | some p =>
        obtain ⟨s1, b⟩ := p
        rw [hc] at h
        cases b with
        | false => exact h
        | true => exact ih _ _ h
    · exact h
    · exact h
    · exact h

theorem get_next_token_loop_fuel {n : Nat} {s : Scanner} (h : (rest s).length < n) :
    get_next_token_loop n s = get_next_token s := by
  have mono_add : ∀ k m r, get_next_token_loop m s = some r →
      get_next_token_loop (m + k) s = some r := by
    intro k
    induction k with
    | zero => intro m r h; exact h
    | succ k ih => intro m r h; exact get_next_token_loop_mono _ _ _ (ih m r h)
  obtain ⟨t1, s1, e1, _⟩ := get_next_token_loop_ok n s h
  obtain ⟨t2, s2, e2, _⟩ := get_next_token_loop_ok (fuelOf s) s (rest_length_lt_fuelOf s)
  have a := mono_add (fuelOf s) n _ e1
  have b := mono_add n (fuelOf s) _ e2
  rw [Nat.add_comm] at b
  rw [a] at b
  unfold get_next_token
  rw [e1, e2, b]

/-- Every call of `get_next_token` returns. -/
theorem get_next_token_ok (s : Scanner) :
    ∃ t s', get_next_token s = some (t, s') ∧ TokenOk s t s' :=
  get_next_token_loop_ok (fuelOf s) s (rest_length_lt_fuelOf s)

theorem tokenOk_of_eq {s s' : Scanner} {t : Token} (h : get_next_token s = some (t, s')) :
    TokenOk s t s' := by
  obtain ⟨t1, s1, e, ok⟩ := get_next_token_ok s
  rw [h] at e
  cases e
  exact ok

/-! ## Skipping whitespace and comments -/

theorem get_next_token_unfold (s : Scanner) :
    get_next_token s = get_next_token_loop ((rest s).length + 1) s :=
  (get_next_token_loop_fuel (Nat.lt_succ_self _)).symm

theorem get_next_token_space {s : Scanner} {c : Char} {r : List Char} (hr : rest s = c :: r)
    (hs : isspace c = true) : get_next_token s = get_next_token (consume_char s) := by
  have hp : peek_char s = c := by rw [peek_char_eq, hr]; rfl
  obtain ⟨ha, hlt, _⟩ := consume_char_adv hr
  rw [get_next_token_unfold s, get_next_token_loop]
  simp only [hp, if_neg (isspace_ne_NUL hs), hs, if_true]
  exact get_next_token_loop_fuel hlt

theorem get_next_token_comment {s : Scanner} {r : List Char} (hr : rest s = '/' :: '*' :: r) :
    rest (consume_char (consume_char s)) = r ∧ Adv s (consume_char (consume_char s)) ∧
    ∀ s1 b, comment_loop (fuelOf s) (consume_char (consume_char s)) = some (s1, b) →
      Adv (consume_char (consume_char s)) s1 →
      get_next_token s =
        if b then get_next_token s1
        else some (make_token s1 TOK_ERROR "Unclosed comment".toList, s1) := by
  have hp : peek_char s = '/' := by rw [peek_char_eq, hr]; rfl
  have h2 : char_at s (s.current_pos + 1) = '*' := by rw [char_at_succ hr]; rfl
  obtain ⟨e1, r1⟩ := consume_char_plain hr (by decide) (fun h => absurd h (by decide))
  obtain ⟨e2, r2⟩ := consume_char_plain r1 (by decide) (fun h => absurd h (by decide))
  have a1 := (consume_char_adv hr).1
  have a2 := (consume_char_adv r1).1
  refine ⟨r2, a1.trans a2, ?_⟩
  intro s1 b hb ha
  rw [get_next_token_unfold s, get_next_token_loop]
  have hns : isspace '/' = false := by decide
  have hnn : ¬ ('/' = NUL) := by decide
  simp only [hp, h2, hns, hb, hnn, if_false, and_self, if_true, Bool.false_eq_true]
  cases b with
  | false => simp
  | true =>
    simp only [if_true]
    apply get_next_token_loop_fuel
    have := ha.len
    rw [r2] at this
    rw [hr]
    simp only [List.length_cons]
    omega

theorem wsComments_tail_nl {w : List Char} (h : WsComments ('\n' :: w)) : WsComments w := by
  cases h with
  | space _ hr => exact hr

theorem skip_ws_comments :
    ∀ k s w r, (rest s).length < k → rest s = w ++ r → WsComments w → r.headD NUL ≠ '\n' →
      ∃ s1, Adv s s1 ∧ rest s1 = r ∧ get_next_token s = get_next_token s1 := by
  intro k
  induction k with
  | zero => intro s w r h; omega
  | succ k ih =>
    intro s w r hk hr hw hn
    cases hw with
    | nil => exact ⟨s, Adv.refl s, by simpa using hr, rfl⟩
    | @space c w1 hc hw1 =>
      simp only [List.cons_append] at hr
      obtain ⟨ha, hlt, hcase⟩ := consume_char_adv hr
      have e := get_next_token_space hr hc
      rcases hcase with h1 | ⟨h1, h2⟩
      · obtain ⟨s1, a1, r1, e1⟩ := ih (consume_char s) w1 r (by omega) h1 hw1 hn
        exact ⟨s1, ha.trans a1, r1, e.trans e1⟩
      · cases w1 with
        | nil =>
          simp only [List.nil_append] at h2
          rw [h2] at hn
          exact absurd rfl hn
        | cons d w2 =>
          simp only [List.cons_append, List.cons.injEq] at h2
          obtain ⟨h3, h4⟩ := h2
          subst h3
          obtain ⟨s1, a1, r1, e1⟩ :=
            ih (consume_char s) w2 r (by omega) h4.symm (wsComments_tail_nl hw1) hn
          exact ⟨s1, ha.trans a1, r1, e.trans e1⟩
    | @comment b w1 hb hw1 =>
      simp only [List.cons_append, List.append_assoc] at hr
      obtain ⟨r2, a2, hstep⟩ := get_next_token_comment hr
      obtain ⟨s1, hc, a3, r3⟩ := comment_loop_closed (fuelOf s) (consume_char (consume_char s))
        b (w1 ++ r) (by have := rest_length_lt_fuelOf s; have := a2.len; omega) r2 hb
      have e := hstep s1 true hc a3
      simp only [if_true] at e
      have hlen : (rest s1).length < k := by
        rw [r3]
        rw [hr] at hk
        simp only [List.length_cons, List.length_append] at hk ⊢
        omega
      obtain ⟨s2, a4, r4, e4⟩ := ih s1 w1 r hlen r3 hw1 hn
      exact ⟨s2, (a2.trans a3).trans a4, r4, e.trans e4⟩

/-! ## Claims about the scanner -/

/-- C1: after `init_scanner` on `"x12 = 3.5e-2;"`, five successive calls of
`get_next_token` return identifier `x12`, `=`, number `3.5e-2`, `;` and
end-of-input, in this order. -/
theorem tokenize_x12_example :
    (scan_calls 5 (init_scanner "x12 = 3.5e-2;".toList)).map
        (fun r => r.1.map (fun t => (t.type, t.lexeme))) =
      some [(TOK_ID, "x12".toList), (TOK_ASSIGN, "=".toList), (TOK_NUM, "3.5e-2".toList),
        (TOK_SEMI, ";".toList), (TOK_EOF, [])] := by
  decide

theorem get_next_token_at_end {s : Scanner} (h : rest s = []) :
    get_next_token s = some (make_token s TOK_EOF [], s) := by
  have hp : peek_char s = NUL := (rest_eq_nil_iff s).1 h
  unfold get_next_token fuelOf
  rw [get_next_token_loop]
  simp only [hp, if_true]

/-- C5 as stated fails: on the buffer `" "` the first call returns
end-of-input and has moved the cursor over the blank. -/
theorem eof_call_moves_cursor_example :
    ∃ t s', get_next_token (init_scanner [' ']) = some (t, s') ∧ t.type = TOK_EOF ∧
      s' ≠ init_scanner [' '] :=
  ⟨_, _, by rfl, by decide, by decide⟩

/-- C5 (amended): when a call of `get_next_token` returns end-of-input, the
cursor stands on the terminator of the unread input (it has not moved past it),
the state is unchanged if the cursor already stood there, and every later call
returns the same end-of-input token and leaves that state unchanged. -/
theorem eof_is_fixed_point (s : Scanner) (t : Token) (s' : Scanner)
    (h : get_next_token s = some (t, s')) (ht : t.type = TOK_EOF) :
    peek_char s' = NUL ∧ s'.current_pos = s.current_pos + (rest s).length ∧
      (peek_char s = NUL → s' = s) ∧
      get_next_token s' = some (t, s') ∧
      ∀ n, scan_calls n s' = some (List.replicate n t, s') := by
  have ok := tokenOk_of_eq h
  obtain ⟨hr, hm⟩ := ok.eof ht
  have hfix : get_next_token s' = some (t, s') := by
    rw [get_next_token_at_end hr, ← hm]
  refine ⟨(rest_eq_nil_iff s').1 hr, ?_, ?_, hfix, ?_⟩
  · have := ok.adv.pos
    rw [hr] at this
    simpa using this
  · intro hp
    have := get_next_token_at_end ((rest_eq_nil_iff s).2 hp)
    rw [h] at this
    cases this
    rfl
  · intro n
    induction n with
    | zero => rfl
    | succ n ih =>
      rw [scan_calls, hfix]
      simp only [ih, List.replicate_succ]

theorem eof_is_fixed_point_witness :
    get_next_token (init_scanner [' ']) =
        some (make_token ⟨[' '], 1, 1, 2⟩ TOK_EOF [], ⟨[' '], 1, 1, 2⟩) ∧
      (peek_char ⟨[' '], 1, 1, 2⟩ = NUL ∧
        (1 : Nat) = (init_scanner [' ']).current_pos + (rest (init_scanner [' '])).length ∧
        (peek_char (init_scanner [' ']) = NUL → (⟨[' '], 1, 1, 2⟩ : Scanner) = init_scanner [' ']) ∧
        get_next_token ⟨[' '], 1, 1, 2⟩ =
          some (make_token ⟨[' '], 1, 1, 2⟩ TOK_EOF [], ⟨[' '], 1, 1, 2⟩) ∧
        ∀ n, scan_calls n ⟨[' '], 1, 1, 2⟩ =
          some (List.replicate n (make_token ⟨[' '], 1, 1, 2⟩ TOK_EOF []), ⟨[' '], 1, 1, 2⟩)) :=
  ⟨by rfl, eof_is_fixed_point (init_scanner [' ']) (make_token ⟨[' '], 1, 1, 2⟩ TOK_EOF [])
    ⟨[' '], 1, 1, 2⟩ (by rfl) (by rfl)⟩

theorem rest_init_scanner (input : List Char) : rest (init_scanner input) = cstr input := by
  simp [rest, restAt, init_scanner, cstr]

theorem scan_calls_reaches_eof :
    ∀ k s, (rest s).length < k →
      ∃ n ts s' t, n ≤ (rest s).length + 1 ∧ scan_calls n s = some (ts, s') ∧
        ts.getLast? = some t ∧ t.type = TOK_EOF := by
  intro k
  induction k with
  | zero => intro s h; omega
  | succ k ih =>
    intro s h
    obtain ⟨t, s1, e, ok⟩ := get_next_token_ok s
    by_cases hty : t.type = TOK_EOF
    · refine ⟨1, [t], s1, t, by omega, ?_, rfl, hty⟩
      simp [scan_calls, e]
    · have hlt := ok.progress hty
      obtain ⟨n, ts, s', t', hn, hs, hl, ht'⟩ := ih s1 (by omega)
      refine ⟨n + 1, t :: ts, s', t', by omega, ?_, ?_, ht'⟩
      · simp [scan_calls, e, hs]
      · cases ts with
        | nil => simp at hl
        | cons a ts => simpa [List.getLast?_cons_cons] using hl

/-- C8 as stated fails: on the buffer `"\r"` (a carriage return followed by the
terminator) `consume_char` leaves `line` at 1 and sets `column` to 2. -/
theorem bare_cr_no_line_advance_example :
    peek_char (init_scanner ['\r']) = '\r' ∧
      char_at (init_scanner ['\r']) ((init_scanner ['\r']).current_pos + 1) ≠ '\n' ∧
      (consume_char (init_scanner ['\r'])).line = (init_scanner ['\r']).line ∧
      (consume_char (init_scanner ['\r'])).column = 2 ∧
      ¬ ((consume_char (init_scanner ['\r'])).line = (init_scanner ['\r']).line + 1 ∧
          (consume_char (init_scanner ['\r'])).column = 1) := by
  decide

/-- C8 (amended): at a `\r` whose next character is not `\n`, `consume_char`
treats the `\r` as an ordinary character: `line` is unchanged, `column` and the
cursor grow by 1. -/
theorem bare_cr_is_plain_char (s : Scanner) (h1 : peek_char s = '\r')
    (h2 : char_at s (s.current_pos + 1) ≠ '\n') :
    consume_char s = { s with column := s.column + 1, current_pos := s.current_pos + 1 } := by
  unfold peek_char at h1
  unfold consume_char
  rw [h1, if_neg (by decide), if_pos rfl, if_neg h2]

theorem bare_cr_is_plain_char_witness :
    consume_char (init_scanner "\rx".toList) = ⟨"\rx".toList, 1, 1, 2⟩ :=
  bare_cr_is_plain_char (init_scanner "\rx".toList) (by decide) (by decide)

/-- C6 as stated fails: the buffer `"\r"` is whitespace only and has one line
ending by the count of section 4.1, but the end-of-input token is at line 1,
not at line 2. -/
theorem ws_only_bare_cr_example :
    WsComments ['\r'] ∧
      ∃ t s', get_next_token (init_scanner ['\r']) = some (t, s') ∧ t.type = TOK_EOF ∧
        t.line = 1 ∧ t.line ≠ 1 + (line_endings ['\r'] : Int) :=
  ⟨WsComments.space (by decide) WsComments.nil, _, _, by rfl, by decide, by decide, by decide⟩

/-- C6 (amended): for every buffer whose text consists only of whitespace and
terminated block comments, the first token after `init_scanner` is
end-of-input and its `line` is 1 plus the number of `\n` characters of the
text (comments included): a `\r\n` pair and a bare `\n` count once, a bare
`\r` does not count. -/
theorem ws_only_first_token_eof (input : List Char) (h : WsComments (cstr input)) :
    ∃ t s', get_next_token (init_scanner input) = some (t, s') ∧ t.type = TOK_EOF ∧
      t.line = 1 + ((cstr input).count '\n' : Int) := by
  have hr := rest_init_scanner input
  obtain ⟨s1, a1, r1, e1⟩ := skip_ws_comments _ (init_scanner input) (cstr input) []
    (Nat.lt_succ_self _) (by simp [hr]) h (by decide)
  refine ⟨make_token s1 TOK_EOF [], s1, ?_, rfl, ?_⟩
  · rw [e1, get_next_token_at_end r1]
  · have := a1.line
    rw [r1, hr] at this
    simpa [make_token, init_scanner] using this

theorem ws_only_first_token_eof_witness :
    WsComments (cstr "/**/\n".toList) ∧
      ∃ t s', get_next_token (init_scanner "/**/\n".toList) = some (t, s') ∧
        t.type = TOK_EOF ∧ t.line = 1 + ((cstr "/**/\n".toList).count '\n' : Int) :=
  have h : WsComments (cstr "/**/\n".toList) :=
    WsComments.comment (b := []) (by decide) (WsComments.space (by decide) WsComments.nil)
  ⟨h, ws_only_first_token_eof "/**/\n".toList h⟩

/-- C9 as stated fails: in `"/*\nx"` the comment opens on line 1, but the
lexical-error token carries line 2, the line on which the input ends. -/
theorem unclosed_comment_line_example :
    ∃ t s', get_next_token (init_scanner "/*\nx".toList) = some (t, s') ∧
      t.type = TOK_ERROR ∧ t.lexeme = "Unclosed comment".toList ∧
      (init_scanner "/*\nx".toList).line = 1 ∧ t.line = 2 :=
  ⟨_, _, by rfl, by decide, by decide, by decide, by decide⟩

/-- C9 (amended): when, after whitespace and terminated comments `w`, the
unread input is `/*` followed by a body in which no `*/` occurs, the call of
`get_next_token` returns a lexical-error token with text `Unclosed comment`
and the scanner stands at the terminator.  The token's `line` is the line of
the end of the input: the line on which the `/*` stands (`s.line` plus the
`\n` characters of `w`) plus the number of `\n` characters in the body; it is
the line of the `/*` when the body has no `\n`. -/
theorem unclosed_comment_token (s : Scanner) (w body : List Char)
    (hr : rest s = w ++ '/' :: '*' :: body) (hw : WsComments w)
    (hbody : ¬ (['*', '/'] <:+: body)) :
    ∃ t s', get_next_token s = some (t, s') ∧ t.type = TOK_ERROR ∧
      t.lexeme = "Unclosed comment".toList ∧ peek_char s' = NUL ∧
      t.line = (s.line + (w.count '\n' : Int)) + (body.count '\n' : Int) ∧
      ('\n' ∉ body → t.line = s.line + (w.count '\n' : Int)) := by
  obtain ⟨s1, a1, r1, e1⟩ := skip_ws_comments _ s w ('/' :: '*' :: body)
    (Nat.lt_succ_self _) hr hw (by simp)
  obtain ⟨r2, a2, hstep⟩ := get_next_token_comment r1
  obtain ⟨s2, hc, a3, r3⟩ := comment_loop_unclosed (fuelOf s1) (consume_char (consume_char s1))
    (by have := rest_length_lt_fuelOf s1; have := a2.len; omega) (by rw [r2]; exact hbody)
  have e := hstep s2 false hc a3
  simp only [Bool.false_eq_true, if_false] at e
  have hline : s2.line = (s.line + (w.count '\n' : Int)) + (body.count '\n' : Int) := by
    have := (a1.trans (a2.trans a3)).line
    rw [r3, hr] at this
    simp only [List.count_nil, List.count_append, List.count_cons] at this
    simp at this
    omega
  refine ⟨_, s2, e1.trans e, rfl, by rfl, (rest_eq_nil_iff s2).1 r3, hline, ?_⟩
  intro hnl
  have : body.count '\n' = 0 := List.count_eq_zero.2 hnl
  show s2.line = _
  rw [hline, this]
  simp

theorem unclosed_comment_token_witness :
    ∃ t s', get_next_token (init_scanner "/* abc".toList) = some (t, s') ∧ t.type = TOK_ERROR ∧
      t.lexeme = "Unclosed comment".toList ∧ peek_char s' = NUL ∧
      t.line = ((init_scanner "/* abc".toList).line + (([] : List Char).count '\n' : Int)) +
        (" abc".toList.count '\n' : Int) ∧
      ('\n' ∉ " abc".toList →
        t.line = (init_scanner "/* abc".toList).line + (([] : List Char).count '\n' : Int)) :=
  unclosed_comment_token (init_scanner "/* abc".toList) [] " abc".toList (by decide)
    WsComments.nil (by decide)

/-! ## The parser: basic facts -/

theorem bind_ok {x : Except Stop Parser} {f : Parser → Except Stop Parser} {r : Parser}
    (h : (x >>= f) = .ok r) : ∃ a, x = .ok a ∧ f a = .ok r := by
  cases x with
  | error e => cases h
  | ok a => exact ⟨a, rfl, h⟩

theorem match_ok {e : TokenType} {p p' : Parser} (h : match_ e p = .ok p') :
    p.lookahead.type = e ∧ get_next_token p.sc = some (p'.lookahead, p'.sc) := by
  unfold match_ at h
  split_ifs at h with h1
  cases hg : get_next_token p.sc with
  | none => rw [hg] at h; cases h
  | some r =>
    obtain ⟨t, sc⟩ := r
    rw [hg] at h
    simp only [Except.ok.injEq] at h
    subst h
    exact ⟨h1, rfl⟩

theorem match_consumed {e : TokenType} {p p' : Parser} (h : match_ e p = .ok p')
    (he : e ≠ TOK_EOF) : Consumed p [e] p' := by
  obtain ⟨h1, h2⟩ := match_ok h
  exact ⟨h1, he, p'.lookahead, p'.sc, h2, rfl⟩

theorem Consumed.append {w1 w2 : List TokenType} :
    ∀ {p p1 p2 : Parser}, Consumed p w1 p1 → Consumed p1 w2 p2 → Consumed p (w1 ++ w2) p2 := by
  induction w1 with
  | nil => intro p p1 p2 h1 h2; cases h1; exact h2
  | cons k w ih =>
    intro p p1 p2 h1 h2
    obtain ⟨ha, hb, t, sc, hg, hc⟩ := h1
    exact ⟨ha, hb, t, sc, hg, ih hc h2⟩

theorem factor_succ (fuel : Nat) (p : Parser) :
    factor (fuel + 1) p =
      match p.lookahead.type with
      | TOK_ID => match_ TOK_ID p
      | TOK_NUM => match_ TOK_NUM p
      | TOK_LPAREN => do
        let p1 ← match_ TOK_LPAREN p
        let p2 ← expression fuel p1
        match_ TOK_RPAREN p2
      | _ => report_error "Unexpected token in factor" p.lookahead p := by
  rw [factor]

theorem term_succ (fuel : Nat) (p : Parser) :
    term (fuel + 1) p = (factor fuel p >>= term_loop fuel) := by
  rw [term]

theorem term_loop_succ (fuel : Nat) (p : Parser) :
    term_loop (fuel + 1) p =
      if p.lookahead.type = TOK_MUL ∨ p.lookahead.type = TOK_DIV then
        match_ p.lookahead.type p >>= fun p1 => factor fuel p1 >>= term_loop fuel
      else .ok p := by
  rw [term_loop]

theorem additive_expression_succ (fuel : Nat) (p : Parser) :
    additive_expression (fuel + 1) p = (term fuel p >>= additive_expression_loop fuel) := by
  rw [additive_expression]

theorem additive_expression_loop_succ (fuel : Nat) (p : Parser) :
    additive_expression_loop (fuel + 1) p =
      if p.lookahead.type = TOK_PLUS ∨ p.lookahead.type = TOK_MINUS then
        match_ p.lookahead.type p >>= fun p1 => term fuel p1 >>= additive_expression_loop fuel
      else .ok p := by
  rw [additive_expression_loop]

theorem expression_succ (fuel : Nat) (p : Parser) :
    expression (fuel + 1) p =
      (additive_expression fuel p >>= fun p1 =>
        if p1.lookahead.type = TOK_LT ∨ p1.lookahead.type = TOK_GT ∨
            p1.lookahead.type = TOK_LTE ∨ p1.lookahead.type = TOK_GTE ∨
            p1.lookahead.type = TOK_EQ ∨ p1.lookahead.type = TOK_NEQ then
          match_ p1.lookahead.type p1 >>= additive_expression fuel
        else .ok p1) := by
  rw [expression]

/-! ## Soundness of the expression parser -/

theorem term_of_tail {f w : List TokenType} (hf : Derives .factor f) (hw : TermTail w) :
    Derives .term (f ++ w) := by
  rcases hw with rfl | ⟨op, t, hop, ht, rfl⟩
  · simpa using Derives.term_one hf
  · exact Derives.term_more hf hop ht

theorem additive_of_tail {t w : List TokenType} (ht : Derives .term t) (hw : AdditiveTail w) :
    Derives .additive (t ++ w) := by
  rcases hw with rfl | ⟨op, a, hop, ha, rfl⟩
  · simpa using Derives.additive_one ht
  · exact Derives.additive_more ht hop ha

theorem expr_sound : ∀ fuel, ExprSound fuel := by
  intro fuel
  induction fuel with
  | zero =>
    refine ⟨?_, ?_, ?_, ?_, ?_, ?_⟩ <;> intro p p' h
    · rw [factor] at h; cases h
    · rw [term_loop] at h; cases h
    · rw [term] at h; cases h
    · rw [additive_expression_loop] at h; cases h
    · rw [additive_expression] at h; cases h
    · rw [expression] at h; cases h
  | succ fuel ih =>
    obtain ⟨ihF, ihTL, ihT, ihAL, ihA, ihE⟩ := ih
    refine ⟨?_, ?_, ?_, ?_, ?_, ?_⟩ <;> intro p p' h
    · rw [factor_succ] at h
      split at h
      · exact ⟨_, Derives.factor_id, match_consumed h (by decide)⟩
      · exact ⟨_, Derives.factor_num, match_consumed h (by decide)⟩
      · obtain ⟨p1, h1, h⟩ := bind_ok h
        obtain ⟨p2, h2, h3⟩ := bind_ok h
        obtain ⟨e, he, hc⟩ := ihE _ _ h2
        refine ⟨_, Derives.factor_paren he, ?_⟩
        have c1 := match_consumed h1 (by decide)
        have c3 := match_consumed h3 (by decide)
        exact c1.append (hc.append c3)
      · cases h
    · rw [term_loop_succ] at h
      split_ifs at h with hop
      · obtain ⟨p1, h1, h⟩ := bind_ok h
        obtain ⟨p2, h2, h3⟩ := bind_ok h
        obtain ⟨f, hf, cf⟩ := ihF _ _ h2
        obtain ⟨w, hw, cw⟩ := ihTL _ _ h3
        have c1 := match_consumed h1 (by rcases hop with h | h <;> rw [h] <;> decide)
        exact ⟨_, Or.inr ⟨_, _, hop, term_of_tail hf hw, rfl⟩, c1.append (cf.append cw)⟩
      · cases h
        exact ⟨[], Or.inl rfl, rfl⟩
    · rw [term_succ] at h
      obtain ⟨p1, h1, h2⟩ := bind_ok h
      obtain ⟨f, hf, cf⟩ := ihF _ _ h1
      obtain ⟨w, hw, cw⟩ := ihTL _ _ h2
      exact ⟨_, term_of_tail hf hw, cf.append cw⟩
    · rw [additive_expression_loop_succ] at h
      split_ifs at h with hop
      · obtain ⟨p1, h1, h⟩ := bind_ok h
        obtain ⟨p2, h2, h3⟩ := bind_ok h
        obtain ⟨f, hf, cf⟩ := ihT _ _ h2
        obtain ⟨w, hw, cw⟩ := ihAL _ _ h3
        have c1 := match_consumed h1 (by rcases hop with h | h <;> rw [h] <;> decide)
        exact ⟨_, Or.inr ⟨_, _, hop, additive_of_tail hf hw, rfl⟩, c1.append (cf.append cw)⟩
      · cases h
        exact ⟨[], Or.inl rfl, rfl⟩
    · rw [additive_expression_succ] at h
      obtain ⟨p1, h1, h2⟩ := bind_ok h
      obtain ⟨f, hf, cf⟩ := ihT _ _ h1
      obtain ⟨w, hw, cw⟩ := ihAL _ _ h2
      exact ⟨_, additive_of_tail hf hw, cf.append cw⟩
    · rw [expression_succ] at h
      obtain ⟨p1, h1, h2⟩ := bind_ok h
      obtain ⟨a, ha, ca⟩ := ihA _ _ h1
      split_ifs at h2 with hop
      · obtain ⟨p2, h3, h4⟩ := bind_ok h2
        obtain ⟨b, hb, cb⟩ := ihA _ _ h4
        have c1 := match_consumed h3 (by
          rcases hop with h | h | h | h | h | h <;> rw [h] <;> decide)
        exact ⟨_, Derives.expression_rel ha hop hb, ca.append (c1.append cb)⟩
      · cases h2
        exact ⟨_, Derives.expression_one ha, ca⟩

/-! ## Soundness of `program` and `main` -/

theorem declaration_list_succ (fuel : Nat) (p : Parser) :
    declaration_list (fuel + 1) p =
      if p.lookahead.type = TOK_INT ∨ p.lookahead.type = TOK_FLOAT then
        match_ p.lookahead.type p >>= fun p1 =>
          match_ TOK_ID p1 >>= fun p2 =>
            if p2.lookahead.type ≠ TOK_SEMI then
              .error (.exit (.declaration p1.lookahead.line (p1.lookahead.end_pos + 1)
                p1.lookahead.lexeme) p2)
            else match_ TOK_SEMI p2 >>= declaration_list fuel
      else .ok p := by
  rw [declaration_list]

theorem statement_list_succ (fuel : Nat) (p : Parser) :
    statement_list (fuel + 1) p =
      if p.lookahead.type ≠ TOK_RBRACE then statement fuel p >>= statement_list fuel
      else .ok p := by
  rw [statement_list]

theorem assignment_stmt_eq (fuel : Nat) (p : Parser) :
    assignment_stmt fuel p =
      (match_ TOK_ID p >>= fun p1 => match_ TOK_ASSIGN p1 >>= fun p2 =>
        expression fuel p2 >>= fun p3 => match_ TOK_SEMI p3) := rfl

theorem program_eq (fuel : Nat) (p : Parser) :
    program fuel p =
      (match_ TOK_PROGRAM p >>= fun p1 => match_ TOK_ID p1 >>= fun p2 =>
        match_ TOK_LBRACE p2 >>= fun p3 => declaration_list fuel p3 >>= fun p4 =>
          statement_list fuel p4 >>= fun p5 => match_ TOK_RBRACE p5) := rfl

theorem declaration_list_sound :
    ∀ fuel p p', declaration_list fuel p = .ok p' → ∃ ds, DeclList ds ∧ Consumed p ds p' := by
  intro fuel
  induction fuel with
  | zero => intro p p' h; rw [declaration_list] at h; cases h
  | succ fuel ih =>
    intro p p' h
    rw [declaration_list_succ] at h
    split_ifs at h with hty
    · obtain ⟨p1, h1, h⟩ := bind_ok h
      obtain ⟨p2, h2, h⟩ := bind_ok h
      split_ifs at h with hsemi
      obtain ⟨p3, h3, h4⟩ := bind_ok h
      obtain ⟨ds, hds, cds⟩ := ih _ _ h4
      have c1 := match_consumed h1 (by rcases hty with h | h <;> rw [h] <;> decide)
      have c2 := match_consumed h2 (by decide)
      have c3 := match_consumed h3 (by decide)
      exact ⟨_, DeclList.cons hty hds, c1.append (c2.append (c3.append cds))⟩
    · cases h
      exact ⟨[], DeclList.nil, rfl⟩

theorem assignment_stmt_sound {fuel : Nat} {p p' : Parser} (h : assignment_stmt fuel p = .ok p') :
    ∃ e, Derives .expression e ∧ Consumed p (TOK_ID :: TOK_ASSIGN :: (e ++ [TOK_SEMI])) p' := by
  rw [assignment_stmt_eq] at h
  obtain ⟨p1, h1, h⟩ := bind_ok h
  obtain ⟨p2, h2, h⟩ := bind_ok h
  obtain ⟨p3, h3, h4⟩ := bind_ok h
  obtain ⟨e, he, ce⟩ := (expr_sound fuel).2.2.2.2.2 _ _ h3
  have c1 := match_consumed h1 (by decide)
  have c2 := match_consumed h2 (by decide)
  have c4 := match_consumed h4 (by decide)
  exact ⟨e, he, c1.append (c2.append (ce.append c4))⟩

theorem statement_list_sound :
    ∀ fuel p p', statement_list fuel p = .ok p' → ∃ ss, StmtList ss ∧ Consumed p ss p' := by
  intro fuel
  induction fuel with
  | zero => intro p p' h; rw [statement_list] at h; cases h
  | succ fuel ih =>
    intro p p' h
    rw [statement_list_succ] at h
    split_ifs at h with hty
    · obtain ⟨p1, h1, h2⟩ := bind_ok h
      obtain ⟨e, he, ce⟩ := assignment_stmt_sound h1
      obtain ⟨ss, hss, css⟩ := ih _ _ h2
      refine ⟨_, StmtList.cons he hss, ?_⟩
      have := ce.append css
      simpa using this
    · cases h
      exact ⟨[], StmtList.nil, rfl⟩

theorem program_sound {fuel : Nat} {p p' : Parser} (h : program fuel p = .ok p') :
    ∃ ds ss, DeclList ds ∧ StmtList ss ∧
      Consumed p (TOK_PROGRAM :: TOK_ID :: TOK_LBRACE :: (ds ++ ss ++ [TOK_RBRACE])) p' := by
  rw [program_eq] at h
  obtain ⟨p1, h1, h⟩ := bind_ok h
  obtain ⟨p2, h2, h⟩ := bind_ok h
  obtain ⟨p3, h3, h⟩ := bind_ok h
  obtain ⟨p4, h4, h⟩ := bind_ok h
  obtain ⟨p5, h5, h6⟩ := bind_ok h
  obtain ⟨ds, hds, cds⟩ := declaration_list_sound _ _ _ h4
  obtain ⟨ss, hss, css⟩ := statement_list_sound _ _ _ h5
  have c1 := match_consumed h1 (by decide)
  have c2 := match_consumed h2 (by decide)
  have c3 := match_consumed h3 (by decide)
  have c6 := match_consumed h6 (by decide)
  refine ⟨ds, ss, hds, hss, ?_⟩
  have := c1.append (c2.append (c3.append (cds.append (css.append c6))))
  simpa using this

theorem stream_of_consumed {w : List TokenType} :
    ∀ {p p' : Parser} {ks : List TokenType}, Consumed p w p' → stream_is p' ks = true →
      stream_is p (w ++ ks) = true := by
  induction w with
  | nil => intro p p' ks h1 h2; cases h1; exact h2
  | cons k w ih =>
    intro p p' ks h1 h2
    obtain ⟨ha, hb, t, sc, hg, hc⟩ := h1
    simp only [List.cons_append, stream_is, ha, decide_True, Bool.true_and, if_neg hb, hg]
    exact ih hc h2

theorem stream_eof {p : Parser} (h : p.lookahead.type = TOK_EOF) :
    stream_is p [TOK_EOF] = true := by
  simp [stream_is, h]

theorem main_completed {fuel : Nat} {buffer : List Char} {p : Parser}
    (h : main fuel buffer = some (.completed p)) :
    ∃ t sc, get_next_token (init_scanner buffer) = some (t, sc) ∧
      program fuel { sc := sc, lookahead := t } = .ok p ∧ p.lookahead.type = TOK_EOF := by
  unfold main at h
  cases hg : get_next_token (init_scanner buffer) with
  | none => rw [hg] at h; cases h
  | some r =>
    obtain ⟨t, sc⟩ := r
    rw [hg] at h
    simp only at h
    cases hp : program fuel { sc := sc, lookahead := t } with
    | error e =>
      rw [hp] at h
      cases e <;> simp at h
    | ok q =>
      rw [hp] at h
      simp only at h
      split_ifs at h with hq
      · simp only [Option.some.injEq, MainResult.completed.injEq] at h
        subst h
        exact ⟨t, sc, rfl, hp, hq⟩
      · cases h

/-! ## Completeness of the expression parser -/

theorem stream_cons {p : Parser} {k k2 : TokenType} {ks : List TokenType}
    (h : stream_is p (k :: k2 :: ks) = true) :
    p.lookahead.type = k ∧ k ≠ TOK_EOF ∧
      ∃ t sc, get_next_token p.sc = some (t, sc) ∧
        stream_is { sc := sc, lookahead := t } (k2 :: ks) = true := by
  rw [stream_is] at h
  simp only [Bool.and_eq_true, decide_eq_true_eq] at h
  obtain ⟨h1, h2⟩ := h
  by_cases hk : k = TOK_EOF
  · rw [if_pos hk] at h2; simp at h2
  · rw [if_neg hk] at h2
    cases hg : get_next_token p.sc with
    | none => rw [hg] at h2; simp at h2
    | some r =>
      obtain ⟨t, sc⟩ := r
      rw [hg] at h2
      exact ⟨h1, hk, t, sc, rfl, h2⟩

theorem stream_head {p : Parser} {k : TokenType} {ks : List TokenType}
    (h : stream_is p (k :: ks) = true) : p.lookahead.type = k := by
  rw [stream_is] at h
  simp only [Bool.and_eq_true, decide_eq_true_eq] at h
  exact h.1

theorem match_of_stream {p : Parser} {k k2 : TokenType} {ks : List TokenType}
    (h : stream_is p (k :: k2 :: ks) = true) :
    ∃ p', match_ k p = .ok p' ∧ stream_is p' (k2 :: ks) = true := by
  obtain ⟨h1, _, t, sc, hg, hs⟩ := stream_cons h
  refine ⟨{ sc := sc, lookahead := t }, ?_, hs⟩
  unfold match_
  rw [if_pos h1, hg]

theorem factor_of_id {fuel : Nat} {p : Parser} (h : p.lookahead.type = TOK_ID) :
    factor (fuel + 1) p = match_ TOK_ID p := by
  rw [factor_succ, h]

theorem factor_of_num {fuel : Nat} {p : Parser} (h : p.lookahead.type = TOK_NUM) :
    factor (fuel + 1) p = match_ TOK_NUM p := by
  rw [factor_succ, h]

theorem factor_of_lparen {fuel : Nat} {p : Parser} (h : p.lookahead.type = TOK_LPAREN) :
    factor (fuel + 1) p =
      (match_ TOK_LPAREN p >>= fun p1 => expression fuel p1 >>= fun p2 => match_ TOK_RPAREN p2) := by
  rw [factor_succ, h]

theorem exists_succ_of_le {N fuel : Nat} (h : N + 1 ≤ fuel) : ∃ m, fuel = m + 1 ∧ N ≤ m :=
  ⟨fuel - 1, by omega, by omega⟩

theorem expr_complete {X : NT} {w : List TokenType} (h : Derives X w) :
    ∀ (p : Parser) (k : TokenType) (rest : List TokenType),
      stream_is p (w ++ k :: rest) = true → follow_ok X k →
      ∃ p', stream_is p' (k :: rest) = true ∧
        ∃ N, ∀ fuel, N ≤ fuel → parse_nt X fuel p = .ok p' := by
  induction h with
  | factor_id =>
    intro p k rest hs _
    obtain ⟨p', hm, hs'⟩ := match_of_stream hs
    refine ⟨p', hs', 1, fun fuel hf => ?_⟩
    obtain ⟨m, rfl, _⟩ := exists_succ_of_le hf
    show factor (m + 1) p = _
    rw [factor_of_id (stream_head hs), hm]
  | factor_num =>
    intro p k rest hs _
    obtain ⟨p', hm, hs'⟩ := match_of_stream hs
    refine ⟨p', hs', 1, fun fuel hf => ?_⟩
    obtain ⟨m, rfl, _⟩ := exists_succ_of_le hf
    show factor (m + 1) p = _
    rw [factor_of_num (stream_head hs), hm]
  | @factor_paren e he ih =>
    intro p k rest hs _
    have hs0 : stream_is p (TOK_LPAREN :: (e ++ TOK_RPAREN :: k :: rest)) = true := by
      simpa using hs
    have hne : e ++ TOK_RPAREN :: k :: rest ≠ [] := by simp
    obtain ⟨x, xs, hx⟩ := List.exists_cons_of_ne_nil hne
    rw [hx] at hs0
    obtain ⟨p1, hm1, hs1⟩ := match_of_stream hs0
    rw [← hx] at hs1
    obtain ⟨p2, hs2, N, hN⟩ := ih p1 TOK_RPAREN (k :: rest) hs1
      (by simp [follow_ok, is_relop])
    obtain ⟨p3, hm3, hs3⟩ := match_of_stream hs2
    refine ⟨p3, hs3, N + 1, fun fuel hf => ?_⟩
    obtain ⟨m, rfl, hm⟩ := exists_succ_of_le hf
    show factor (m + 1) p = _
    rw [factor_of_lparen (stream_head hs0), hm1]
    show (expression m p1 >>= fun p2 => match_ TOK_RPAREN p2) = _
    have := hN m hm
    simp only [parse_nt] at this
    rw [this]
    exact hm3
  | @term_one f hf ih =>
    intro p k rest hs hk
    obtain ⟨p1, hs1, N, hN⟩ := ih p k rest hs trivial
    refine ⟨p1, hs1, N + 2, fun fuel hfu => ?_⟩
    obtain ⟨m, rfl, hm⟩ := exists_succ_of_le hfu
    obtain ⟨m', rfl, hm'⟩ := exists_succ_of_le hm
    show term (m' + 1 + 1) p = _
    have := hN (m' + 1) (by omega)
    simp only [parse_nt] at this
    rw [term_succ, this]
    show term_loop (m' + 1) p1 = _
    rw [term_loop_succ, if_neg]
    rw [stream_head hs1]
    simp only [follow_ok] at hk
    tauto
  | @term_more f t op hf hop ht ihf iht =>
    intro p k rest hs hk
    have hs0 : stream_is p (f ++ op :: (t ++ k :: rest)) = true := by simpa using hs
    obtain ⟨p1, hs1, N1, hN1⟩ := ihf p op (t ++ k :: rest) hs0 trivial
    have hne : t ++ k :: rest ≠ [] := by simp
    obtain ⟨x, xs, hx⟩ := List.exists_cons_of_ne_nil hne
    rw [hx] at hs1
    obtain ⟨p2, hm2, hs2⟩ := match_of_stream hs1
    rw [← hx] at hs2
    obtain ⟨p3, hs3, N3, hN3⟩ := iht p2 k rest hs2 hk
    refine ⟨p3, hs3, N1 + N3 + 2, fun fuel hfu => ?_⟩
    obtain ⟨m, rfl, hm⟩ := exists_succ_of_le hfu
    obtain ⟨m', rfl, hm'⟩ := exists_succ_of_le hm
    show term (m' + 1 + 1) p = _
    have e1 := hN1 (m' + 1) (by omega)
    have e3 := hN3 (m' + 1) (by omega)
    simp only [parse_nt] at e1 e3
    rw [term_succ, e1]
    show term_loop (m' + 1) p1 = _
    rw [term_loop_succ, if_pos (by rw [stream_head hs1]; exact hop), stream_head hs1, hm2]
    rw [term_succ] at e3
    exact e3
  | @additive_one t ht ih =>
    intro p k rest hs hk
    simp only [follow_ok] at hk
    obtain ⟨p1, hs1, N, hN⟩ := ih p k rest hs ⟨hk.1, hk.2.1⟩
    refine ⟨p1, hs1, N + 2, fun fuel hfu => ?_⟩
    obtain ⟨m, rfl, hm⟩ := exists_succ_of_le hfu
    obtain ⟨m', rfl, hm'⟩ := exists_succ_of_le hm
    show additive_expression (m' + 1 + 1) p = _
    have := hN (m' + 1) (by omega)
    simp only [parse_nt] at this
    rw [additive_expression_succ, this]
    show additive_expression_loop (m' + 1) p1 = _
    rw [additive_expression_loop_succ, if_neg]
    rw [stream_head hs1]
    tauto
  | @additive_more t a op ht hop ha iht iha =>
    intro p k rest hs hk
    have hs0 : stream_is p (t ++ op :: (a ++ k :: rest)) = true := by simpa using hs
    obtain ⟨p1, hs1, N1, hN1⟩ := iht p op (a ++ k :: rest) hs0
      (by rcases hop with h | h <;> rw [h] <;> simp [follow_ok])
    have hne : a ++ k :: rest ≠ [] := by simp
    obtain ⟨x, xs, hx⟩ := List.exists_cons_of_ne_nil hne
    rw [hx] at hs1
    obtain ⟨p2, hm2, hs2⟩ := match_of_stream hs1
    rw [← hx] at hs2
    obtain ⟨p3, hs3, N3, hN3⟩ := iha p2 k rest hs2 hk
    refine ⟨p3, hs3, N1 + N3 + 2, fun fuel hfu => ?_⟩
    obtain ⟨m, rfl, hm⟩ := exists_succ_of_le hfu
    obtain ⟨m', rfl, hm'⟩ := exists_succ_of_le hm
    show additive_expression (m' + 1 + 1) p = _
    have e1 := hN1 (m' + 1) (by omega)
    have e3 := hN3 (m' + 1) (by omega)
    simp only [parse_nt] at e1 e3
    rw [additive_expression_succ, e1]
    show additive_expression_loop (m' + 1) p1 = _
    rw [additive_expression_loop_succ, if_pos (by rw [stream_head hs1]; exact hop),
      stream_head hs1, hm2]
    rw [additive_expression_succ] at e3
    exact e3
  | @expression_one a ha ih =>
    intro p k rest hs hk
    simp only [follow_ok] at hk
    obtain ⟨p1, hs1, N, hN⟩ := ih p k rest hs ⟨hk.1, hk.2.1, hk.2.2.1, hk.2.2.2.1⟩
    refine ⟨p1, hs1, N + 1, fun fuel hfu => ?_⟩
    obtain ⟨m, rfl, hm⟩ := exists_succ_of_le hfu
    show expression (m + 1) p = _
    have := hN m hm
    simp only [parse_nt] at this
    rw [expression_succ, this]
    show (if _ then _ else _) = _
    rw [if_neg]
    rw [stream_head hs1]
    exact hk.2.2.2.2
  | @expression_rel a b op ha hop hb iha ihb =>
    intro p k rest hs hk
    simp only [follow_ok] at hk
    have hs0 : stream_is p (a ++ op :: (b ++ k :: rest)) = true := by simpa using hs
    obtain ⟨p1, hs1, N1, hN1⟩ := iha p op (b ++ k :: rest) hs0
      (by rcases hop with h | h | h | h | h | h <;> rw [h] <;> simp [follow_ok])
    have hne : b ++ k :: rest ≠ [] := by simp
    obtain ⟨x, xs, hx⟩ := List.exists_cons_of_ne_nil hne
    rw [hx] at hs1
    obtain ⟨p2, hm2, hs2⟩ := match_of_stream hs1
    rw [← hx] at hs2
    obtain ⟨p3, hs3, N3, hN3⟩ := ihb p2 k rest hs2 ⟨hk.1, hk.2.1, hk.2.2.1, hk.2.2.2.1⟩
    refine ⟨p3, hs3, N1 + N3 + 1, fun fuel hfu => ?_⟩
    obtain ⟨m, rfl, hm⟩ := exists_succ_of_le hfu
    show expression (m + 1) p = _
    have e1 := hN1 m (by omega)
    have e3 := hN3 m (by omega)
    simp only [parse_nt] at e1 e3
    rw [expression_succ, e1]
    show (if _ then _ else _) = _
    rw [if_pos (by rw [stream_head hs1]; exact hop), stream_head hs1, hm2]
    exact e3

/-! ## Completeness of `program` and `main` -/

theorem declaration_list_complete {ds : List TokenType} (h : DeclList ds) :
    ∀ (p : Parser) (k : TokenType) (rest : List TokenType),
      stream_is p (ds ++ k :: rest) = true → k ≠ TOK_INT → k ≠ TOK_FLOAT →
      ∃ p', stream_is p' (k :: rest) = true ∧
        ∃ N, ∀ fuel, N ≤ fuel → declaration_list fuel p = .ok p' := by
  induction h with
  | nil =>
    intro p k rest hs h1 h2
    refine ⟨p, hs, 1, fun fuel hf => ?_⟩
    obtain ⟨m, rfl, _⟩ := exists_succ_of_le hf
    rw [declaration_list_succ, if_neg]
    rw [stream_head hs]
    tauto
  | @cons ty ds hty hds ih =>
    intro p k rest hs h1 h2
    have hs0 : stream_is p (ty :: TOK_ID :: TOK_SEMI :: (ds ++ k :: rest)) = true := by
      simpa using hs
    obtain ⟨p1, hm1, hs1⟩ := match_of_stream hs0
    obtain ⟨p2, hm2, hs2⟩ := match_of_stream hs1
    have hne : ds ++ k :: rest ≠ [] := by simp
    obtain ⟨x, xs, hx⟩ := List.exists_cons_of_ne_nil hne
    rw [hx] at hs2
    obtain ⟨p3, hm3, hs3⟩ := match_of_stream hs2
    rw [← hx] at hs3
    obtain ⟨p4, hs4, N, hN⟩ := ih p3 k rest hs3 h1 h2
    refine ⟨p4, hs4, N + 1, fun fuel hf => ?_⟩
    obtain ⟨m, rfl, hm⟩ := exists_succ_of_le hf
    rw [declaration_list_succ, if_pos (by rw [stream_head hs0]; exact hty), stream_head hs0, hm1]
    show (match_ TOK_ID p1 >>= _) = _
    rw [hm2]
    show (if _ then _ else _) = _
    rw [if_neg (by rw [stream_head hs2]; simp)]
    rw [hm3]
    exact hN m hm

theorem assignment_stmt_complete {e : List TokenType} (he : Derives .expression e)
    (p : Parser) (k : TokenType) (rest : List TokenType)
    (hs : stream_is p (TOK_ID :: TOK_ASSIGN :: (e ++ TOK_SEMI :: k :: rest)) = true) :
    ∃ p', stream_is p' (k :: rest) = true ∧
      ∃ N, ∀ fuel, N ≤ fuel → assignment_stmt fuel p = .ok p' := by
  obtain ⟨p1, hm1, hs1⟩ := match_of_stream hs
  have hne : e ++ TOK_SEMI :: k :: rest ≠ [] := by simp
  obtain ⟨x, xs, hx⟩ := List.exists_cons_of_ne_nil hne
  rw [hx] at hs1
  obtain ⟨p2, hm2, hs2⟩ := match_of_stream hs1
  rw [← hx] at hs2
  obtain ⟨p3, hs3, N, hN⟩ := expr_complete he p2 TOK_SEMI (k :: rest) hs2
    (by simp [follow_ok, is_relop])
  obtain ⟨p4, hm4, hs4⟩ := match_of_stream hs3
  refine ⟨p4, hs4, N, fun fuel hf => ?_⟩
  have e3 := hN fuel hf
  simp only [parse_nt] at e3
  rw [assignment_stmt_eq, hm1]
  show (match_ TOK_ASSIGN p1 >>= _) = _
  rw [hm2]
  show (expression fuel p2 >>= _) = _
  rw [e3]
  exact hm4

theorem statement_list_complete {ss : List TokenType} (h : StmtList ss) :
    ∀ (p : Parser) (rest : List TokenType),
      stream_is p (ss ++ TOK_RBRACE :: rest) = true →
      ∃ p', stream_is p' (TOK_RBRACE :: rest) = true ∧
        ∃ N, ∀ fuel, N ≤ fuel → statement_list fuel p = .ok p' := by
  induction h with
  | nil =>
    intro p rest hs
    refine ⟨p, hs, 1, fun fuel hf => ?_⟩
    obtain ⟨m, rfl, _⟩ := exists_succ_of_le hf
    rw [statement_list_succ, if_neg]
    rw [stream_head hs]
    simp
  | @cons e ss he hss ih =>
    intro p rest hs
    have hne : ss ++ TOK_RBRACE :: rest ≠ [] := by simp
    obtain ⟨x, xs, hx⟩ := List.exists_cons_of_ne_nil hne
    have hs0 : stream_is p (TOK_ID :: TOK_ASSIGN :: (e ++ TOK_SEMI :: x :: xs)) = true := by
      rw [← hx]; simpa using hs
    obtain ⟨p1, hs1, N1, hN1⟩ := assignment_stmt_complete he p x xs hs0
    rw [← hx] at hs1
    obtain ⟨p2, hs2, N2, hN2⟩ := ih p1 rest hs1
    refine ⟨p2, hs2, N1 + N2 + 1, fun fuel hf => ?_⟩
    obtain ⟨m, rfl, hm⟩ := exists_succ_of_le hf
    rw [statement_list_succ, if_pos (by rw [stream_head hs0]; decide)]
    show (assignment_stmt m p >>= _) = _
    rw [hN1 m (by omega)]
    exact hN2 m (by omega)

theorem stmtList_head {ss : List TokenType} (h : StmtList ss) (rest : List TokenType)
    (k : TokenType) (hk1 : k ≠ TOK_INT) (hk2 : k ≠ TOK_FLOAT) :
    ∃ x xs, ss ++ k :: rest = x :: xs ∧ x ≠ TOK_INT ∧ x ≠ TOK_FLOAT := by
  cases h with
  | nil => exact ⟨k, rest, rfl, hk1, hk2⟩
  | cons he hss => exact ⟨TOK_ID, _, rfl, by decide, by decide⟩

theorem program_complete {ds ss : List TokenType} (hds : DeclList ds) (hss : StmtList ss)
    (p : Parser) (k : TokenType) (rest : List TokenType)
    (hs : stream_is p
      (TOK_PROGRAM :: TOK_ID :: TOK_LBRACE :: (ds ++ ss ++ TOK_RBRACE :: k :: rest)) = true) :
    ∃ p', stream_is p' (k :: rest) = true ∧
      ∃ N, ∀ fuel, N ≤ fuel → program fuel p = .ok p' := by
  obtain ⟨p1, hm1, hs1⟩ := match_of_stream hs
  obtain ⟨p2, hm2, hs2⟩ := match_of_stream hs1
  obtain ⟨x, xs, hx, hx1, hx2⟩ := stmtList_head hss (k :: rest) TOK_RBRACE (by decide) (by decide)
  have hs2' : stream_is p2 (TOK_LBRACE :: (ds ++ x :: xs)) = true := by
    rw [← hx]; simpa using hs2
  have hne : ds ++ x :: xs ≠ [] := by simp
  obtain ⟨y, ys, hy⟩ := List.exists_cons_of_ne_nil hne
  rw [hy] at hs2'
  obtain ⟨p3, hm3, hs3⟩ := match_of_stream hs2'
  rw [← hy] at hs3
  obtain ⟨p4, hs4, N4, hN4⟩ := declaration_list_complete hds p3 x xs hs3 hx1 hx2
  rw [← hx] at hs4
  obtain ⟨p5, hs5, N5, hN5⟩ := statement_list_complete hss p4 (k :: rest) hs4
  obtain ⟨p6, hm6, hs6⟩ := match_of_stream hs5
  refine ⟨p6, hs6, N4 + N5, fun fuel hf => ?_⟩
  rw [program_eq, hm1]
  show (match_ TOK_ID p1 >>= _) = _
  rw [hm2]
  show (match_ TOK_LBRACE p2 >>= _) = _
  rw [hm3]
  show (declaration_list fuel p3 >>= _) = _
  rw [hN4 fuel (by omega)]
  show (statement_list fuel p4 >>= _) = _
  rw [hN5 fuel (by omega)]
  exact hm6

theorem buffer_tokens_iff {buffer : List Char} {ks : List TokenType}
    (h : buffer_tokens buffer ks = true) :
    ∃ t sc, get_next_token (init_scanner buffer) = some (t, sc) ∧
      stream_is { sc := sc, lookahead := t } ks = true := by
  unfold buffer_tokens at h
  cases hg : get_next_token (init_scanner buffer) with
  | none => rw [hg] at h; cases h
  | some r =>
    obtain ⟨t, sc⟩ := r
    rw [hg] at h
    exact ⟨t, sc, rfl, h⟩

theorem main_complete {buffer : List Char} {ks : List TokenType}
    (hk : buffer_tokens buffer ks = true) (hsent : Sentence ks) :
    ∃ p, p.lookahead.type = TOK_EOF ∧
      ∃ N, ∀ fuel, N ≤ fuel → main fuel buffer = some (.completed p) := by
  obtain ⟨ds, ss, hds, hss, rfl⟩ := hsent
  obtain ⟨t, sc, hg, hs⟩ := buffer_tokens_iff hk
  have hs0 : stream_is { sc := sc, lookahead := t }
      (TOK_PROGRAM :: TOK_ID :: TOK_LBRACE :: (ds ++ ss ++ TOK_RBRACE :: TOK_EOF :: [])) = true := by
    simpa using hs
  obtain ⟨p, hsp, N, hN⟩ := program_complete hds hss _ TOK_EOF [] hs0
  refine ⟨p, stream_head hsp, N, fun fuel hf => ?_⟩
  unfold main
  rw [hg]
  simp only
  rw [hN fuel hf]
  simp only
  rw [if_pos (stream_head hsp)]

/-! ## Properties of sentences -/

theorem derives_tokens {X : NT} {w : List TokenType} (h : Derives X w) :
    ∀ k ∈ w, k ≠ TOK_ERROR ∧ k ≠ TOK_RBRACE ∧ k ≠ TOK_EOF ∧ k ≠ TOK_LBRACE := by
  induction h with
  | factor_id => intro k hk; simp at hk; subst hk; decide
  | factor_num => intro k hk; simp at hk; subst hk; decide
  | factor_paren he ih =>
    intro k hk
    simp only [List.mem_cons, List.mem_append, List.mem_singleton, List.not_mem_nil,
      or_false] at hk
    rcases hk with (rfl | hk) | rfl
    · decide
    · exact ih k hk
    · decide
  | term_one hf ih => exact ih
  | term_more hf hop ht ihf iht =>
    intro k hk
    simp only [List.mem_cons, List.mem_append] at hk
    rcases hk with hk | rfl | hk
    · exact ihf k hk
    · rcases hop with rfl | rfl <;> decide
    · exact iht k hk
  | additive_one ht ih => exact ih
  | additive_more ht hop ha iht iha =>
    intro k hk
    simp only [List.mem_cons, List.mem_append] at hk
    rcases hk with hk | rfl | hk
    · exact iht k hk
    · rcases hop with rfl | rfl <;> decide
    · exact iha k hk
  | expression_one ha ih => exact ih
  | expression_rel ha hop hb iha ihb =>
    intro k hk
    simp only [List.mem_cons, List.mem_append] at hk
    rcases hk with hk | rfl | hk
    · exact iha k hk
    · rcases hop with rfl | rfl | rfl | rfl | rfl | rfl <;> decide
    · exact ihb k hk

theorem declList_tokens {ds : List TokenType} (h : DeclList ds) :
    ∀ k ∈ ds, k ≠ TOK_ERROR ∧ k ≠ TOK_RBRACE ∧ k ≠ TOK_EOF ∧ k ≠ TOK_LBRACE := by
  induction h with
  | nil => intro k hk; simp at hk
  | cons hty hds ih =>
    intro k hk
    simp only [List.mem_cons] at hk
    rcases hk with rfl | rfl | rfl | hk
    · rcases hty with rfl | rfl <;> decide
    · decide
    · decide
    · exact ih k hk

theorem stmtList_tokens {ss : List TokenType} (h : StmtList ss) :
    ∀ k ∈ ss, k ≠ TOK_ERROR ∧ k ≠ TOK_RBRACE ∧ k ≠ TOK_EOF ∧ k ≠ TOK_LBRACE := by
  induction h with
  | nil => intro k hk; simp at hk
  | cons he hss ih =>
    intro k hk
    simp only [List.mem_cons, List.mem_append] at hk
    rcases hk with rfl | rfl | hk | rfl | hk
    · decide
    · decide
    · exact derives_tokens he k hk
    · decide
    · exact ih k hk

/-- In a derived word the parentheses are balanced, relational operators
inside parentheses are not at the top level, and only `expression` adds a
relational operator at its own level, at most one. -/
theorem derives_top_relops {X : NT} {w : List TokenType} (h : Derives X w) :
    ∀ (d : Nat) (rest : List TokenType),
      ∃ n, top_relops d (w ++ rest) = n + top_relops d rest ∧ n ≤ 1 ∧
        (d ≠ 0 ∨ X ≠ .expression → n = 0) := by
  induction h with
  | factor_id => intro d rest; exact ⟨0, by simp [top_relops, is_relop], by omega, fun _ => rfl⟩
  | factor_num => intro d rest; exact ⟨0, by simp [top_relops, is_relop], by omega, fun _ => rfl⟩
  | @factor_paren e he ih =>
    intro d rest
    obtain ⟨n, hn, _, h0⟩ := ih (d + 1) (TOK_RPAREN :: rest)
    have hz : n = 0 := h0 (Or.inl (by omega))
    refine ⟨0, ?_, by omega, fun _ => rfl⟩
    have : TOK_LPAREN :: e ++ [TOK_RPAREN] ++ rest = TOK_LPAREN :: (e ++ TOK_RPAREN :: rest) := by
      simp
    rw [this, top_relops, if_pos rfl, hn, hz, top_relops, if_neg (by decide), if_pos rfl]
    simp
  | term_one hf ih =>
    intro d rest
    obtain ⟨n, hn, _, h0⟩ := ih d rest
    exact ⟨n, hn, by omega, fun _ => h0 (Or.inr (by decide))⟩
  | @term_more f t op hf hop ht ihf iht =>
    intro d rest
    obtain ⟨n1, hn1, _, h1⟩ := ihf d (op :: (t ++ rest))
    obtain ⟨n2, hn2, _, h2⟩ := iht d rest
    have z1 := h1 (Or.inr (by decide))
    have z2 := h2 (Or.inr (by decide))
    refine ⟨0, ?_, by omega, fun _ => rfl⟩
    have : f ++ op :: t ++ rest = f ++ op :: (t ++ rest) := by simp
    rw [this, hn1, z1, top_relops]
    rcases hop with rfl | rfl <;> simp [is_relop, hn2, z2]
  | additive_one ht ih =>
    intro d rest
    obtain ⟨n, hn, _, h0⟩ := ih d rest
    exact ⟨n, hn, by omega, fun _ => h0 (Or.inr (by decide))⟩
  | @additive_more t a op ht hop ha iht iha =>
    intro d rest
    obtain ⟨n1, hn1, _, h1⟩ := iht d (op :: (a ++ rest))
    obtain ⟨n2, hn2, _, h2⟩ := iha d rest
    have z1 := h1 (Or.inr (by decide))
    have z2 := h2 (Or.inr (by decide))
    refine ⟨0, ?_, by omega, fun _ => rfl⟩
    have : t ++ op :: a ++ rest = t ++ op :: (a ++ rest) := by simp
    rw [this, hn1, z1, top_relops]
    rcases hop with rfl | rfl <;> simp [is_relop, hn2, z2]
  | expression_one ha ih =>
    intro d rest
    obtain ⟨n, hn, _, h0⟩ := ih d rest
    have z := h0 (Or.inr (by decide))
    exact ⟨0, by rw [hn, z], by omega, fun _ => rfl⟩
  | @expression_rel a b op ha hop hb iha ihb =>
    intro d rest
    obtain ⟨n1, hn1, _, h1⟩ := iha d (op :: (b ++ rest))
    obtain ⟨n2, hn2, _, h2⟩ := ihb d rest
    have z1 := h1 (Or.inr (by decide))
    have z2 := h2 (Or.inr (by decide))
    have e : a ++ op :: b ++ rest = a ++ op :: (b ++ rest) := by simp
    have hl : op ≠ TOK_LPAREN := by
      rcases hop with rfl | rfl | rfl | rfl | rfl | rfl <;> decide
    have hr : op ≠ TOK_RPAREN := by
      rcases hop with rfl | rfl | rfl | rfl | rfl | rfl <;> decide
    by_cases hd : d = 0
    · refine ⟨1, ?_, by omega, fun h => ?_⟩
      · rw [e, hn1, z1, top_relops, if_neg hl, if_neg hr, if_pos ⟨hd, hop⟩, hn2, z2]
        omega
      · rcases h with h | h
        · exact absurd hd h
        · exact absurd rfl h
    · refine ⟨0, ?_, by omega, fun _ => rfl⟩
      rw [e, hn1, z1, top_relops, if_neg hl, if_neg hr, if_neg (fun h => hd h.1), hn2, z2]
      omega

theorem expression_top_relops {e : List TokenType} (h : Derives .expression e) :
    top_relops 0 e ≤ 1 := by
  obtain ⟨n, hn, hle, _⟩ := derives_top_relops h 0 []
  simp only [List.append_nil, top_relops] at hn
  omega

theorem stream_unique :
    ∀ (ks1 ks2 : List TokenType) (p : Parser),
      stream_is p ks1 = true → stream_is p ks2 = true → ks1 = ks2 := by
  intro ks1
  induction ks1 with
  | nil => intro ks2 p h; simp [stream_is] at h
  | cons k ks ih =>
    intro ks2 p h1 h2
    cases ks2 with
    | nil => simp [stream_is] at h2
    | cons k2 ks2 =>
      have e1 := stream_head h1
      have e2 := stream_head h2
      have hk : k = k2 := e1.symm.trans e2
      subst hk
      rw [stream_is] at h1 h2
      simp only [Bool.and_eq_true, decide_eq_true_eq] at h1 h2
      by_cases hk : k = TOK_EOF
      · rw [if_pos hk] at h1 h2
        have a := h1.2
        have b := h2.2
        simp only [List.isEmpty_iff] at a b
        rw [a, b]
      · rw [if_neg hk] at h1 h2
        cases hg : get_next_token p.sc with
        | none => rw [hg] at h1; simp at h1
        | some r =>
          obtain ⟨t, sc⟩ := r
          rw [hg] at h1 h2
          rw [ih ks2 _ h1.2 h2.2]

/-! ## A missing closing brace -/

theorem error_bind (e : Stop) (f : Parser → Except Stop Parser) :
    ((Except.error e : Except Stop Parser) >>= f) = .error e := rfl

theorem statement_list_missing_rbrace {ss : List TokenType} (h : StmtList ss) :
    ∀ (p : Parser), stream_is p (ss ++ [TOK_EOF]) = true →
      ∃ q, q.lookahead.type = TOK_EOF ∧
        ∃ N, ∀ fuel, N ≤ fuel →
          statement_list fuel p =
            .error (.exit (.expected q.lookahead.line q.lookahead.start_pos TOK_ID TOK_EOF) q) := by
  induction h with
  | nil =>
    intro p hs
    have hty : p.lookahead.type = TOK_EOF := stream_head hs
    refine ⟨p, hty, 1, fun fuel hf => ?_⟩
    obtain ⟨m, rfl, _⟩ := exists_succ_of_le hf
    rw [statement_list_succ, if_pos (by rw [hty]; decide)]
    show (assignment_stmt m p >>= _) = _
    rw [assignment_stmt_eq]
    have : match_ TOK_ID p =
        .error (.exit (.expected p.lookahead.line p.lookahead.start_pos TOK_ID TOK_EOF) p) := by
      unfold match_
      rw [if_neg (by rw [hty]; decide), hty]
    rw [this]
    rfl
  | @cons e ss he hss ih =>
    intro p hs
    have hne : ss ++ [TOK_EOF] ≠ [] := by simp
    obtain ⟨x, xs, hx⟩ := List.exists_cons_of_ne_nil hne
    have hs0 : stream_is p (TOK_ID :: TOK_ASSIGN :: (e ++ TOK_SEMI :: x :: xs)) = true := by
      rw [← hx]; simpa using hs
    obtain ⟨p1, hs1, N1, hN1⟩ := assignment_stmt_complete he p x xs hs0
    rw [← hx] at hs1
    obtain ⟨q, hq, N2, hN2⟩ := ih p1 hs1
    refine ⟨q, hq, N1 + N2 + 1, fun fuel hf => ?_⟩
    obtain ⟨m, rfl, hm⟩ := exists_succ_of_le hf
    rw [statement_list_succ, if_pos (by rw [stream_head hs0]; decide)]
    show (assignment_stmt m p >>= _) = _
    rw [hN1 m (by omega)]
    exact hN2 m (by omega)

theorem main_missing_rbrace {ds ss : List TokenType} (hds : DeclList ds) (hss : StmtList ss)
    {buffer : List Char}
    (hk : buffer_tokens buffer
      (TOK_PROGRAM :: TOK_ID :: TOK_LBRACE :: (ds ++ ss) ++ [TOK_EOF]) = true) :
    ∃ q, q.lookahead.type = TOK_EOF ∧
      ∃ N, ∀ fuel, N ≤ fuel →
        main fuel buffer =
          some (.exited (.expected q.lookahead.line q.lookahead.start_pos TOK_ID TOK_EOF) q) := by
  obtain ⟨t, sc, hg, hs⟩ := buffer_tokens_iff hk
  have hs0 : stream_is { sc := sc, lookahead := t }
      (TOK_PROGRAM :: TOK_ID :: TOK_LBRACE :: (ds ++ (ss ++ [TOK_EOF]))) = true := by
    simpa using hs
  obtain ⟨p1, hm1, hs1⟩ := match_of_stream hs0
  obtain ⟨p2, hm2, hs2⟩ := match_of_stream hs1
  obtain ⟨x, xs, hx, hx1, hx2⟩ := stmtList_head hss [] TOK_EOF (by decide) (by decide)
  rw [hx] at hs2
  have hne : ds ++ x :: xs ≠ [] := by simp
  obtain ⟨y, ys, hy⟩ := List.exists_cons_of_ne_nil hne
  rw [hy] at hs2
  obtain ⟨p3, hm3, hs3⟩ := match_of_stream hs2
  rw [← hy] at hs3
  obtain ⟨p4, hs4, N4, hN4⟩ := declaration_list_complete hds p3 x xs hs3 hx1 hx2
  rw [← hx] at hs4
  obtain ⟨q, hq, N5, hN5⟩ := statement_list_missing_rbrace hss p4 hs4
  refine ⟨q, hq, N4 + N5, fun fuel hf => ?_⟩
  have hp : program fuel { sc := sc, lookahead := t } =
      .error (.exit (.expected q.lookahead.line q.lookahead.start_pos TOK_ID TOK_EOF) q) := by
    rw [program_eq, hm1]
    show (match_ TOK_ID p1 >>= _) = _
    rw [hm2]
    show (match_ TOK_LBRACE p2 >>= _) = _
    rw [hm3]
    show (declaration_list fuel p3 >>= _) = _
    rw [hN4 fuel (by omega)]
    show (statement_list fuel p4 >>= _) = _
    rw [hN5 fuel (by omega)]
    rfl
  unfold main
  rw [hg]
  simp only
  rw [hp]

theorem main_sound {fuel : Nat} {buffer : List Char} {p : Parser}
    (h : main fuel buffer = some (.completed p)) :
    ∃ ds ss, DeclList ds ∧ StmtList ss ∧
      buffer_tokens buffer
        (TOK_PROGRAM :: TOK_ID :: TOK_LBRACE :: (ds ++ ss) ++ [TOK_RBRACE, TOK_EOF]) = true := by
  obtain ⟨t, sc, hg, hp, heof⟩ := main_completed h
  obtain ⟨ds, ss, hds, hss, hc⟩ := program_sound hp
  refine ⟨ds, ss, hds, hss, ?_⟩
  unfold buffer_tokens
  rw [hg]
  have := stream_of_consumed hc (stream_eof heof)
  simpa using this

/-! ## A declaration without its semicolon -/

theorem declaration_list_no_semicolon {ds : List TokenType} (h : DeclList ds) :
    ∀ (p : Parser) (ty k : TokenType) (rest : List TokenType),
      stream_is p (ds ++ ty :: TOK_ID :: k :: rest) = true →
      ty = TOK_INT ∨ ty = TOK_FLOAT → k ≠ TOK_SEMI →
      ∃ p1 q, p1.lookahead.type = TOK_ID ∧ match_ TOK_ID p1 = .ok q ∧ q.lookahead.type = k ∧
        ∃ N, ∀ fuel, N ≤ fuel →
          declaration_list fuel p =
            .error (.exit (.declaration p1.lookahead.line (p1.lookahead.end_pos + 1)
              p1.lookahead.lexeme) q) := by
  induction h with
  | nil =>
    intro p ty k rest hs hty hk
    have hs0 : stream_is p (ty :: TOK_ID :: k :: rest) = true := by simpa using hs
    obtain ⟨p1, hm1, hs1⟩ := match_of_stream hs0
    obtain ⟨q, hm2, hs2⟩ := match_of_stream hs1
    refine ⟨p1, q, stream_head hs1, hm2, stream_head hs2, 1, fun fuel hf => ?_⟩
    obtain ⟨m, rfl, _⟩ := exists_succ_of_le hf
    rw [declaration_list_succ, if_pos (by rw [stream_head hs0]; exact hty), stream_head hs0, hm1]
    show (match_ TOK_ID p1 >>= _) = _
    rw [hm2]
    show (if _ then _ else _) = _
    rw [if_pos (by rw [stream_head hs2]; exact hk)]
  | @cons ty0 ds hty0 hds ih =>
    intro p ty k rest hs hty hk
    have hs0 : stream_is p
        (ty0 :: TOK_ID :: TOK_SEMI :: (ds ++ ty :: TOK_ID :: k :: rest)) = true := by
      simpa using hs
    obtain ⟨p1, hm1, hs1⟩ := match_of_stream hs0
    obtain ⟨p2, hm2, hs2⟩ := match_of_stream hs1
    have hne : ds ++ ty :: TOK_ID :: k :: rest ≠ [] := by simp
    obtain ⟨x, xs, hx⟩ := List.exists_cons_of_ne_nil hne
    rw [hx] at hs2
    obtain ⟨p3, hm3, hs3⟩ := match_of_stream hs2
    rw [← hx] at hs3
    obtain ⟨pi, q, h1, h2, h3, N, hN⟩ := ih p3 ty k rest hs3 hty hk
    refine ⟨pi, q, h1, h2, h3, N + 1, fun fuel hf => ?_⟩
    obtain ⟨m, rfl, hm⟩ := exists_succ_of_le hf
    rw [declaration_list_succ, if_pos (by rw [stream_head hs0]; exact hty0), stream_head hs0,
      hm1]
    show (match_ TOK_ID p1 >>= _) = _
    rw [hm2]
    show (if _ then _ else _) = _
    rw [if_neg (by rw [stream_head hs2]; simp)]
    rw [hm3]
    exact hN m hm

theorem main_no_semicolon {ds : List TokenType} (hds : DeclList ds) {buffer : List Char}
    {ty k : TokenType} {rest : List TokenType}
    (hk : buffer_tokens buffer
      (TOK_PROGRAM :: TOK_ID :: TOK_LBRACE :: (ds ++ ty :: TOK_ID :: k :: rest)) = true)
    (hty : ty = TOK_INT ∨ ty = TOK_FLOAT) (hsemi : k ≠ TOK_SEMI) :
    ∃ p1 q, p1.lookahead.type = TOK_ID ∧ match_ TOK_ID p1 = .ok q ∧ q.lookahead.type = k ∧
      ∃ N, ∀ fuel, N ≤ fuel →
        main fuel buffer =
          some (.exited (.declaration p1.lookahead.line (p1.lookahead.end_pos + 1)
            p1.lookahead.lexeme) q) := by
  obtain ⟨t, sc, hg, hs⟩ := buffer_tokens_iff hk
  obtain ⟨p1, hm1, hs1⟩ := match_of_stream hs
  obtain ⟨p2, hm2, hs2⟩ := match_of_stream hs1
  have hne : ds ++ ty :: TOK_ID :: k :: rest ≠ [] := by simp
  obtain ⟨x, xs, hx⟩ := List.exists_cons_of_ne_nil hne
  rw [hx] at hs2
  obtain ⟨p3, hm3, hs3⟩ := match_of_stream hs2
  rw [← hx] at hs3
  obtain ⟨pi, q, h1, h2, h3, N, hN⟩ := declaration_list_no_semicolon hds p3 ty k rest hs3 hty hsemi
  refine ⟨pi, q, h1, h2, h3, N, fun fuel hf => ?_⟩
  have hp : program fuel { sc := sc, lookahead := t } =
      .error (.exit (.declaration pi.lookahead.line (pi.lookahead.end_pos + 1)
        pi.lookahead.lexeme) q) := by
    rw [program_eq, hm1]
    show (match_ TOK_ID p1 >>= _) = _
    rw [hm2]
    show (match_ TOK_LBRACE p2 >>= _) = _
    rw [hm3]
    show (declaration_list fuel p3 >>= _) = _
    rw [hN fuel hf]
    rfl
  unfold main
  rw [hg]
  simp only
  rw [hp]

/-! ## Claims about the parser -/

/-- C2: completeness of the parser.  For every buffer whose token kinds, as
`get_next_token` produces them up to end-of-input, form a sentence of the
grammar (`statement` being `assignment_stmt`), `program()` returns without an
error and `main` reports success with `lookahead` at end-of-input, for every
sufficient amount of fuel. -/
theorem parser_complete (buffer : List Char) (ks : List TokenType)
    (hk : buffer_tokens buffer ks = true) (hs : Sentence ks) :
    ∃ p, p.lookahead.type = TOK_EOF ∧
      ∃ N, ∀ fuel, N ≤ fuel →
        (∃ t sc, get_next_token (init_scanner buffer) = some (t, sc) ∧
          program fuel { sc := sc, lookahead := t } = .ok p) ∧
        main fuel buffer = some (.completed p) := by
  obtain ⟨p, hp, N, hN⟩ := main_complete hk hs
  refine ⟨p, hp, N, fun fuel hf => ?_⟩
  obtain ⟨t, sc, hg, hprog, _⟩ := main_completed (hN fuel hf)
  exact ⟨⟨t, sc, hg, hprog⟩, hN fuel hf⟩

theorem parser_complete_witness :
    buffer_tokens "Program P \x7b int x; x = 1 + 2 * 3; \x7d".toList
        [TOK_PROGRAM, TOK_ID, TOK_LBRACE, TOK_INT, TOK_ID, TOK_SEMI, TOK_ID, TOK_ASSIGN,
          TOK_NUM, TOK_PLUS, TOK_NUM, TOK_MUL, TOK_NUM, TOK_SEMI, TOK_RBRACE, TOK_EOF] = true ∧
      ∃ p, p.lookahead.type = TOK_EOF ∧
        ∃ N, ∀ fuel, N ≤ fuel →
          (∃ t sc,
            get_next_token (init_scanner "Program P \x7b int x; x = 1 + 2 * 3; \x7d".toList) =
              some (t, sc) ∧
            program fuel { sc := sc, lookahead := t } = .ok p) ∧
          main fuel "Program P \x7b int x; x = 1 + 2 * 3; \x7d".toList = some (.completed p) :=
  ⟨by decide,
    parser_complete "Program P \x7b int x; x = 1 + 2 * 3; \x7d".toList
      [TOK_PROGRAM, TOK_ID, TOK_LBRACE, TOK_INT, TOK_ID, TOK_SEMI, TOK_ID, TOK_ASSIGN,
        TOK_NUM, TOK_PLUS, TOK_NUM, TOK_MUL, TOK_NUM, TOK_SEMI, TOK_RBRACE, TOK_EOF]
      (by decide)
      ⟨[TOK_INT, TOK_ID, TOK_SEMI],
        [TOK_ID, TOK_ASSIGN, TOK_NUM, TOK_PLUS, TOK_NUM, TOK_MUL, TOK_NUM, TOK_SEMI],
        DeclList.cons (Or.inl rfl) DeclList.nil,
        StmtList.cons (e := [TOK_NUM, TOK_PLUS, TOK_NUM, TOK_MUL, TOK_NUM])
          (Derives.expression_one
            (Derives.additive_more (t := [TOK_NUM]) (Derives.term_one Derives.factor_num)
              (Or.inl rfl)
              (Derives.additive_one
                (Derives.term_more (f := [TOK_NUM]) Derives.factor_num (Or.inl rfl)
                  (Derives.term_one Derives.factor_num)))))
          StmtList.nil,
        rfl⟩⟩

/-- C3: soundness of the parser.  If the run reports success, the token kinds
the scanner produced up to and including end-of-input form a sentence of the
grammar.  The sequence has no lexical-error token, the closing brace is its
last token before end-of-input (there is no earlier closing brace and nothing
after it), and an expression of the grammar has at most one relational
operator outside parentheses. -/
theorem parser_sound (fuel : Nat) (buffer : List Char) (p : Parser)
    (h : main fuel buffer = some (.completed p)) :
    ∃ ks, buffer_tokens buffer ks = true ∧ Sentence ks ∧ TOK_ERROR ∉ ks ∧
      (∃ pre, ks = pre ++ [TOK_RBRACE, TOK_EOF] ∧ TOK_RBRACE ∉ pre ∧ TOK_EOF ∉ pre) ∧
      (∀ ds ss, StmtList ss →
        ks = TOK_PROGRAM :: TOK_ID :: TOK_LBRACE :: (ds ++ ss ++ [TOK_RBRACE, TOK_EOF]) →
        ∀ e rest, Derives .expression e → ss = TOK_ID :: TOK_ASSIGN :: (e ++ TOK_SEMI :: rest) →
          top_relops 0 e ≤ 1) := by
  obtain ⟨ds, ss, hds, hss, hk⟩ := main_sound h
  have hmem : ∀ k ∈ TOK_PROGRAM :: TOK_ID :: TOK_LBRACE :: (ds ++ ss),
      k ≠ TOK_ERROR ∧ k ≠ TOK_RBRACE ∧ k ≠ TOK_EOF := by
    intro k hk
    simp only [List.mem_cons, List.mem_append] at hk
    rcases hk with rfl | rfl | rfl | hk | hk
    · decide
    · decide
    · decide
    · have := declList_tokens hds k hk; exact ⟨this.1, this.2.1, this.2.2.1⟩
    · have := stmtList_tokens hss k hk; exact ⟨this.1, this.2.1, this.2.2.1⟩
  refine ⟨_, hk, ⟨ds, ss, hds, hss, by simp⟩, ?_, ⟨_, rfl, ?_, ?_⟩, ?_⟩
  · intro hm
    rw [List.mem_append] at hm
    rcases hm with hm | hm
    · exact (hmem _ hm).1 rfl
    · simp at hm
  · intro hm; exact (hmem _ hm).2.1 rfl
  · intro hm; exact (hmem _ hm).2.2 rfl
  · intro _ _ _ _ e _ he _
    exact expression_top_relops he

theorem parser_sound_witness :
    main 8 "Program P \x7b x = 1; \x7d".toList =
        some (.completed
          { sc := ⟨"Program P \x7b x = 1; \x7d".toList, 20, 1, 21⟩
            lookahead := make_token ⟨"Program P \x7b x = 1; \x7d".toList, 20, 1, 21⟩ TOK_EOF [] }) ∧
      ∃ ks, buffer_tokens "Program P \x7b x = 1; \x7d".toList ks = true ∧ Sentence ks ∧
        TOK_ERROR ∉ ks ∧
        (∃ pre, ks = pre ++ [TOK_RBRACE, TOK_EOF] ∧ TOK_RBRACE ∉ pre ∧ TOK_EOF ∉ pre) ∧
        (∀ ds ss, StmtList ss →
          ks = TOK_PROGRAM :: TOK_ID :: TOK_LBRACE :: (ds ++ ss ++ [TOK_RBRACE, TOK_EOF]) →
          ∀ e rest, Derives .expression e →
            ss = TOK_ID :: TOK_ASSIGN :: (e ++ TOK_SEMI :: rest) → top_relops 0 e ≤ 1) :=
  ⟨by rfl, parser_sound 8 "Program P \x7b x = 1; \x7d".toList _ (by rfl)⟩

/-- C4: when the parser accepts a buffer, the token kinds of the buffer end
with the closing brace and end-of-input, and every buffer that has the same
token kinds without that closing brace is rejected: the run prints the
diagnostic of `match(TOK_ID)` at the end-of-input token (expected identifier,
found end-of-file) and leaves through `exit(1)`; it never reports success. -/
theorem missing_rbrace_rejected (fuel : Nat) (buffer : List Char) (p : Parser)
    (h : main fuel buffer = some (.completed p)) :
    (∃ ks, buffer_tokens buffer (ks ++ [TOK_RBRACE, TOK_EOF]) = true) ∧
    ∀ (ks : List TokenType) (buffer' : List Char),
      buffer_tokens buffer (ks ++ [TOK_RBRACE, TOK_EOF]) = true →
      buffer_tokens buffer' (ks ++ [TOK_EOF]) = true →
      ∃ q, q.lookahead.type = TOK_EOF ∧
        ∃ N, ∀ fuel', N ≤ fuel' →
          main fuel' buffer' =
              some (.exited
                (.expected q.lookahead.line q.lookahead.start_pos TOK_ID TOK_EOF) q) ∧
            ∀ r, main fuel' buffer' ≠ some (.completed r) := by
  obtain ⟨ds, ss, hds, hss, hk⟩ := main_sound h
  refine ⟨⟨_, hk⟩, ?_⟩
  intro ks buffer' h1 h2
  obtain ⟨t, sc, hg, hs⟩ := buffer_tokens_iff hk
  obtain ⟨t1, sc1, hg1, hs1⟩ := buffer_tokens_iff h1
  rw [hg] at hg1
  cases hg1
  have heq := stream_unique _ _ _ hs1 hs
  have hks : ks = TOK_PROGRAM :: TOK_ID :: TOK_LBRACE :: (ds ++ ss) :=
    List.append_cancel_right heq
  subst hks
  obtain ⟨q, hq, N, hN⟩ := main_missing_rbrace hds hss h2
  refine ⟨q, hq, N, fun fuel' hf => ⟨hN fuel' hf, fun r hr => ?_⟩⟩
  rw [hN fuel' hf] at hr
  cases hr

theorem missing_rbrace_rejected_witness :
    ∃ q, q.lookahead.type = TOK_EOF ∧
      ∃ N, ∀ fuel', N ≤ fuel' →
        main fuel' "Program P \x7b int x; x = 1 + 2 * 3; ".toList =
            some (.exited
              (.expected q.lookahead.line q.lookahead.start_pos TOK_ID TOK_EOF) q) ∧
          ∀ r, main fuel' "Program P \x7b int x; x = 1 + 2 * 3; ".toList ≠
            some (.completed r) := by
  obtain ⟨p, _, N, hN⟩ := @main_complete
    "Program P \x7b int x; x = 1 + 2 * 3; \x7d".toList
    [TOK_PROGRAM, TOK_ID, TOK_LBRACE, TOK_INT, TOK_ID, TOK_SEMI, TOK_ID, TOK_ASSIGN,
        TOK_NUM, TOK_PLUS, TOK_NUM, TOK_MUL, TOK_NUM, TOK_SEMI, TOK_RBRACE, TOK_EOF]
    (by decide)
    ⟨[TOK_INT, TOK_ID, TOK_SEMI],
      [TOK_ID, TOK_ASSIGN, TOK_NUM, TOK_PLUS, TOK_NUM, TOK_MUL, TOK_NUM, TOK_SEMI],
      DeclList.cons (Or.inl rfl) DeclList.nil,
      StmtList.cons (e := [TOK_NUM, TOK_PLUS, TOK_NUM, TOK_MUL, TOK_NUM])
        (Derives.expression_one
          (Derives.additive_more (t := [TOK_NUM]) (Derives.term_one Derives.factor_num)
            (Or.inl rfl)
            (Derives.additive_one
              (Derives.term_more (f := [TOK_NUM]) Derives.factor_num (Or.inl rfl)
                (Derives.term_one Derives.factor_num)))))
        StmtList.nil,
      rfl⟩
  exact (missing_rbrace_rejected N "Program P \x7b int x; x = 1 + 2 * 3; \x7d".toList p
    (hN N (Nat.le_refl N))).2
    [TOK_PROGRAM, TOK_ID, TOK_LBRACE, TOK_INT, TOK_ID, TOK_SEMI, TOK_ID, TOK_ASSIGN,
      TOK_NUM, TOK_PLUS, TOK_NUM, TOK_MUL, TOK_NUM, TOK_SEMI]
    "Program P \x7b int x; x = 1 + 2 * 3; ".toList (by decide) (by decide)

/-- C10: a declaration `type identifier` whose identifier is not followed by
`;` stops the run in `declaration_list`.  First part: at the head of the loop,
when the lookahead is `int` or `float`, the next token is an identifier and the
token after it is not `;`, `declaration_list` exits with the diagnostic
`Expected ';' after declaration of '<identifier text>'`; the reported line is
the identifier token's line, the reported position is the identifier token's
end column plus 1, which is the scanner's column right after the identifier,
and the state at the exit has the offending token as lookahead (it has not been
consumed).  Second part: the same holds in a run of `main` for such a
declaration after any number of well-formed declarations of the program
block. -/
theorem declaration_missing_semicolon :
    (∀ (fuel : Nat) (p : Parser) (id_token : Token) (sc1 : Scanner) (t2 : Token)
        (sc2 : Scanner),
      (p.lookahead.type = TOK_INT ∨ p.lookahead.type = TOK_FLOAT) →
      get_next_token p.sc = some (id_token, sc1) → id_token.type = TOK_ID →
      get_next_token sc1 = some (t2, sc2) → t2.type ≠ TOK_SEMI →
      declaration_list (fuel + 1) p =
          .error (.exit (.declaration id_token.line (id_token.end_pos + 1) id_token.lexeme)
            { sc := sc2, lookahead := t2 }) ∧
        id_token.end_pos + 1 = sc1.column ∧ id_token.line = sc1.line ∧
        (Diag.declaration id_token.line (id_token.end_pos + 1) id_token.lexeme).render =
          "ERROR at line " ++ toString id_token.line ++ ", position " ++
            toString (id_token.end_pos + 1) ++ ": Expected ';' after declaration of '" ++
            String.mk id_token.lexeme ++ "'") ∧
    (∀ (buffer : List Char) (ds : List TokenType) (ty k : TokenType) (rest : List TokenType),
      DeclList ds →
      buffer_tokens buffer
        (TOK_PROGRAM :: TOK_ID :: TOK_LBRACE :: (ds ++ ty :: TOK_ID :: k :: rest)) = true →
      (ty = TOK_INT ∨ ty = TOK_FLOAT) → k ≠ TOK_SEMI →
      ∃ p1 q, p1.lookahead.type = TOK_ID ∧ match_ TOK_ID p1 = .ok q ∧ q.lookahead.type = k ∧
        ∃ N, ∀ fuel, N ≤ fuel →
          main fuel buffer =
            some (.exited (.declaration p1.lookahead.line (p1.lookahead.end_pos + 1)
              p1.lookahead.lexeme) q)) := by
  refine ⟨?_, ?_⟩
  · intro fuel p id_token sc1 t2 sc2 hty h1 hid h2 hsemi
    refine ⟨?_, ?_, ?_, rfl⟩
    · rw [declaration_list_succ, if_pos hty]
      have m1 : match_ p.lookahead.type p = .ok { sc := sc1, lookahead := id_token } := by
        unfold match_
        rw [if_pos rfl, h1]
      have m2 : match_ TOK_ID { sc := sc1, lookahead := id_token } =
          .ok { sc := sc2, lookahead := t2 } := by
        unfold match_
        rw [if_pos hid, h2]
      rw [m1]
      show (match_ TOK_ID { sc := sc1, lookahead := id_token } >>= _) = _
      rw [m2]
      show (if _ then _ else _) = _
      rw [if_pos hsemi]
    · obtain ⟨lex, hm⟩ := (tokenOk_of_eq h1).made
      rw [hm]
      simp [make_token]
    · obtain ⟨lex, hm⟩ := (tokenOk_of_eq h1).made
      rw [hm]
      rfl
  · intro buffer ds ty k rest hds hk hty hsemi
    exact main_no_semicolon hds hk hty hsemi

theorem declaration_missing_semicolon_witness :
    declaration_list 1
          { sc := ⟨"int x y".toList, 3, 1, 4⟩
            lookahead := make_token ⟨"int x y".toList, 3, 1, 4⟩ TOK_INT "int".toList } =
        .error (.exit (.declaration 1 6 ['x'])
          { sc := ⟨"int x y".toList, 7, 1, 8⟩
            lookahead := make_token ⟨"int x y".toList, 7, 1, 8⟩ TOK_ID ['y'] }) ∧
      ∃ p1 q, p1.lookahead.type = TOK_ID ∧ match_ TOK_ID p1 = .ok q ∧
        q.lookahead.type = TOK_ID ∧
        ∃ N, ∀ fuel, N ≤ fuel →
          main fuel "Program P \x7b int x; float y z".toList =
            some (.exited (.declaration p1.lookahead.line (p1.lookahead.end_pos + 1)
              p1.lookahead.lexeme) q) :=
  ⟨(declaration_missing_semicolon.1 0
      { sc := ⟨"int x y".toList, 3, 1, 4⟩
        lookahead := make_token ⟨"int x y".toList, 3, 1, 4⟩ TOK_INT "int".toList }
      (make_token ⟨"int x y".toList, 5, 1, 6⟩ TOK_ID ['x']) ⟨"int x y".toList, 5, 1, 6⟩
      (make_token ⟨"int x y".toList, 7, 1, 8⟩ TOK_ID ['y']) ⟨"int x y".toList, 7, 1, 8⟩
      (Or.inl rfl) (by rfl) rfl (by rfl) (by decide)).1,
    declaration_missing_semicolon.2 "Program P \x7b int x; float y z".toList
      [TOK_INT, TOK_ID, TOK_SEMI] TOK_FLOAT TOK_ID [TOK_EOF]
      (DeclList.cons (Or.inl rfl) DeclList.nil) (by decide) (Or.inr rfl) (by decide)⟩

/-! ## `match` and the single relational operator -/

theorem relop_ne_eof {r : TokenType} (h : is_relop r) : r ≠ TOK_EOF := by
  rcases h with h | h | h | h | h | h <;> rw [h] <;> decide

theorem match_decreases {e : TokenType} {p p' : Parser} (h : match_ e p = .ok p')
    (he : e ≠ TOK_EOF) : tokens_left p' < tokens_left p := by
  obtain ⟨h1, h2⟩ := match_ok h
  have ok := tokenOk_of_eq h2
  have hp : ¬ p.lookahead.type = TOK_EOF := by rw [h1]; exact he
  unfold tokens_left
  by_cases ht : p'.lookahead.type = TOK_EOF
  · simp only [hp, ht, if_true, if_false, (ok.eof ht).1]
    simp
  · simp only [hp, ht, if_false]
    have := ok.progress ht
    omega

theorem match_cases (e : TokenType) (p : Parser) :
    (∃ p', match_ e p = .ok p') ∨ ∃ d, match_ e p = .error (.exit d p) := by
  unfold match_
  by_cases h : p.lookahead.type = e
  · obtain ⟨t, sc, hg, _⟩ := get_next_token_ok p.sc
    rw [if_pos h, hg]
    exact Or.inl ⟨_, rfl⟩
  · rw [if_neg h]
    exact Or.inr ⟨_, rfl⟩

theorem halts_ok {p : Parser} {Q : Parser → Prop} (h : Q p) : Halts (fun _ => .ok p) Q :=
  ⟨.ok p, 0, fun _ _ => rfl, by simp, fun p' hp => by cases hp; exact h⟩

theorem halts_exit (d : Diag) (p : Parser) (Q : Parser → Prop) :
    Halts (fun _ => .error (.exit d p)) Q :=
  ⟨_, 0, fun _ _ => rfl, by simp, fun p' hp => by cases hp⟩

theorem halts_match (e : TokenType) (p : Parser) (he : e ≠ TOK_EOF) :
    Halts (fun _ => match_ e p) (fun p' => tokens_left p' < tokens_left p) := by
  rcases match_cases e p with ⟨p', h⟩ | ⟨d, h⟩
  · exact ⟨_, 0, fun _ _ => h, by simp, fun q hq => by cases hq; exact match_decreases h he⟩
  · exact ⟨_, 0, fun _ _ => h, by simp, fun q hq => by cases hq⟩

theorem halts_bind {c : Nat → Except Stop Parser} {k : Nat → Parser → Except Stop Parser}
    {Q1 Q2 : Parser → Prop} (h1 : Halts c Q1)
    (h2 : ∀ p1, Q1 p1 → Halts (fun n => k n p1) Q2) :
    Halts (fun n => c n >>= k n) Q2 := by
  obtain ⟨r1, N1, e1, hne, hq⟩ := h1
  cases r1 with
  | error e =>
    refine ⟨.error e, N1, fun fuel hf => ?_, hne, fun p' hp => by cases hp⟩
    show (c fuel >>= k fuel) = _
    rw [e1 fuel hf]
    rfl
  | ok p1 =>
    obtain ⟨r2, N2, e2, hne2, hq2⟩ := h2 p1 (hq p1 rfl)
    refine ⟨r2, N1 + N2, fun fuel hf => ?_, hne2, hq2⟩
    show (c fuel >>= k fuel) = _
    rw [e1 fuel (by omega)]
    exact e2 fuel (by omega)

theorem halts_weaken {c : Nat → Except Stop Parser} {Q Q' : Parser → Prop} (h : Halts c Q)
    (hq : ∀ p, Q p → Q' p) : Halts c Q' := by
  obtain ⟨r, N, e, hne, hp⟩ := h
  exact ⟨r, N, e, hne, fun p' h' => hq p' (hp p' h')⟩

theorem halts_succ {f g : Nat → Except Stop Parser} {Q : Parser → Prop}
    (hfg : ∀ n, f (n + 1) = g n) (h : Halts g Q) : Halts f Q := by
  obtain ⟨r, N, e, hne, hp⟩ := h
  refine ⟨r, N + 1, fun fuel hf => ?_, hne, hp⟩
  obtain ⟨m, rfl, hm⟩ := exists_succ_of_le hf
  rw [hfg]
  exact e m hm

theorem halts_congr {f g : Nat → Except Stop Parser} {Q : Parser → Prop}
    (hfg : ∀ n, f n = g n) (h : Halts g Q) : Halts f Q := by
  have : f = g := funext hfg
  rw [this]
  exact h

theorem factor_of_other {fuel : Nat} {p : Parser} (h1 : p.lookahead.type ≠ TOK_ID)
    (h2 : p.lookahead.type ≠ TOK_NUM) (h3 : p.lookahead.type ≠ TOK_LPAREN) :
    factor (fuel + 1) p = report_error "Unexpected token in factor" p.lookahead p := by
  rw [factor_succ]
  split
  · rename_i h; exact absurd h h1
  · rename_i h; exact absurd h h2
  · rename_i h; exact absurd h h3
  · rfl

theorem expr_halts :
    ∀ m p, tokens_left p < m →
      Halts (fun n => factor n p) (fun p' => tokens_left p' < tokens_left p) ∧
      Halts (fun n => term_loop n p) (fun p' => tokens_left p' ≤ tokens_left p) ∧
      Halts (fun n => term n p) (fun p' => tokens_left p' < tokens_left p) ∧
      Halts (fun n => additive_expression_loop n p)
        (fun p' => tokens_left p' ≤ tokens_left p) ∧
      Halts (fun n => additive_expression n p) (fun p' => tokens_left p' < tokens_left p) ∧
      Halts (fun n => expression n p) (fun p' => tokens_left p' < tokens_left p) := by
  intro m
  induction m with
  | zero => intro p h; omega
  | succ m ih =>
    intro p hp
    -- factor
    have hF : Halts (fun n => factor n p) (fun p' => tokens_left p' < tokens_left p) := by
      by_cases h1 : p.lookahead.type = TOK_ID
      · exact halts_succ (fun n => factor_of_id h1) (halts_match TOK_ID p (by decide))
      by_cases h2 : p.lookahead.type = TOK_NUM
      · exact halts_succ (fun n => factor_of_num h2) (halts_match TOK_NUM p (by decide))
      by_cases h3 : p.lookahead.type = TOK_LPAREN
      · refine halts_succ (fun n => factor_of_lparen h3) ?_
        refine halts_bind (halts_match TOK_LPAREN p (by decide)) (fun p1 hp1 => ?_)
        refine halts_bind (ih p1 (by omega)).2.2.2.2.2 (fun p2 hp2 => ?_)
        exact halts_weaken (halts_match TOK_RPAREN p2 (by decide)) (fun q hq => by omega)
      · exact halts_succ (fun n => factor_of_other h1 h2 h3) (halts_exit _ _ _)
    -- term_loop
    have hTL : Halts (fun n => term_loop n p) (fun p' => tokens_left p' ≤ tokens_left p) := by
      refine halts_succ (fun n => term_loop_succ n p) ?_
      by_cases hop : p.lookahead.type = TOK_MUL ∨ p.lookahead.type = TOK_DIV
      · refine halts_congr (fun n => if_pos hop) ?_
        refine halts_bind (halts_match _ p (by rcases hop with h | h <;> rw [h] <;> decide))
          (fun p1 hp1 => ?_)
        refine halts_bind (ih p1 (by omega)).1 (fun p2 hp2 => ?_)
        exact halts_weaken (ih p2 (by omega)).2.1 (fun q hq => by omega)
      · exact halts_congr (fun n => if_neg hop) (halts_ok (Nat.le_refl _))
    -- term
    have hT : Halts (fun n => term n p) (fun p' => tokens_left p' < tokens_left p) := by
      refine halts_succ (fun n => term_succ n p) ?_
      refine halts_bind hF (fun p1 hp1 => ?_)
      exact halts_weaken (ih p1 (by omega)).2.1 (fun q hq => by omega)
    -- additive_expression_loop
    have hAL : Halts (fun n => additive_expression_loop n p)
        (fun p' => tokens_left p' ≤ tokens_left p) := by
      refine halts_succ (fun n => additive_expression_loop_succ n p) ?_
      by_cases hop : p.lookahead.type = TOK_PLUS ∨ p.lookahead.type = TOK_MINUS
      · refine halts_congr (fun n => if_pos hop) ?_
        refine halts_bind (halts_match _ p (by rcases hop with h | h <;> rw [h] <;> decide))
          (fun p1 hp1 => ?_)
        refine halts_bind (ih p1 (by omega)).2.2.1 (fun p2 hp2 => ?_)
        exact halts_weaken (ih p2 (by omega)).2.2.2.1 (fun q hq => by omega)
      · exact halts_congr (fun n => if_neg hop) (halts_ok (Nat.le_refl _))
    -- additive_expression
    have hA : Halts (fun n => additive_expression n p)
        (fun p' => tokens_left p' < tokens_left p) := by
      refine halts_succ (fun n => additive_expression_succ n p) ?_
      refine halts_bind hT (fun p1 hp1 => ?_)
      exact halts_weaken (ih p1 (by omega)).2.2.2.1 (fun q hq => by omega)
    -- expression
    have hE : Halts (fun n => expression n p) (fun p' => tokens_left p' < tokens_left p) := by
      refine halts_succ (fun n => expression_succ n p) ?_
      refine halts_bind hA (fun p1 hp1 => ?_)
      by_cases hop : p1.lookahead.type = TOK_LT ∨ p1.lookahead.type = TOK_GT ∨
          p1.lookahead.type = TOK_LTE ∨ p1.lookahead.type = TOK_GTE ∨
          p1.lookahead.type = TOK_EQ ∨ p1.lookahead.type = TOK_NEQ
      · refine halts_congr (fun n => if_pos hop) ?_
        refine halts_bind (halts_match _ p1 (relop_ne_eof hop)) (fun p2 hp2 => ?_)
        exact halts_weaken (ih p2 (by omega)).2.2.2.2.1 (fun q hq => by omega)
      · exact halts_congr (fun n => if_neg hop) (halts_ok hp1)
    exact ⟨hF, hTL, hT, hAL, hA, hE⟩

theorem expression_halts (p : Parser) :
    Halts (fun n => expression n p) (fun p' => tokens_left p' < tokens_left p) :=
  (expr_halts (tokens_left p + 1) p (Nat.lt_succ_self _)).2.2.2.2.2

theorem declaration_list_halts :
    ∀ m p, tokens_left p < m →
      Halts (fun n => declaration_list n p) (fun p' => tokens_left p' ≤ tokens_left p) := by
  intro m
  induction m with
  | zero => intro p h; omega
  | succ m ih =>
    intro p hp
    refine halts_succ (fun n => declaration_list_succ n p) ?_
    by_cases hty : p.lookahead.type = TOK_INT ∨ p.lookahead.type = TOK_FLOAT
    · refine halts_congr (fun n => if_pos hty) ?_
      refine halts_bind (halts_match _ p (by rcases hty with h | h <;> rw [h] <;> decide))
        (fun p1 hp1 => ?_)
      refine halts_bind (halts_match TOK_ID p1 (by decide)) (fun p2 hp2 => ?_)
      by_cases hsemi : p2.lookahead.type ≠ TOK_SEMI
      · exact halts_congr (fun n => if_pos hsemi) (halts_exit _ _ _)
      · refine halts_congr (fun n => if_neg hsemi) ?_
        refine halts_bind (halts_match TOK_SEMI p2 (by decide)) (fun p3 hp3 => ?_)
        exact halts_weaken (ih p3 (by omega)) (fun q hq => by omega)
    · exact halts_congr (fun n => if_neg hty) (halts_ok (Nat.le_refl _))

theorem assignment_stmt_halts (p : Parser) :
    Halts (fun n => assignment_stmt n p) (fun p' => tokens_left p' < tokens_left p) := by
  refine halts_congr (fun n => assignment_stmt_eq n p) ?_
  refine halts_bind (halts_match TOK_ID p (by decide)) (fun p1 hp1 => ?_)
  refine halts_bind (halts_match TOK_ASSIGN p1 (by decide)) (fun p2 hp2 => ?_)
  refine halts_bind (expression_halts p2) (fun p3 hp3 => ?_)
  exact halts_weaken (halts_match TOK_SEMI p3 (by decide)) (fun q hq => by omega)

theorem statement_list_halts :
    ∀ m p, tokens_left p < m →
      Halts (fun n => statement_list n p) (fun p' => tokens_left p' ≤ tokens_left p) := by
  intro m
  induction m with
  | zero => intro p h; omega
  | succ m ih =>
    intro p hp
    refine halts_succ (fun n => statement_list_succ n p) ?_
    by_cases hty : p.lookahead.type ≠ TOK_RBRACE
    · refine halts_congr (fun n => if_pos hty) ?_
      refine halts_bind (assignment_stmt_halts p) (fun p1 hp1 => ?_)
      exact halts_weaken (ih p1 (by omega)) (fun q hq => by omega)
    · exact halts_congr (fun n => if_neg hty) (halts_ok (Nat.le_refl _))

theorem program_halts (p : Parser) : Halts (fun n => program n p) (fun _ => True) := by
  refine halts_congr (fun n => program_eq n p) ?_
  refine halts_bind (halts_match TOK_PROGRAM p (by decide)) (fun p1 _ => ?_)
  refine halts_bind (halts_match TOK_ID p1 (by decide)) (fun p2 _ => ?_)
  refine halts_bind (halts_match TOK_LBRACE p2 (by decide)) (fun p3 _ => ?_)
  refine halts_bind (declaration_list_halts _ p3 (Nat.lt_succ_self _)) (fun p4 _ => ?_)
  refine halts_bind (statement_list_halts _ p4 (Nat.lt_succ_self _)) (fun p5 _ => ?_)
  exact halts_weaken (halts_match TOK_RBRACE p5 (by decide)) (fun _ _ => trivial)

/-- Every run of `main` ends, and in one of three ways. -/
theorem main_halts (buffer : List Char) :
    ∃ t sc, get_next_token (init_scanner buffer) = some (t, sc) ∧
      ∃ N,
        (∃ p, p.lookahead.type = TOK_EOF ∧ ∀ fuel, N ≤ fuel →
          program fuel { sc := sc, lookahead := t } = .ok p ∧
            main fuel buffer = some (.completed p)) ∨
        (∃ p, p.lookahead.type ≠ TOK_EOF ∧ ∀ fuel, N ≤ fuel →
          program fuel { sc := sc, lookahead := t } = .ok p ∧
            main fuel buffer = some (.failed p)) ∨
        (∃ d p, ∀ fuel, N ≤ fuel →
          program fuel { sc := sc, lookahead := t } = .error (.exit d p) ∧
            main fuel buffer = some (.exited d p)) := by
  obtain ⟨t, sc, hg, _⟩ := get_next_token_ok (init_scanner buffer)
  obtain ⟨r, N, hr0, hne, _⟩ := program_halts { sc := sc, lookahead := t }
  have hr : ∀ fuel, N ≤ fuel → program fuel { sc := sc, lookahead := t } = r := hr0
  refine ⟨t, sc, hg, N, ?_⟩
  cases r with
  | error e =>
    cases e with
    | fuel => exact absurd rfl hne
    | exit d p =>
      refine Or.inr (Or.inr ⟨d, p, fun fuel hf => ⟨hr fuel hf, ?_⟩⟩)
      unfold main
      rw [hg]
      simp only
      rw [hr fuel hf]
  | ok p =>
    by_cases hp : p.lookahead.type = TOK_EOF
    · refine Or.inl ⟨p, hp, fun fuel hf => ⟨hr fuel hf, ?_⟩⟩
      unfold main
      rw [hg]
      simp only
      rw [hr fuel hf]
      simp only
      rw [if_pos hp]
    · refine Or.inr (Or.inl ⟨p, hp, fun fuel hf => ⟨hr fuel hf, ?_⟩⟩)
      unfold main
      rw [hg]
      simp only
      rw [hr fuel hf]
      simp only
      rw [if_neg hp]

theorem consumed_tokens_left {w : List TokenType} :
    ∀ {p p' : Parser}, Consumed p w p' → tokens_left p' + w.length ≤ tokens_left p := by
  induction w with
  | nil => intro p p' h; cases h; simp
  | cons k w ih =>
    intro p p' h
    obtain ⟨h1, h2, t, sc, hg, hc⟩ := h
    have hm : match_ k p = .ok { sc := sc, lookahead := t } := by
      unfold match_
      rw [if_pos h1, hg]
    have := match_decreases hm h2
    have := ih hc
    simp only [List.length_cons]
    omega

theorem derives_ne_nil {X : NT} {w : List TokenType} (h : Derives X w) : w ≠ [] := by
  induction h with
  | factor_id => simp
  | factor_num => simp
  | factor_paren _ _ => simp
  | term_one _ ih => exact ih
  | term_more _ _ _ _ _ => simp
  | additive_one _ ih => exact ih
  | additive_more _ _ _ _ _ => simp
  | expression_one _ ih => exact ih
  | expression_rel _ _ _ _ _ => simp

theorem consumed_nonempty_lt {w : List TokenType} {p p' : Parser} (h : Consumed p w p')
    (hw : w ≠ []) : tokens_left p' < tokens_left p := by
  have := consumed_tokens_left h
  have : 0 < w.length := List.length_pos.2 hw
  omega

theorem factor_decreases {fuel : Nat} {p p' : Parser} (h : factor fuel p = .ok p') :
    tokens_left p' < tokens_left p := by
  obtain ⟨w, hw, hc⟩ := (expr_sound fuel).1 p p' h
  exact consumed_nonempty_lt hc (derives_ne_nil hw)

theorem term_decreases {fuel : Nat} {p p' : Parser} (h : term fuel p = .ok p') :
    tokens_left p' < tokens_left p := by
  obtain ⟨w, hw, hc⟩ := (expr_sound fuel).2.2.1 p p' h
  exact consumed_nonempty_lt hc (derives_ne_nil hw)

theorem statement_decreases {fuel : Nat} {p p' : Parser} (h : statement fuel p = .ok p') :
    tokens_left p' < tokens_left p := by
  obtain ⟨e, _, hc⟩ := assignment_stmt_sound h
  exact consumed_nonempty_lt hc (by simp)

theorem statement_list_at_eof (fuel : Nat) (p : Parser) (h : p.lookahead.type = TOK_EOF) :
    statement_list (fuel + 1) p =
      .error (.exit (.expected p.lookahead.line p.lookahead.start_pos TOK_ID TOK_EOF) p) := by
  rw [statement_list_succ, if_pos (by rw [h]; decide)]
  show (assignment_stmt fuel p >>= _) = _
  rw [assignment_stmt_eq]
  have : match_ TOK_ID p =
      .error (.exit (.expected p.lookahead.line p.lookahead.start_pos TOK_ID TOK_EOF) p) := by
    unfold match_
    rw [if_neg (by rw [h]; decide), h]
  rw [this]
  rfl


/-! ## How a run ends -/

theorem program_last_match {fuel : Nat} {p p' : Parser} (h : program fuel p = .ok p') :
    ∃ p5, p5.lookahead.type = TOK_RBRACE ∧ match_ TOK_RBRACE p5 = .ok p' := by
  rw [program_eq] at h
  obtain ⟨p1, _, h⟩ := bind_ok h
  obtain ⟨p2, _, h⟩ := bind_ok h
  obtain ⟨p3, _, h⟩ := bind_ok h
  obtain ⟨p4, _, h⟩ := bind_ok h
  obtain ⟨p5, _, h6⟩ := bind_ok h
  exact ⟨p5, (match_ok h6).1, h6⟩

theorem render_form (d : Diag) :
    ∃ (L C : Int) (msg : String),
      d.render = "ERROR at line " ++ toString L ++ ", position " ++ toString C ++ ": " ++ msg := by
  have e1 : ∀ y : String, ": Expected '" ++ y = ": " ++ ("Expected '" ++ y) := by
    intro y
    rw [← String.append_assoc]
    rfl
  cases d with
  | expected line pos exp found =>
    refine ⟨line, pos, "Expected '" ++ token_to_str exp ++ "', found '" ++
      token_to_str found ++ "'", ?_⟩
    simp only [Diag.render, String.append_assoc, e1]
  | report message line pos lexeme =>
    refine ⟨line, pos, message ++ " (found '" ++ String.mk lexeme ++ "')", ?_⟩
    simp only [Diag.render, String.append_assoc]
  | declaration line pos lexeme =>
    refine ⟨line, pos, "Expected ';' after declaration of '" ++ String.mk lexeme ++ "'", ?_⟩
    have e2 : ∀ y : String, ": Expected ';' after declaration of '" ++ y =
        ": " ++ ("Expected ';' after declaration of '" ++ y) := by
      intro y
      rw [← String.append_assoc]
      rfl
    simp only [Diag.render, String.append_assoc, e2]

theorem main_trailing_token {ds ss : List TokenType} (hds : DeclList ds) (hss : StmtList ss)
    {buffer : List Char} {k : TokenType} {rest : List TokenType}
    (hk : buffer_tokens buffer
      (TOK_PROGRAM :: TOK_ID :: TOK_LBRACE :: (ds ++ ss ++ TOK_RBRACE :: k :: rest)) = true)
    (hne : k ≠ TOK_EOF) :
    ∃ p, p.lookahead.type = k ∧ ∃ N, ∀ fuel, N ≤ fuel → main fuel buffer = some (.failed p) := by
  obtain ⟨t, sc, hg, hs⟩ := buffer_tokens_iff hk
  obtain ⟨p, hsp, N, hN⟩ := program_complete hds hss _ k rest hs
  refine ⟨p, stream_head hsp, N, fun fuel hf => ?_⟩
  unfold main
  rw [hg]
  simp only
  rw [hN fuel hf]
  simp only
  rw [if_neg (by rw [stream_head hsp]; exact hne)]


/-! ## Exact results of the lexeme branches -/

theorem upper_toNat {c : Char} (h : 'A' ≤ c ∧ c ≤ 'Z') : 65 ≤ c.toNat ∧ c.toNat ≤ 90 := by
  obtain ⟨h1, h2⟩ := h
  have a : ('A' : Char).val ≤ c.val := h1
  have b : c.val ≤ ('Z' : Char).val := h2
  rw [UInt32.le_def] at a b
  exact ⟨a, b⟩

theorem tolower_eq_e (c : Char) : tolower c = 'e' ↔ c = 'e' ∨ c = 'E' := by
  unfold tolower
  by_cases h : 'A' ≤ c ∧ c ≤ 'Z'
  · rw [if_pos h]
    obtain ⟨h1, h2⟩ := upper_toNat h
    have hc : c = Char.ofNat c.toNat := (Char.ofNat_toNat c).symm
    generalize c.toNat = n at h1 h2 hc
    subst hc
    interval_cases n <;> decide
  · rw [if_neg h]
    constructor
    · intro h'; exact Or.inl h'
    · rintro (h' | h')
      · exact h'
      · subst h'; exact absurd (by decide) h

theorem advance_zero (s : Scanner) : advance s 0 = s := by
  cases s
  simp [advance]

theorem advance_add (s : Scanner) (a b : Nat) : advance (advance s a) b = advance s (a + b) := by
  simp only [advance, Scanner.mk.injEq, true_and]
  constructor
  · omega
  · push_cast; omega

theorem after_run_eq_advance (P : Char → Bool) (s : Scanner) :
    after_run P s = advance s ((rest s).takeWhile P).length := rfl

theorem rest_advance {s : Scanner} {lex tail : List Char} (h : rest s = lex ++ tail) :
    rest (advance s lex.length) = tail := by
  show restAt s.input (s.current_pos + lex.length) = tail
  have := restAt_add s.input s.current_pos lex.length (by
    show lex.length ≤ (rest s).length
    rw [h]; simp)
  rw [this]
  show (rest s).drop lex.length = tail
  rw [h]
  simp

theorem consume_char_advance {s : Scanner} {c : Char} {r : List Char} (h : rest s = c :: r)
    (hn : c ≠ '\n') (hr : c ≠ '\r') : consume_char s = advance s 1 ∧ peek_char s = c := by
  obtain ⟨e, _⟩ := consume_char_plain h hn (fun h' => absurd h' hr)
  refine ⟨?_, by rw [peek_char_eq, h]; rfl⟩
  rw [e]
  simp [advance]

theorem peek_of_rest_nil {s : Scanner} (h : rest s = []) : peek_char s = NUL :=
  (rest_eq_nil_iff s).1 h

theorem lexeme_loop_advance {P : Char → Bool} (hP : PlainClass P) (s : Scanner)
    (lex : List Char) :
    lexeme_loop P (fuelOf s) s lex =
      some (advance s ((rest s).takeWhile P).length, lex ++ (rest s).takeWhile P) :=
  lexeme_loop_eq hP (fuelOf s) s lex (rest_length_lt_fuelOf s)

theorem scan_fraction_eq (s1 : Scanner) (l1 : List Char) :
    scan_fraction s1 l1 =
      some (advance s1 (fraction_lexeme (rest s1)).length, l1 ++ fraction_lexeme (rest s1)) := by
  unfold scan_fraction
  cases hr : rest s1 with
  | nil =>
    rw [peek_of_rest_nil hr, if_neg (by decide)]
    simp [fraction_lexeme, advance_zero]
  | cons c y =>
    have hp : peek_char s1 = c := by rw [peek_char_eq, hr]; rfl
    rw [hp]
    by_cases hc : c = '.'
    · subst hc
      obtain ⟨e, _⟩ := consume_char_advance hr (by decide) (by decide)
      have hr1 : rest (advance s1 1) = y := @rest_advance _ ['.'] _ (by simpa using hr)
      rw [if_pos rfl, e]
      have := lexeme_loop_eq isdigit_plain (fuelOf s1) (advance s1 1) (l1 ++ ['.'])
        (by have := rest_length_lt_fuelOf s1; rw [hr1]; rw [hr] at this; simp at this; omega)
      rw [this, after_run_eq_advance, advance_add, hr1]
      simp [fraction_lexeme, Nat.add_comm]
    · rw [if_neg hc]
      simp [fraction_lexeme, hc, advance_zero]

theorem scan_sign_eq (s3 : Scanner) (l3 : List Char) :
    scan_sign s3 l3 =
      (advance s3 (sign_lexeme (rest s3)).length, l3 ++ sign_lexeme (rest s3)) := by
  unfold scan_sign
  cases hr : rest s3 with
  | nil =>
    rw [peek_of_rest_nil hr, if_neg (by decide)]
    simp [sign_lexeme, advance_zero]
  | cons c y =>
    have hp : peek_char s3 = c := by rw [peek_char_eq, hr]; rfl
    rw [hp]
    by_cases hc : c = '+' ∨ c = '-'
    · obtain ⟨e, _⟩ := consume_char_advance hr
        (by rcases hc with h | h <;> rw [h] <;> decide)
        (by rcases hc with h | h <;> rw [h] <;> decide)
      rw [if_pos hc, e]
      simp [sign_lexeme, hc]
    · rw [if_neg hc]
      simp [sign_lexeme, hc, advance_zero]

theorem sign_lexeme_split (x : List Char) :
    x = sign_lexeme x ++ x.drop (sign_lexeme x).length := by
  cases x with
  | nil => rfl
  | cons c y =>
    by_cases hc : c = '+' ∨ c = '-'
    · simp [sign_lexeme, hc]
    · simp [sign_lexeme, hc]

theorem scan_exponent_eq (s2 : Scanner) (l2 : List Char) :
    scan_exponent s2 l2 =
      some (advance s2 (exponent_lexeme (rest s2)).length, l2 ++ exponent_lexeme (rest s2)) := by
  unfold scan_exponent
  cases hr : rest s2 with
  | nil =>
    rw [peek_of_rest_nil hr, if_neg (by decide)]
    simp [exponent_lexeme, advance_zero]
  | cons c y =>
    have hp : peek_char s2 = c := by rw [peek_char_eq, hr]; rfl
    rw [hp]
    by_cases hc : c = 'e' ∨ c = 'E'
    · obtain ⟨e, _⟩ := consume_char_advance hr
        (by rcases hc with h | h <;> rw [h] <;> decide)
        (by rcases hc with h | h <;> rw [h] <;> decide)
      have hr1 : rest (advance s2 1) = y := @rest_advance _ [c] _ (by simpa using hr)
      rw [if_pos ((tolower_eq_e c).2 hc), e]
      simp only
      rw [scan_sign_eq, hr1]
      have hr2 : rest (advance (advance s2 1) (sign_lexeme y).length) =
          y.drop (sign_lexeme y).length :=
        rest_advance (by rw [hr1]; exact sign_lexeme_split y)
      rw [lexeme_loop_advance isdigit_plain, hr2, advance_add, advance_add]
      simp [exponent_lexeme, hc, Nat.add_comm, Nat.add_assoc]
    · rw [if_neg (fun h => hc ((tolower_eq_e c).1 h))]
      simp [exponent_lexeme, hc, advance_zero]

theorem fraction_lexeme_split (x : List Char) :
    x = fraction_lexeme x ++ x.drop (fraction_lexeme x).length := by
  cases x with
  | nil => rfl
  | cons c y =>
    by_cases hc : c = '.'
    · simp [fraction_lexeme, hc, drop_length_takeWhile]
    · simp [fraction_lexeme, hc]

theorem exponent_lexeme_split (x : List Char) :
    x = exponent_lexeme x ++ x.drop (exponent_lexeme x).length := by
  cases x with
  | nil => rfl
  | cons c y =>
    by_cases hc : c = 'e' ∨ c = 'E'
    · simp only [exponent_lexeme, if_pos hc, List.cons_append, List.length_cons,
        List.drop_succ_cons, List.cons.injEq, true_and, List.length_append]
      rw [← List.drop_drop, drop_length_takeWhile, List.append_assoc,
        List.takeWhile_append_dropWhile]
      exact sign_lexeme_split y
    · simp [exponent_lexeme, hc]

theorem number_lexeme_split (x : List Char) :
    x = number_lexeme x ++ x.drop (number_lexeme x).length := by
  unfold number_lexeme
  have h1 := (List.takeWhile_append_dropWhile isdigit x).symm
  have h2 := fraction_lexeme_split (x.dropWhile isdigit)
  have h3 := exponent_lexeme_split
    ((x.dropWhile isdigit).drop (fraction_lexeme (x.dropWhile isdigit)).length)
  generalize x.takeWhile isdigit = d at *
  generalize x.dropWhile isdigit = x1 at *
  generalize fraction_lexeme x1 = f at *
  generalize x1.drop f.length = x2 at *
  generalize exponent_lexeme x2 = e at *
  subst h1
  rw [h2, h3]
  simp [List.append_assoc]

theorem scan_number_eq (s : Scanner) :
    scan_number s =
      some (make_token (advance s (number_lexeme (rest s)).length) TOK_NUM
          (number_lexeme (rest s)),
        advance s (number_lexeme (rest s)).length) := by
  unfold scan_number
  rw [lexeme_loop_advance isdigit_plain]
  simp only [List.nil_append]
  rw [scan_fraction_eq]
  simp only
  rw [scan_exponent_eq]
  simp only
  have r1 : rest (advance s ((rest s).takeWhile isdigit).length) = (rest s).dropWhile isdigit :=
    rest_advance (List.takeWhile_append_dropWhile isdigit (rest s)).symm
  have r2 : rest (advance (advance s ((rest s).takeWhile isdigit).length)
        (fraction_lexeme ((rest s).dropWhile isdigit)).length) =
      ((rest s).dropWhile isdigit).drop (fraction_lexeme ((rest s).dropWhile isdigit)).length := by
    apply rest_advance
    rw [r1]
    exact fraction_lexeme_split _
  rw [r1, r2, advance_add, advance_add]
  have hl : (number_lexeme (rest s)).length =
      ((rest s).takeWhile isdigit).length +
        (fraction_lexeme ((rest s).dropWhile isdigit)).length +
        (exponent_lexeme (((rest s).dropWhile isdigit).drop
          (fraction_lexeme ((rest s).dropWhile isdigit)).length)).length := by
    simp [number_lexeme, Nat.add_assoc]
  rw [hl, Nat.add_assoc]
  rfl

theorem get_next_token_step (s : Scanner) :
    get_next_token s = get_next_token_loop ((rest s).length + 1) s :=
  get_next_token_unfold s

/-- The branch taken by `get_next_token` at a first character that is neither
whitespace nor the start of a comment. -/
theorem get_next_token_significant {s : Scanner} {c : Char} {r : List Char}
    (hr : rest s = c :: r) (hs : isspace c = false)
    (hcm : ¬ (c = '/' ∧ r.head? = some '*')) :
    get_next_token s =
      if isalpha c then
        some (make_token (advance s ((rest s).takeWhile isalnum).length)
            (keyword_or_id ((rest s).takeWhile isalnum)) ((rest s).takeWhile isalnum),
          advance s ((rest s).takeWhile isalnum).length)
      else if isdigit c then scan_number s
      else some (scan_switch c s) := by
  have hp : peek_char s = c := by rw [peek_char_eq, hr]; rfl
  have hc : c ≠ NUL := rest_ne_NUL hr
  have h2 : char_at s (s.current_pos + 1) = r.headD NUL := char_at_succ hr
  have hcm' : ¬ (c = '/' ∧ char_at s (s.current_pos + 1) = '*') := by
    rintro ⟨h3, h4⟩
    apply hcm
    refine ⟨h3, ?_⟩
    rw [h2] at h4
    cases r with
    | nil => simp [NUL] at h4
    | cons d r => simp at h4; simp [h4]
  rw [get_next_token_step, get_next_token_loop]
  simp only [hp, if_neg hc, hs, if_neg hcm', Bool.false_eq_true, if_false]
  rw [lexeme_loop_advance isalnum_plain]
  simp only [List.nil_append]

theorem isspace_false_plain {c : Char} (h : isspace c = false) : c ≠ '\n' ∧ c ≠ '\r' := by
  constructor <;> (rintro rfl; revert h; decide)

theorem scan_two_eq {s : Scanner} {c : Char} {r : List Char} (hr : rest s = c :: r)
    (hs : isspace c = false) (two one : TokenType) (l2 l1 : List Char) :
    scan_two s two l2 one l1 =
      if r.head? = some '=' then (make_token (advance s 2) two l2, advance s 2)
      else (make_token (advance s 1) one l1, advance s 1) := by
  obtain ⟨hn, hcr⟩ := isspace_false_plain hs
  obtain ⟨e, _⟩ := consume_char_advance hr hn hcr
  have hr1 : rest (advance s 1) = r := @rest_advance _ [c] _ (by simpa using hr)
  unfold scan_two
  simp only [e]
  cases r with
  | nil =>
    rw [peek_of_rest_nil hr1, if_neg (by decide)]
    simp
  | cons d r' =>
    have hp : peek_char (advance s 1) = d := by rw [peek_char_eq, hr1]; rfl
    rw [hp]
    by_cases hd : d = '='
    · subst hd
      obtain ⟨e2, _⟩ := consume_char_advance hr1 (by decide) (by decide)
      rw [if_pos rfl, e2, advance_add]
      simp
    · rw [if_neg hd]
      simp [hd]

theorem scan_switch_eq {s : Scanner} {c : Char} {r : List Char} (hr : rest s = c :: r)
    (hs : isspace c = false) :
    scan_switch c s =
      (make_token (advance s (operator_spec c r.head?).2.length) (operator_spec c r.head?).1
          (operator_spec c r.head?).2,
        advance s (operator_spec c r.head?).2.length) := by
  obtain ⟨hn, hcr⟩ := isspace_false_plain hs
  obtain ⟨e, _⟩ := consume_char_advance hr hn hcr
  have two := fun (t2 t1 : TokenType) (l2 l1 : List Char) => scan_two_eq hr hs t2 t1 l2 l1
  unfold scan_switch
  simp only [e, two]
  by_cases h1 : c = '+'
  · subst h1; simp [operator_spec, two_char_kind, one_char_kind]
  by_cases h2 : c = '-'
  · subst h2; simp [operator_spec, two_char_kind, one_char_kind]
  by_cases h3 : c = '*'
  · subst h3; simp [operator_spec, two_char_kind, one_char_kind]
  by_cases h4 : c = '/'
  · subst h4; simp [operator_spec, two_char_kind, one_char_kind]
  by_cases h5 : c = '='
  · subst h5
    by_cases hq : r.head? = some '=' <;> simp [operator_spec, two_char_kind, one_char_kind, hq]
  by_cases h6 : c = '<'
  · subst h6
    by_cases hq : r.head? = some '=' <;> simp [operator_spec, two_char_kind, one_char_kind, hq]
  by_cases h7 : c = '>'
  · subst h7
    by_cases hq : r.head? = some '=' <;> simp [operator_spec, two_char_kind, one_char_kind, hq]
  by_cases h8 : c = '!'
  · subst h8
    by_cases hq : r.head? = some '=' <;> simp [operator_spec, two_char_kind, one_char_kind, hq]
  by_cases h9 : c = ';'
  · subst h9; simp [operator_spec, two_char_kind, one_char_kind]
  by_cases h10 : c = '{'
  · subst h10; simp [operator_spec, two_char_kind, one_char_kind]
  by_cases h11 : c = '}'
  · subst h11; simp [operator_spec, two_char_kind, one_char_kind]
  by_cases h12 : c = '('
  · subst h12; simp [operator_spec, two_char_kind, one_char_kind]
  by_cases h13 : c = ')'
  · subst h13; simp [operator_spec, two_char_kind, one_char_kind]
  simp [operator_spec, two_char_kind, one_char_kind, h1, h2, h3, h4, h5, h6, h7, h8, h9, h10,
    h11, h12, h13]

/-! ## Texts whose lexemes fit the lexeme array -/

theorem number_lexeme_length_le (x : List Char) : (number_lexeme x).length ≤ x.length := by
  have h := congrArg List.length (number_lexeme_split x)
  rw [List.length_append] at h
  omega

theorem lexemesFit_of_length {x : List Char} (h : x.length < 256) : LexemesFit x := by
  intro y hy
  have h1 : y.length ≤ x.length := hy.length_le
  have h2 : (y.takeWhile isalnum).length ≤ y.length := (List.takeWhile_prefix _).length_le
  have h3 := number_lexeme_length_le y
  exact ⟨by omega, fun _ => by omega⟩

theorem lexemesFit_suffix {x y : List Char} (h : LexemesFit x) (hy : y <:+ x) : LexemesFit y :=
  fun z hz => h z (hz.trans hy)

theorem takeWhile_replicate_of {P : Char → Bool} {a : Char} (h : P a = true) (n : Nat) :
    (List.replicate n a).takeWhile P = List.replicate n a := by
  induction n with
  | zero => rfl
  | succ n ih =>
    rw [List.replicate_succ, List.takeWhile_cons, h, ih]
    rfl

theorem rest_init_replicate {a : Char} (h : a ≠ NUL) (n : Nat) :
    rest (init_scanner (List.replicate n a)) = List.replicate n a := by
  rw [rest_init_scanner]
  exact takeWhile_replicate_of (by simpa using h) n

theorem token_text_length {s : Scanner} {t : Token} {s' : Scanner}
    (h : get_next_token s = some (t, s')) : t.lexeme.length ≤ 255 := by
  obtain ⟨lexeme, hm⟩ := (tokenOk_of_eq h).made
  rw [hm]
  show (lexeme.take 255).length ≤ 255
  rw [List.length_take]
  exact Nat.min_le_left _ _

/-! ## Every token except end-of-input and the unclosed comment -/

theorem isspace_cases {x : Char} (h : isspace x = true) :
    x = ' ' ∨ x = '\t' ∨ x = '\n' ∨ x = Char.ofNat 11 ∨ x = Char.ofNat 12 ∨ x = '\r' := by
  simpa [isspace, or_assoc] using h

theorem isalnum_not_space {x : Char} (h : isalnum x = true) : isspace x = false := by
  cases hs : isspace x with
  | false => rfl
  | true =>
    rcases isspace_cases hs with rfl | rfl | rfl | rfl | rfl | rfl <;> revert h <;> decide

theorem isdigit_not_space {x : Char} (h : isdigit x = true) : isspace x = false :=
  isalnum_not_space (by simp [isalnum, h])

theorem noSpace_takeWhile_isalnum (l : List Char) : NoSpace (l.takeWhile isalnum) :=
  fun _ hx => isalnum_not_space (List.mem_takeWhile_imp hx)

theorem noSpace_takeWhile_isdigit (l : List Char) : NoSpace (l.takeWhile isdigit) :=
  fun _ hx => isdigit_not_space (List.mem_takeWhile_imp hx)

theorem noSpace_append {a b : List Char} (ha : NoSpace a) (hb : NoSpace b) :
    NoSpace (a ++ b) := by
  intro x hx
  rcases List.mem_append.1 hx with h | h
  · exact ha x h
  · exact hb x h

theorem noSpace_cons {c : Char} {l : List Char} (hc : isspace c = false) (hl : NoSpace l) :
    NoSpace (c :: l) := by
  intro x hx
  rcases List.mem_cons.1 hx with h | h
  · rw [h]; exact hc
  · exact hl x h

theorem noSpace_nil : NoSpace [] := fun _ hx => by simp at hx

theorem noSpace_fraction (l : List Char) : NoSpace (fraction_lexeme l) := by
  cases l with
  | nil => exact noSpace_nil
  | cons c y =>
    by_cases hc : c = '.'
    · simp only [fraction_lexeme, if_pos hc]
      exact noSpace_cons (by rw [hc]; decide) (noSpace_takeWhile_isdigit y)
    · simp only [fraction_lexeme, if_neg hc]
      exact noSpace_nil

theorem noSpace_sign (l : List Char) : NoSpace (sign_lexeme l) := by
  cases l with
  | nil => exact noSpace_nil
  | cons c y =>
    by_cases hc : c = '+' ∨ c = '-'
    · simp only [sign_lexeme, if_pos hc]
      exact noSpace_cons (by rcases hc with h | h <;> rw [h] <;> decide) noSpace_nil
    · simp only [sign_lexeme, if_neg hc]
      exact noSpace_nil

theorem noSpace_exponent (l : List Char) : NoSpace (exponent_lexeme l) := by
  cases l with
  | nil => exact noSpace_nil
  | cons c y =>
    by_cases hc : c = 'e' ∨ c = 'E'
    · simp only [exponent_lexeme, if_pos hc]
      exact noSpace_cons (by rcases hc with h | h <;> rw [h] <;> decide)
        (noSpace_append (noSpace_sign y) (noSpace_takeWhile_isdigit _))
    · simp only [exponent_lexeme, if_neg hc]
      exact noSpace_nil

theorem noSpace_number (l : List Char) : NoSpace (number_lexeme l) :=
  noSpace_append (noSpace_append (noSpace_takeWhile_isdigit l) (noSpace_fraction _)) (noSpace_exponent _)

theorem operator_spec_two {c : Char} {k : TokenType} (h : two_char_kind c = some k) :
    operator_spec c (some '=') = (k, [c, '=']) := by
  unfold operator_spec
  rw [h]
  simp

theorem operator_spec_one_none {c : Char} (next : Option Char) (h : two_char_kind c = none) :
    operator_spec c next = ((one_char_kind c).getD TOK_ERROR, [c]) := by
  unfold operator_spec
  rw [h]

theorem operator_spec_one_ne {c : Char} {next : Option Char} (h : next ≠ some '=') :
    operator_spec c next = ((one_char_kind c).getD TOK_ERROR, [c]) := by
  unfold operator_spec
  cases h2 : two_char_kind c with
  | none => rfl
  | some k => simp only [if_neg h]

theorem operator_spec_cases (c : Char) (next : Option Char) :
    (next = some '=' ∧ ∃ k, two_char_kind c = some k ∧ operator_spec c next = (k, [c, '='])) ∨
      operator_spec c next = ((one_char_kind c).getD TOK_ERROR, [c]) := by
  by_cases hn : next = some '='
  · cases h2 : two_char_kind c with
    | none => exact Or.inr (operator_spec_one_none next h2)
    | some k => exact Or.inl ⟨hn, k, rfl, by rw [hn]; exact operator_spec_two h2⟩
  · exact Or.inr (operator_spec_one_ne hn)

theorem two_char_kind_ne_eof {c : Char} {k : TokenType} (h : two_char_kind c = some k) :
    k ≠ TOK_EOF := by
  unfold two_char_kind at h
  by_cases h1 : c = '='
  · rw [if_pos h1] at h; cases h; decide
  rw [if_neg h1] at h
  by_cases h2 : c = '<'
  · rw [if_pos h2] at h; cases h; decide
  rw [if_neg h2] at h
  by_cases h3 : c = '>'
  · rw [if_pos h3] at h; cases h; decide
  rw [if_neg h3] at h
  by_cases h4 : c = '!'
  · rw [if_pos h4] at h; cases h; decide
  rw [if_neg h4] at h
  cases h

theorem one_char_kind_ne_eof (c : Char) : (one_char_kind c).getD TOK_ERROR ≠ TOK_EOF := by
  let Q : Option TokenType → Prop := fun o => o.getD TOK_ERROR ≠ TOK_EOF
  have one : ∀ k : TokenType, k ≠ TOK_EOF → Q (some k) := fun k h => h
  show Q (one_char_kind c)
  unfold one_char_kind
  exact
    ite_prop Q _ (one TOK_PLUS (by decide)) <| ite_prop Q _ (one TOK_MINUS (by decide)) <|
    ite_prop Q _ (one TOK_MUL (by decide)) <| ite_prop Q _ (one TOK_DIV (by decide)) <|
    ite_prop Q _ (one TOK_ASSIGN (by decide)) <| ite_prop Q _ (one TOK_LT (by decide)) <|
    ite_prop Q _ (one TOK_GT (by decide)) <| ite_prop Q _ (one TOK_SEMI (by decide)) <|
    ite_prop Q _ (one TOK_LBRACE (by decide)) <| ite_prop Q _ (one TOK_RBRACE (by decide)) <|
    ite_prop Q _ (one TOK_LPAREN (by decide)) <| ite_prop Q _ (one TOK_RPAREN (by decide)) <|
    (by show (none : Option TokenType).getD TOK_ERROR ≠ TOK_EOF; decide)

theorem isalpha_not_space {x : Char} (h : isalpha x = true) : isspace x = false :=
  isalnum_not_space (by simp [isalnum, h])

theorem lexed_of_call {s : Scanner} {ty : TokenType} {lex tail : List Char}
    (hcall : get_next_token s =
      some (make_token (advance s lex.length) ty lex, advance s lex.length))
    (htext : rest s = lex ++ tail) :
    Lexed s ty lex (make_token (advance s lex.length) ty lex) (advance s lex.length) :=
  ⟨hcall, rfl, rfl, by rw [rest_advance htext]; exact htext⟩

theorem lexed_alpha {s : Scanner} {c : Char} {r : List Char} (hr : rest s = c :: r)
    (hal : isalpha c = true) :
    ∃ t s', Lexed s (keyword_or_id ((c :: r).takeWhile isalnum))
      ((c :: r).takeWhile isalnum) t s' := by
  have hcall := get_next_token_significant hr (isalpha_not_space hal)
    (fun h => by rw [h.1] at hal; revert hal; decide)
  rw [if_pos hal, hr] at hcall
  exact ⟨_, _, lexed_of_call hcall
    (by rw [hr]; exact (List.takeWhile_append_dropWhile isalnum (c :: r)).symm)⟩

theorem char_le_toNat {a c : Char} (h : a ≤ c) : a.toNat ≤ c.toNat := by
  have h1 : a.val ≤ c.val := h
  rw [UInt32.le_def] at h1
  exact h1

theorem lexed_digit {s : Scanner} {c : Char} {r : List Char} (hr : rest s = c :: r)
    (hd : isdigit c = true) :
    ∃ t s', Lexed s TOK_NUM (number_lexeme (c :: r)) t s' := by
  have hna : ¬ isalpha c = true := by
    intro h
    have h0 : ('0' ≤ c ∧ c ≤ '9') := by simpa [isdigit] using hd
    have h' : ('a' ≤ c ∧ c ≤ 'z') ∨ ('A' ≤ c ∧ c ≤ 'Z') := by simpa [isalpha] using h
    have b := char_le_toNat h0.2
    rcases h' with ⟨h3, _⟩ | ⟨h3, _⟩
    · have a := char_le_toNat h3
      have e1 : ('a' : Char).toNat = 97 := rfl
      have e2 : ('9' : Char).toNat = 57 := rfl
      omega
    · have a := char_le_toNat h3
      have e1 : ('A' : Char).toNat = 65 := rfl
      have e2 : ('9' : Char).toNat = 57 := rfl
      omega
  have hcall := get_next_token_significant hr (isdigit_not_space hd)
    (fun h => by rw [h.1] at hd; revert hd; decide)
  rw [if_neg hna, if_pos hd, scan_number_eq, hr] at hcall
  exact ⟨_, _, lexed_of_call hcall (by rw [hr]; exact number_lexeme_split (c :: r))⟩

theorem lexed_operator {s : Scanner} {c : Char} {r : List Char} (hr : rest s = c :: r)
    (hs : isspace c = false) (hna : isalpha c = false) (hnd : isdigit c = false)
    (hcm : ¬ (c = '/' ∧ r.head? = some '*')) :
    ∃ t s', Lexed s (operator_spec c r.head?).1 (operator_spec c r.head?).2 t s' := by
  have hcall := get_next_token_significant hr hs hcm
  rw [if_neg (by simp [hna]), if_neg (by simp [hnd]), scan_switch_eq hr hs] at hcall
  refine ⟨_, _, @lexed_of_call _ _ _ (r.drop ((operator_spec c r.head?).2.length - 1)) hcall ?_⟩
  rw [hr]
  rcases operator_spec_cases c r.head? with ⟨hn, k, _, he⟩ | he
  · rw [he]
    cases r with
    | nil => simp at hn
    | cons d r' =>
      simp only [List.head?_cons, Option.some.injEq] at hn
      subst hn
      simp
  · rw [he]
    simp

theorem Lexed.facts {s1 : Scanner} {ty : TokenType} {lex : List Char} {t : Token}
    {s' : Scanner} (h : Lexed s1 ty lex t s') :
    t.type = ty ∧ t.lexeme = lex.take 255 ∧ t.line = s1.line ∧ t.start_pos = s1.column ∧
      t.end_pos = s1.column + (lex.length : Int) - 1 ∧
      s'.current_pos = s1.current_pos + lex.length ∧ s'.line = s1.line ∧
      s'.column = s1.column + (lex.length : Int) ∧ s'.input = s1.input := by
  obtain ⟨_, hs, ht, _⟩ := h
  subst hs
  subst ht
  simp [make_token, advance]

theorem lexed_exists {s : Scanner} {c : Char} {r : List Char} (hr : rest s = c :: r)
    (hs : isspace c = false) (hcm : ¬ (c = '/' ∧ r.head? = some '*')) :
    ∃ ty lex t s', Lexed s ty lex t s' ∧ lex ≠ [] ∧ NoSpace lex ∧ ty ≠ TOK_EOF := by
  by_cases hal : isalpha c = true
  · obtain ⟨t, s', h⟩ := lexed_alpha hr hal
    have hx : isalnum c = true := by simp [isalnum, hal]
    exact ⟨_, _, t, s', h, by simp [List.takeWhile_cons, hx], noSpace_takeWhile_isalnum _,
      keyword_or_id_ne_eof _⟩
  by_cases hd : isdigit c = true
  · obtain ⟨t, s', h⟩ := lexed_digit hr hd
    exact ⟨_, _, t, s', h, by simp [number_lexeme, List.takeWhile_cons, hd],
      noSpace_number _, by decide⟩
  · obtain ⟨t, s', h⟩ := lexed_operator hr hs (by simpa using hal) (by simpa using hd) hcm
    refine ⟨_, _, t, s', h, ?_, ?_, ?_⟩
    · rcases operator_spec_cases c r.head? with ⟨_, k, _, he⟩ | he <;> rw [he] <;> simp
    · rcases operator_spec_cases c r.head? with ⟨_, k, _, he⟩ | he <;> rw [he]
      · exact noSpace_cons hs (noSpace_cons (by decide) noSpace_nil)
      · exact noSpace_cons hs noSpace_nil
    · rcases operator_spec_cases c r.head? with ⟨_, k, hk, he⟩ | he <;> rw [he]
      · exact two_char_kind_ne_eof hk
      · exact one_char_kind_ne_eof c

/-! ## Splitting the unread input at the first significant character -/

theorem first_close (l : List Char) :
    (¬ (['*', '/'] <:+: l)) ∨
      ∃ b r, l = b ++ '*' :: '/' :: r ∧ ¬ (['*', '/'] <:+: b ++ ['*']) := by
  induction l with
  | nil =>
    left
    intro h
    have := h.length_le
    simp at this
  | cons a l ih =>
    by_cases hh : a = '*' ∧ l.head? = some '/'
    · right
      obtain ⟨h1, h2⟩ := hh
      cases l with
      | nil => simp at h2
      | cons d l' =>
        simp only [List.head?_cons, Option.some.injEq] at h2
        subst h1 h2
        refine ⟨[], l', rfl, ?_⟩
        intro h
        have := h.length_le
        simp at this
    · have hpre : ∀ m : List Char, m.head? = l.head? → ¬ (['*', '/'] <+: a :: m) := by
        intro m hm h
        rw [List.cons_prefix_cons] at h
        obtain ⟨h1, h2⟩ := h
        apply hh
        refine ⟨h1.symm, ?_⟩
        rw [← hm]
        obtain ⟨t, ht⟩ := h2
        rw [← ht]
        rfl
      rcases ih with h | ⟨b, r, hl, hb⟩
      · left
        intro h'
        rcases List.infix_cons_iff.1 h' with h1 | h1
        · exact hpre l rfl h1
        · exact h h1
      · right
        refine ⟨a :: b, r, by rw [hl]; rfl, ?_⟩
        intro h'
        rcases List.infix_cons_iff.1 h' with h1 | h1
        · refine hpre (b ++ ['*']) ?_ h1
          rw [hl]
          cases b <;> rfl
        · exact hb h1

theorem ws_decompose :
    ∀ (n : Nat) (x : List Char), x.length < n →
      ∃ w tail, x = w ++ tail ∧ WsComments w ∧
        (tail = [] ∨
          (∃ body, tail = '/' :: '*' :: body ∧ ¬ (['*', '/'] <:+: body)) ∨
          (∃ c r, tail = c :: r ∧ isspace c = false ∧ ¬ (c = '/' ∧ r.head? = some '*'))) := by
  intro n
  induction n with
  | zero => intro x h; omega
  | succ n ih =>
    intro x hx
    cases x with
    | nil => exact ⟨[], [], rfl, WsComments.nil, Or.inl rfl⟩
    | cons c r =>
      simp only [List.length_cons] at hx
      by_cases hs : isspace c = true
      · obtain ⟨w, tail, hw, hws, ht⟩ := ih r (by omega)
        exact ⟨c :: w, tail, by rw [hw]; rfl, WsComments.space hs hws, ht⟩
      · have hs' : isspace c = false := by simpa using hs
        by_cases hcm : c = '/' ∧ r.head? = some '*'
        · obtain ⟨h1, h2⟩ := hcm
          cases r with
          | nil => simp at h2
          | cons d body =>
            simp only [List.head?_cons, Option.some.injEq] at h2
            subst h1 h2
            rcases first_close body with h | ⟨b, r', hb, hnb⟩
            · exact ⟨[], _, rfl, WsComments.nil, Or.inr (Or.inl ⟨body, rfl, h⟩)⟩
            · have hlen : r'.length < n := by
                rw [hb] at hx
                simp only [List.length_cons, List.length_append] at hx
                omega
              obtain ⟨w, tail, hw, hws, ht⟩ := ih r' hlen
              refine ⟨'/' :: '*' :: (b ++ '*' :: '/' :: w), tail, ?_,
                WsComments.comment hnb hws, ht⟩
              rw [hb, hw]
              simp
        · exact ⟨[], c :: r, rfl, WsComments.nil, Or.inr (Or.inr ⟨c, r, rfl, hs', hcm⟩)⟩

/-! ## The first significant character -/

theorem skip_to_significant {s : Scanner} {w : List Char} {c : Char} {r : List Char}
    (hr : rest s = w ++ c :: r) (hw : WsComments w) (hs : isspace c = false) :
    ∃ s1, Adv s s1 ∧ rest s1 = c :: r ∧ get_next_token s = get_next_token s1 ∧
      s1.current_pos = s.current_pos + w.length := by
  obtain ⟨s1, a1, r1, e1⟩ := skip_ws_comments _ s w (c :: r) (Nat.lt_succ_self _) hr hw
    (by
      intro h
      have : c = '\n' := h
      rw [this] at hs
      exact absurd hs (by decide))
  refine ⟨s1, a1, r1, e1, ?_⟩
  have := a1.pos
  rw [r1, hr, List.length_append] at this
  omega

theorem keyword_or_id_spec (l : List Char) :
    (keyword_or_id l = TOK_PROGRAM ↔ l = "Program".toList) ∧
    (keyword_or_id l = TOK_INT ↔ l = "int".toList) ∧
    (keyword_or_id l = TOK_FLOAT ↔ l = "float".toList) ∧
    (keyword_or_id l = TOK_IF ↔ l = "if".toList) ∧
    (keyword_or_id l = TOK_ELSE ↔ l = "else".toList) ∧
    (keyword_or_id l = TOK_WHILE ↔ l = "while".toList) ∧
    (keyword_or_id l = TOK_ID ↔
      l ∉ ["Program".toList, "int".toList, "float".toList, "if".toList, "else".toList,
        "while".toList]) := by
  unfold keyword_or_id
  by_cases h1 : l = "Program".toList
  · subst h1; decide
  by_cases h2 : l = "int".toList
  · subst h2; decide
  by_cases h3 : l = "float".toList
  · subst h3; decide
  by_cases h4 : l = "if".toList
  · subst h4; decide
  by_cases h5 : l = "else".toList
  · subst h5; decide
  by_cases h6 : l = "while".toList
  · subst h6; decide
  simp only [if_neg h1, if_neg h2, if_neg h3, if_neg h4, if_neg h5, if_neg h6]
  refine ⟨⟨fun h => absurd h (by decide), fun h => absurd h h1⟩,
    ⟨fun h => absurd h (by decide), fun h => absurd h h2⟩,
    ⟨fun h => absurd h (by decide), fun h => absurd h h3⟩,
    ⟨fun h => absurd h (by decide), fun h => absurd h h4⟩,
    ⟨fun h => absurd h (by decide), fun h => absurd h h5⟩,
    ⟨fun h => absurd h (by decide), fun h => absurd h h6⟩,
    ⟨fun _ hm => ?_, fun _ => trivial⟩⟩
  simp only [List.mem_cons, List.mem_singleton, List.not_mem_nil, or_false] at hm
  rcases hm with h | h | h | h | h | h <;> contradiction

theorem peek_after_takeWhile {P : Char → Bool} (hN : P NUL = false) {s' : Scanner}
    {x : List Char} (h : rest s' = x.dropWhile P) : P (peek_char s') = false := by
  rw [peek_char_eq, h]
  cases hd : x.dropWhile P with
  | nil => exact hN
  | cons a l =>
    have := List.head_dropWhile_not P x (by rw [hd]; simp)
    simp only [hd, List.head_cons] at this
    simpa using this


/-- C14 as stated fails at a run of 256 letters.  On the buffer of 256
letters `a` the first significant character is a letter and the longest
alphanumeric run is the whole buffer.  The identifier loop ends with 256
characters stored, so the index of the terminator write `lexeme[i] = '\0'` is
256, outside `char lexeme[256]`; and whatever token the call returns, its
text holds at most 255 characters (`make_token` copies no more into
`Token.lexeme`, itself an array of 256), so it is not the run. -/
theorem long_identifier_example :
    isalpha 'a' = true ∧
      rest (init_scanner (List.replicate 256 'a')) = List.replicate 256 'a' ∧
      (List.replicate 256 'a').takeWhile isalnum = List.replicate 256 'a' ∧
      (∃ s1 l, lexeme_loop isalnum (fuelOf (init_scanner (List.replicate 256 'a')))
          (init_scanner (List.replicate 256 'a')) [] = some (s1, l) ∧ l.length = 256) ∧
      ¬ ∃ t s', get_next_token (init_scanner (List.replicate 256 'a')) = some (t, s') ∧
          t.lexeme = List.replicate 256 'a' := by
  have hr := rest_init_replicate (show 'a' ≠ NUL by decide) 256
  have ht := takeWhile_replicate_of (show isalnum 'a' = true by decide) 256
  refine ⟨by decide, hr, ht, ⟨_, _, lexeme_loop_advance isalnum_plain _ _, ?_⟩, ?_⟩
  · rw [hr, ht, List.nil_append, List.length_replicate]
  · rintro ⟨t, s', h, hlex⟩
    have h1 := token_text_length h
    rw [hlex, List.length_replicate] at h1
    omega

/-- C14 (amended): identifier/keyword rule for runs that fit the lexeme
array.  When the first significant character of the unread input (after
whitespace and terminated comments `w`) is a letter and the longest run of
alphanumeric characters that starts there has fewer than 256 characters,
`get_next_token` returns a token and consumes exactly that run: the scanner
is left on the remainder, whose first character is not alphanumeric; the
token's text is the run; the kind is one of the six keyword kinds exactly
when the run equals that keyword character for character, and `TOK_ID`
exactly when it equals none of them. -/
theorem identifier_rule (s : Scanner) (w : List Char) (c : Char) (r : List Char)
    (hr : rest s = w ++ c :: r) (hw : WsComments w) (hc : isalpha c = true)
    (hlen : ((c :: r).takeWhile isalnum).length < 256) :
    ∃ t s', get_next_token s = some (t, s') ∧
      rest s' = (c :: r).dropWhile isalnum ∧
      s'.current_pos = s.current_pos + w.length + ((c :: r).takeWhile isalnum).length ∧
      isalnum (peek_char s') = false ∧
      t.lexeme = (c :: r).takeWhile isalnum ∧
      (t.type = TOK_PROGRAM ↔ (c :: r).takeWhile isalnum = "Program".toList) ∧
      (t.type = TOK_INT ↔ (c :: r).takeWhile isalnum = "int".toList) ∧
      (t.type = TOK_FLOAT ↔ (c :: r).takeWhile isalnum = "float".toList) ∧
      (t.type = TOK_IF ↔ (c :: r).takeWhile isalnum = "if".toList) ∧
      (t.type = TOK_ELSE ↔ (c :: r).takeWhile isalnum = "else".toList) ∧
      (t.type = TOK_WHILE ↔ (c :: r).takeWhile isalnum = "while".toList) ∧
      (t.type = TOK_ID ↔
        (c :: r).takeWhile isalnum ∉ ["Program".toList, "int".toList, "float".toList,
          "if".toList, "else".toList, "while".toList]) := by
  obtain ⟨s1, a1, r1, e1, p1⟩ := skip_to_significant hr hw (isalpha_not_space hc)
  obtain ⟨t, s', hl⟩ := lexed_alpha r1 hc
  obtain ⟨hty, hlex, _, _, _, hpos, _, _, _⟩ := hl.facts
  have hrest : rest s' = (c :: r).dropWhile isalnum := by
    have h := hl.text
    rw [r1] at h
    have h2 := (List.takeWhile_append_dropWhile isalnum (c :: r)).trans h
    exact (List.append_cancel_left h2).symm
  refine ⟨t, s', e1.trans hl.call, hrest, by rw [hpos, p1], peek_after_takeWhile (by decide) hrest,
    ?_, ?_⟩
  · rw [hlex]
    exact List.take_of_length_le (by omega)
  · rw [hty]
    exact keyword_or_id_spec _

/-- The examples of C14: `program`, `Int`, `intx` and `while1` are identifiers,
and `while` before a blank is the keyword. -/
theorem identifier_rule_witness :
    (∃ t s', get_next_token (init_scanner "program".toList) = some (t, s') ∧
      t.type = TOK_ID ∧ t.lexeme = "program".toList) ∧
    (∃ t s', get_next_token (init_scanner "Int".toList) = some (t, s') ∧
      t.type = TOK_ID ∧ t.lexeme = "Int".toList) ∧
    (∃ t s', get_next_token (init_scanner "intx".toList) = some (t, s') ∧
      t.type = TOK_ID ∧ t.lexeme = "intx".toList) ∧
    (∃ t s', get_next_token (init_scanner " while1 ".toList) = some (t, s') ∧
      t.type = TOK_ID ∧ t.lexeme = "while1".toList ∧ rest s' = [' ']) ∧
    (∃ t s', get_next_token (init_scanner " while (".toList) = some (t, s') ∧
      t.type = TOK_WHILE ∧ t.lexeme = "while".toList ∧ rest s' = " (".toList) := by
  refine ⟨?_, ?_, ?_, ?_, ?_⟩
  · obtain ⟨t, s', h, _, _, _, hlex, _, _, _, _, _, _, hid⟩ :=
      identifier_rule (init_scanner "program".toList) [] 'p' "rogram".toList (by decide)
        WsComments.nil (by decide) (by decide)
    exact ⟨t, s', h, hid.2 (by decide), hlex.trans (by decide)⟩
  · obtain ⟨t, s', h, _, _, _, hlex, _, _, _, _, _, _, hid⟩ :=
      identifier_rule (init_scanner "Int".toList) [] 'I' "nt".toList (by decide)
        WsComments.nil (by decide) (by decide)
    exact ⟨t, s', h, hid.2 (by decide), hlex.trans (by decide)⟩
  · obtain ⟨t, s', h, _, _, _, hlex, _, _, _, _, _, _, hid⟩ :=
      identifier_rule (init_scanner "intx".toList) [] 'i' "ntx".toList (by decide)
        WsComments.nil (by decide) (by decide)
    exact ⟨t, s', h, hid.2 (by decide), hlex.trans (by decide)⟩
  · obtain ⟨t, s', h, hrest, _, _, hlex, _, _, _, _, _, _, hid⟩ :=
      identifier_rule (init_scanner " while1 ".toList) [' '] 'w' "hile1 ".toList (by decide)
        (WsComments.space (by decide) WsComments.nil) (by decide) (by decide)
    exact ⟨t, s', h, hid.2 (by decide), hlex.trans (by decide), hrest.trans (by decide)⟩
  · obtain ⟨t, s', h, hrest, _, _, hlex, _, _, _, _, _, hwh, _⟩ :=
      identifier_rule (init_scanner " while (".toList) [' '] 'w' "hile (".toList (by decide)
        (WsComments.space (by decide) WsComments.nil) (by decide) (by decide)
    exact ⟨t, s', h, hwh.2 (by decide), hlex.trans (by decide), hrest.trans (by decide)⟩

/-- C15: operator and punctuation rule.  When the first significant character
`c` of the unread input (after whitespace and terminated comments `w`) is not
a letter, not a digit and not the `/` of a comment opening, `get_next_token`
returns a token.  If `c` is one of `= < > !` and the next character is `=`,
both characters are consumed and the token is `==`, `<=`, `>=`, `!=`
respectively.  Otherwise exactly one character is consumed, the token's text
is that character, and its kind is the single-character kind of
`+ - * / = < > ; { } ( )`, a lexical error for `!`, and a lexical error for
every other character (such as `,`). -/
theorem operator_rule (s : Scanner) (w : List Char) (c : Char) (r : List Char)
    (hr : rest s = w ++ c :: r) (hw : WsComments w) (hs : isspace c = false)
    (hna : isalpha c = false) (hnd : isdigit c = false)
    (hcm : ¬ (c = '/' ∧ r.head? = some '*')) :
    ∃ t s', get_next_token s = some (t, s') ∧
      ((c = '=' ∨ c = '<' ∨ c = '>' ∨ c = '!') ∧ r.head? = some '=' →
        t.lexeme = [c, '='] ∧ '=' :: rest s' = r ∧
        s'.current_pos = s.current_pos + w.length + 2 ∧
        (c = '=' → t.type = TOK_EQ) ∧ (c = '<' → t.type = TOK_LTE) ∧
        (c = '>' → t.type = TOK_GTE) ∧ (c = '!' → t.type = TOK_NEQ)) ∧
      (¬ ((c = '=' ∨ c = '<' ∨ c = '>' ∨ c = '!') ∧ r.head? = some '=') →
        t.lexeme = [c] ∧ rest s' = r ∧ s'.current_pos = s.current_pos + w.length + 1 ∧
        (c = '+' → t.type = TOK_PLUS) ∧ (c = '-' → t.type = TOK_MINUS) ∧
        (c = '*' → t.type = TOK_MUL) ∧ (c = '/' → t.type = TOK_DIV) ∧
        (c = '=' → t.type = TOK_ASSIGN) ∧ (c = '<' → t.type = TOK_LT) ∧
        (c = '>' → t.type = TOK_GT) ∧ (c = ';' → t.type = TOK_SEMI) ∧
        (c = '{' → t.type = TOK_LBRACE) ∧ (c = '}' → t.type = TOK_RBRACE) ∧
        (c = '(' → t.type = TOK_LPAREN) ∧ (c = ')' → t.type = TOK_RPAREN) ∧
        (c = '!' → t.type = TOK_ERROR) ∧
        (c ∉ ['+', '-', '*', '/', '=', '<', '>', ';', '{', '}', '(', ')'] →
          t.type = TOK_ERROR)) := by
  obtain ⟨s1, a1, r1, e1, p1⟩ := skip_to_significant hr hw hs
  obtain ⟨t, s', hl⟩ := lexed_operator r1 hs hna hnd hcm
  obtain ⟨hty, hlex, _, _, _, hpos, _, _, _⟩ := hl.facts
  have htext := hl.text
  rw [r1] at htext
  refine ⟨t, s', e1.trans hl.call, ?_, ?_⟩
  · rintro ⟨hc, hn⟩
    have hspec : (c = '=' → operator_spec c r.head? = (TOK_EQ, [c, '='])) ∧
        (c = '<' → operator_spec c r.head? = (TOK_LTE, [c, '='])) ∧
        (c = '>' → operator_spec c r.head? = (TOK_GTE, [c, '='])) ∧
        (c = '!' → operator_spec c r.head? = (TOK_NEQ, [c, '='])) := by
      rw [hn]
      refine ⟨?_, ?_, ?_, ?_⟩ <;> intro h <;> subst h <;> rfl
    have h2 : (operator_spec c r.head?).2 = [c, '='] := by
      rcases hc with h | h | h | h
      · rw [hspec.1 h]
      · rw [hspec.2.1 h]
      · rw [hspec.2.2.1 h]
      · rw [hspec.2.2.2 h]
    rw [h2] at hlex htext hpos
    refine ⟨hlex, ?_, by rw [hpos, p1]; rfl, ?_, ?_, ?_, ?_⟩
    · simpa using htext.symm
    · intro h; rw [hty, hspec.1 h]
    · intro h; rw [hty, hspec.2.1 h]
    · intro h; rw [hty, hspec.2.2.1 h]
    · intro h; rw [hty, hspec.2.2.2 h]
  · intro hnot
    have hspec : operator_spec c r.head? = ((one_char_kind c).getD TOK_ERROR, [c]) := by
      unfold operator_spec
      cases hk : two_char_kind c with
      | none => rfl
      | some k =>
        have hc : c = '=' ∨ c = '<' ∨ c = '>' ∨ c = '!' := by
          by_contra hcon
          simp only [not_or] at hcon
          obtain ⟨h1, h2, h3, h4⟩ := hcon
          simp [two_char_kind, h1, h2, h3, h4] at hk
        have hn : ¬ r.head? = some '=' := fun h => hnot ⟨hc, h⟩
        simp only [if_neg hn]
    rw [hspec] at hlex htext hpos hty
    simp only [List.length_singleton] at hpos
    refine ⟨hlex, ?_, by rw [hpos, p1], ?_, ?_, ?_, ?_, ?_, ?_, ?_, ?_, ?_, ?_, ?_, ?_, ?_, ?_⟩
    · simpa using htext.symm
    all_goals first
      | (intro h; subst h; rw [hty]; rfl)
      | skip
    intro h
    simp only [List.mem_cons, List.mem_singleton, List.not_mem_nil, or_false, not_or] at h
    obtain ⟨h1, h2, h3, h4, h5, h6, h7, h8, h9, h10, h11, h12⟩ := h
    rw [hty]
    simp only [one_char_kind, if_neg h1, if_neg h2, if_neg h3, if_neg h4, if_neg h5, if_neg h6,
      if_neg h7, if_neg h8, if_neg h9, if_neg h10, if_neg h11, if_neg h12]
    rfl

/-- Examples for C15: `<=` is one token, `,` and a lone `!` are lexical
errors of one character, and `/` before a blank is the division operator. -/
theorem operator_rule_witness :
    (∃ t s', get_next_token (init_scanner " <= 3".toList) = some (t, s') ∧
      t.type = TOK_LTE ∧ t.lexeme = "<=".toList ∧ s'.current_pos = 3) ∧
    (∃ t s', get_next_token (init_scanner ",x".toList) = some (t, s') ∧
      t.type = TOK_ERROR ∧ t.lexeme = ",".toList ∧ s'.current_pos = 1) ∧
    (∃ t s', get_next_token (init_scanner "!x".toList) = some (t, s') ∧
      t.type = TOK_ERROR ∧ t.lexeme = "!".toList ∧ s'.current_pos = 1) ∧
    (∃ t s', get_next_token (init_scanner "/ 2".toList) = some (t, s') ∧
      t.type = TOK_DIV ∧ t.lexeme = "/".toList ∧ s'.current_pos = 1) := by
  refine ⟨?_, ?_, ?_, ?_⟩
  · obtain ⟨t, s', h, h2, _⟩ :=
      operator_rule (init_scanner " <= 3".toList) [' '] '<' "= 3".toList (by decide)
        (WsComments.space (by decide) WsComments.nil) (by decide) (by decide) (by decide)
        (by decide)
    obtain ⟨hlex, _, hpos, _, hk, _⟩ := h2 (by decide)
    exact ⟨t, s', h, hk rfl, hlex, hpos⟩
  · obtain ⟨t, s', h, _, h1⟩ :=
      operator_rule (init_scanner ",x".toList) [] ',' "x".toList (by decide)
        WsComments.nil (by decide) (by decide) (by decide) (by decide)
    obtain ⟨hlex, _, hpos, _, _, _, _, _, _, _, _, _, _, _, _, _, hk⟩ := h1 (by decide)
    exact ⟨t, s', h, hk (by decide), hlex, hpos⟩
  · obtain ⟨t, s', h, _, h1⟩ :=
      operator_rule (init_scanner "!x".toList) [] '!' "x".toList (by decide)
        WsComments.nil (by decide) (by decide) (by decide) (by decide)
    obtain ⟨hlex, _, hpos, _, _, _, _, _, _, _, _, _, _, _, _, hk, _⟩ := h1 (by decide)
    exact ⟨t, s', h, hk rfl, hlex, hpos⟩
  · obtain ⟨t, s', h, _, h1⟩ :=
      operator_rule (init_scanner "/ 2".toList) [] '/' " 2".toList (by decide)
        WsComments.nil (by decide) (by decide) (by decide) (by decide)
    obtain ⟨hlex, _, hpos, _, _, _, hk, _⟩ := h1 (by decide)
    exact ⟨t, s', h, hk rfl, hlex, hpos⟩

/-! ## The number rule as a longest match -/

theorem takeWhile_all {P : Char → Bool} (l : List Char) : ∀ x ∈ l.takeWhile P, P x = true :=
  fun _ hx => (List.mem_takeWhile_imp hx)

theorem fractionShape_fraction_lexeme (y : List Char) : FractionShape (fraction_lexeme y) := by
  cases y with
  | nil => exact Or.inl rfl
  | cons c y =>
    simp only [fraction_lexeme]
    by_cases h : c = '.'
    · rw [if_pos h, h]
      exact Or.inr ⟨_, rfl, takeWhile_all y⟩
    · rw [if_neg h]
      exact Or.inl rfl

theorem sign_lexeme_cases (y : List Char) :
    sign_lexeme y = [] ∨ sign_lexeme y = ['+'] ∨ sign_lexeme y = ['-'] := by
  cases y with
  | nil => exact Or.inl rfl
  | cons c y =>
    simp only [sign_lexeme]
    by_cases h : c = '+' ∨ c = '-'
    · rw [if_pos h]
      rcases h with h | h <;> subst h
      · exact Or.inr (Or.inl rfl)
      · exact Or.inr (Or.inr rfl)
    · rw [if_neg h]
      exact Or.inl rfl

theorem exponentShape_exponent_lexeme (y : List Char) : ExponentShape (exponent_lexeme y) := by
  cases y with
  | nil => exact Or.inl rfl
  | cons c y =>
    simp only [exponent_lexeme]
    by_cases h : c = 'e' ∨ c = 'E'
    · rw [if_pos h]
      exact Or.inr ⟨c, _, _, rfl, h, sign_lexeme_cases y, takeWhile_all _⟩
    · rw [if_neg h]
      exact Or.inl rfl

theorem numberShape_number_lexeme {c : Char} (r : List Char) (hd : isdigit c = true) :
    NumberShape (number_lexeme (c :: r)) :=
  ⟨_, _, _, rfl, by simp [List.takeWhile_cons, hd], takeWhile_all _,
    fractionShape_fraction_lexeme _, exponentShape_exponent_lexeme _⟩

theorem takeWhile_digits_append {g : List Char} (hg : ∀ x ∈ g, isdigit x = true)
    (z : List Char) : (g ++ z).takeWhile isdigit = g ++ z.takeWhile isdigit :=
  List.takeWhile_append_of_pos hg

theorem dropWhile_digits_append {g : List Char} (hg : ∀ x ∈ g, isdigit x = true)
    (z : List Char) : (g ++ z).dropWhile isdigit = z.dropWhile isdigit :=
  List.dropWhile_append_of_pos hg

theorem exponent_longest {e : List Char} (he : ExponentShape e) (z : List Char) :
    e <+: exponent_lexeme (e ++ z) := by
  rcases he with rfl | ⟨m, sg, g, rfl, hm, hsg, hg⟩
  · exact List.nil_prefix
  · simp only [List.cons_append, exponent_lexeme, if_pos hm, List.cons_prefix_cons, true_and]
    have key : ∀ sg : List Char, sign_lexeme (sg ++ g ++ z) = sg →
        sg ++ g <+: sign_lexeme (sg ++ g ++ z) ++
          ((sg ++ g ++ z).drop (sign_lexeme (sg ++ g ++ z)).length).takeWhile isdigit := by
      intro sg h
      rw [h, List.append_assoc sg g z, List.drop_left, takeWhile_digits_append hg]
      exact (List.prefix_append_right_inj sg).2 (List.prefix_append _ _)
    rcases hsg with rfl | rfl | rfl
    · cases g with
      | nil => exact List.nil_prefix
      | cons a g =>
        refine key [] ?_
        have ha : isdigit a = true := hg a (List.mem_cons_self _ _)
        have : ¬ (a = '+' ∨ a = '-') := by
          rintro (h | h) <;> subst h <;> exact absurd ha (by decide)
        simp [sign_lexeme, this]
    · exact key ['+'] (by simp [sign_lexeme])
    · exact key ['-'] (by simp [sign_lexeme])

theorem exponent_head_not_digit {e : List Char} (he : ExponentShape e) (hne : e ≠ [])
    (z : List Char) : (e ++ z).takeWhile isdigit = [] ∧ (e ++ z).dropWhile isdigit = e ++ z ∧
      fraction_lexeme (e ++ z) = [] := by
  rcases he with rfl | ⟨m, sg, g, rfl, hm, _, _⟩
  · exact absurd rfl hne
  · have h1 : isdigit m = false := by rcases hm with h | h <;> subst h <;> decide
    have h2 : m ≠ '.' := by rcases hm with h | h <;> subst h <;> decide
    simp [List.takeWhile_cons, List.dropWhile_cons, h1, fraction_lexeme, h2]

theorem number_longest (x l : List Char) (hl : NumberShape l) (hp : l <+: x) :
    l <+: number_lexeme x := by
  obtain ⟨d, f, e, rfl, _, hd, hf, he⟩ := hl
  obtain ⟨z, rfl⟩ := hp
  unfold number_lexeme
  by_cases hfe : f = [] ∧ e = []
  · obtain ⟨rfl, rfl⟩ := hfe
    simp only [List.append_nil, List.append_assoc]
    rw [takeWhile_digits_append hd]
    exact (List.prefix_append _ _).trans (List.prefix_append _ _)
  · rcases hf with rfl | ⟨g, rfl, hg⟩
    · have hne : e ≠ [] := fun h => hfe ⟨rfl, h⟩
      obtain ⟨t1, t2, t3⟩ := exponent_head_not_digit he hne z
      simp only [List.append_nil, List.append_assoc]
      rw [takeWhile_digits_append hd, dropWhile_digits_append hd, t1, t2, t3]
      simp only [List.append_nil, List.length_nil, List.drop_zero]
      exact (List.prefix_append_right_inj d).2 (exponent_longest he z)
    · have e1 : (d ++ '.' :: g ++ e ++ z).takeWhile isdigit = d := by
        rw [List.append_assoc, List.append_assoc, takeWhile_digits_append hd]
        simp [List.takeWhile_cons, show isdigit '.' = false by decide]
      have e2 : (d ++ '.' :: g ++ e ++ z).dropWhile isdigit = '.' :: (g ++ (e ++ z)) := by
        rw [List.append_assoc, List.append_assoc, dropWhile_digits_append hd]
        simp [List.dropWhile_cons, show isdigit '.' = false by decide]
      rw [e1, e2]
      simp only [fraction_lexeme, if_true, takeWhile_digits_append hg]
      by_cases hne : e = []
      · subst hne
        simp only [List.append_nil, List.nil_append, List.append_assoc]
        refine (List.prefix_append_right_inj d).2 ?_
        simp only [List.cons_append, List.cons_prefix_cons, true_and]
        rw [List.append_assoc]
        exact List.prefix_append _ _
      · obtain ⟨t1, _, _⟩ := exponent_head_not_digit he hne z
        rw [t1]
        simp only [List.append_nil, List.length_cons, List.drop_succ_cons, List.drop_left,
          List.append_assoc]
        refine (List.prefix_append_right_inj d).2 ?_
        simp only [List.cons_append, List.cons_prefix_cons, true_and]
        exact (List.prefix_append_right_inj g).2 (exponent_longest he z)

theorem number_then_end {s : Scanner} {x : List Char} (hshape : NumberShape x)
    (h : ∃ t s' lex, get_next_token s = some (t, s') ∧ t.type = TOK_NUM ∧
      x = lex ++ rest s' ∧ t.lexeme = lex ∧
      ∀ l, NumberShape l → l <+: x → l <+: lex) :
    ∃ t s' t2 s2, get_next_token s = some (t, s') ∧ t.type = TOK_NUM ∧ t.lexeme = x ∧
      get_next_token s' = some (t2, s2) ∧ t2.type = TOK_EOF := by
  obtain ⟨t, s', lex, hcall, hty, htext, hlex, hlong⟩ := h
  have h1 : x <+: lex := hlong x hshape (List.prefix_refl x)
  have h2 : lex <+: x := ⟨rest s', htext.symm⟩
  have e : lex = x := List.IsPrefix.eq_of_length_le h2 h1.length_le
  subst e
  have hrest : rest s' = [] := by
    have := congrArg List.length htext
    simp only [List.length_append] at this
    exact List.length_eq_zero.1 (by omega)
  exact ⟨t, s', _, _, hcall, hty, hlex, get_next_token_at_end hrest, rfl⟩

theorem numberShape_digits {d : List Char} (hne : d ≠ []) (hd : ∀ x ∈ d, isdigit x = true) :
    NumberShape d :=
  ⟨d, [], [], by simp, hne, hd, Or.inl rfl, Or.inl rfl⟩

/-- C16 as stated fails at a number of 256 digits.  On the buffer of 256
digits `1` the first significant character is a digit, and the whole buffer
has the shape of a number, so it is the longest front part of that shape.
The digit loop ends with 256 characters stored: `lexeme[0]` to `lexeme[255]`
are all written, the array holds no terminator, and `strlen(lexeme)` in
`make_token` reads past its end.  Whatever token the call returns, its text
holds at most 255 characters, so it is not that front part. -/
theorem long_number_example :
    isdigit '1' = true ∧
      rest (init_scanner (List.replicate 256 '1')) = List.replicate 256 '1' ∧
      NumberShape (List.replicate 256 '1') ∧
      (∃ s1 l, lexeme_loop isdigit (fuelOf (init_scanner (List.replicate 256 '1')))
          (init_scanner (List.replicate 256 '1')) [] = some (s1, l) ∧ l.length = 256) ∧
      ¬ ∃ t s', get_next_token (init_scanner (List.replicate 256 '1')) = some (t, s') ∧
          t.lexeme = List.replicate 256 '1' := by
  have hr := rest_init_replicate (show '1' ≠ NUL by decide) 256
  have ht := takeWhile_replicate_of (show isdigit '1' = true by decide) 256
  refine ⟨by decide, hr, ?_, ⟨_, _, lexeme_loop_advance isdigit_plain _ _, ?_⟩, ?_⟩
  · refine numberShape_digits ?_ ?_
    · intro h
      have := congrArg List.length h
      rw [List.length_replicate] at this
      exact absurd this (by decide)
    · intro x hx
      rw [List.eq_of_mem_replicate hx]
      decide
  · rw [hr, ht, List.nil_append, List.length_replicate]
  · rintro ⟨t, s', h, hlex⟩
    have h1 := token_text_length h
    rw [hlex, List.length_replicate] at h1
    omega

/-- C16 (amended): number rule for numbers that fit the lexeme array.  When
the first significant character of the unread input (after whitespace and
terminated comments `w`) is a digit, let `lex` be the longest front part of
the unread input that has the shape
`digits+ ('.' digits*)? (('e'|'E') ('+'|'-')? digits*)?`: it has the shape
and every front part of the unread input that has the shape is a front part
of it.  If `lex` has fewer than 256 characters, `get_next_token` returns one
token of kind `TOK_NUM`, consumes exactly `lex`, and the token's text is
`lex`. -/
theorem number_rule (s : Scanner) (w : List Char) (c : Char) (r : List Char)
    (hr : rest s = w ++ c :: r) (hw : WsComments w) (hd : isdigit c = true) :
    ∃ lex, NumberShape lex ∧ lex <+: c :: r ∧
      (∀ l, NumberShape l → l <+: c :: r → l <+: lex) ∧
      (lex.length < 256 →
        ∃ t s', get_next_token s = some (t, s') ∧ t.type = TOK_NUM ∧
          c :: r = lex ++ rest s' ∧
          s'.current_pos = s.current_pos + w.length + lex.length ∧
          t.lexeme = lex) := by
  obtain ⟨s1, a1, r1, e1, p1⟩ := skip_to_significant hr hw (isdigit_not_space hd)
  obtain ⟨t, s', hl⟩ := lexed_digit r1 hd
  obtain ⟨hty, hlex, _, _, _, hpos, _, _, _⟩ := hl.facts
  have htext := hl.text
  rw [r1] at htext
  refine ⟨number_lexeme (c :: r), numberShape_number_lexeme r hd, ⟨rest s', htext.symm⟩,
    fun l h1 h2 => number_longest (c :: r) l h1 h2, fun hlen => ?_⟩
  refine ⟨t, s', e1.trans hl.call, hty, htext, by rw [hpos, p1], ?_⟩
  rw [hlex]
  exact List.take_of_length_le (by omega)

/-- The examples of C16: `3.`, `3e` and `3e+` are each one number token that
is followed by end-of-input. -/
theorem number_rule_witness :
    (∃ t s' t2 s2, get_next_token (init_scanner ['3', '.']) = some (t, s') ∧
      t.type = TOK_NUM ∧ t.lexeme = ['3', '.'] ∧
      get_next_token s' = some (t2, s2) ∧ t2.type = TOK_EOF) ∧
    (∃ t s' t2 s2, get_next_token (init_scanner ['3', 'e']) = some (t, s') ∧
      t.type = TOK_NUM ∧ t.lexeme = ['3', 'e'] ∧
      get_next_token s' = some (t2, s2) ∧ t2.type = TOK_EOF) ∧
    (∃ t s' t2 s2, get_next_token (init_scanner ['3', 'e', '+']) = some (t, s') ∧
      t.type = TOK_NUM ∧ t.lexeme = ['3', 'e', '+'] ∧
      get_next_token s' = some (t2, s2) ∧ t2.type = TOK_EOF) := by
  have hshort : ∀ {x lex : List Char}, x.length < 256 → lex <+: x → lex.length < 256 :=
    fun hx hp => lt_of_le_of_lt hp.length_le hx
  refine ⟨?_, ?_, ?_⟩
  · obtain ⟨lex, _, hp, hlong, h⟩ :=
      number_rule (init_scanner ['3', '.']) [] '3' ['.'] (by decide) WsComments.nil (by decide)
    obtain ⟨t, s', h1, h2, h3, _, h4⟩ := h (hshort (by decide) hp)
    exact number_then_end
      ⟨['3'], ['.'], [], rfl, by decide, by decide, Or.inr ⟨[], rfl, by decide⟩, Or.inl rfl⟩
      ⟨t, s', lex, h1, h2, h3, h4, hlong⟩
  · obtain ⟨lex, _, hp, hlong, h⟩ :=
      number_rule (init_scanner ['3', 'e']) [] '3' ['e'] (by decide) WsComments.nil (by decide)
    obtain ⟨t, s', h1, h2, h3, _, h4⟩ := h (hshort (by decide) hp)
    exact number_then_end
      ⟨['3'], [], ['e'], rfl, by decide, by decide, Or.inl rfl,
        Or.inr ⟨'e', [], [], rfl, Or.inl rfl, Or.inl rfl, by decide⟩⟩
      ⟨t, s', lex, h1, h2, h3, h4, hlong⟩
  · obtain ⟨lex, _, hp, hlong, h⟩ :=
      number_rule (init_scanner ['3', 'e', '+']) [] '3' ['e', '+'] (by decide) WsComments.nil
        (by decide)
    obtain ⟨t, s', h1, h2, h3, _, h4⟩ := h (hshort (by decide) hp)
    exact number_then_end
      ⟨['3'], [], ['e', '+'], rfl, by decide, by decide, Or.inl rfl,
        Or.inr ⟨'e', ['+'], [], rfl, Or.inl rfl, Or.inr (Or.inl rfl), by decide⟩⟩
      ⟨t, s', lex, h1, h2, h3, h4, hlong⟩

/-! ## The state at the first character of a token -/

theorem safeRun_reaches {s s' : Scanner} (h : SafeRun s s') : Reaches s s' := by
  obtain ⟨k, hk, _⟩ := h
  exact ⟨k, hk⟩

theorem safeRun_refl (s : Scanner) : SafeRun s s := ⟨0, rfl, fun j hj => by omega⟩

theorem safeRun_trans {a b c : Scanner} (h1 : SafeRun a b) (h2 : SafeRun b c) : SafeRun a c := by
  obtain ⟨k1, rfl, g1⟩ := h1
  obtain ⟨k2, rfl, g2⟩ := h2
  refine ⟨k2 + k1, (Function.iterate_add_apply consume_char k2 k1 a).symm, ?_⟩
  intro j hj
  by_cases hlt : j < k1
  · exact g1 j hlt
  · have e : j = (j - k1) + k1 := by omega
    rw [e, Function.iterate_add_apply]
    exact g2 (j - k1) (by omega)

theorem safeRun_step {s : Scanner} (h : peek_char s ≠ NUL) : SafeRun s (consume_char s) :=
  ⟨1, rfl, fun j hj => by
    have : j = 0 := by omega
    subst this
    exact h⟩

theorem peek_ne_NUL_of_rest {s : Scanner} {c : Char} {r : List Char} (h : rest s = c :: r) :
    peek_char s ≠ NUL := by
  rw [peek_char_eq, h]
  exact rest_ne_NUL h

theorem comment_loop_safe :
    ∀ n s s' b, comment_loop n s = some (s', b) → SafeRun s s' := by
  intro n
  induction n with
  | zero => intro s s' b h; simp [comment_loop] at h
  | succ n ih =>
    intro s s' b h
    unfold comment_loop at h
    by_cases h1 : peek_char s = NUL
    · rw [if_pos h1] at h
      simp only [Option.some.injEq, Prod.mk.injEq] at h
      rw [← h.1]
      exact safeRun_refl s
    · rw [if_neg h1] at h
      by_cases h2 : peek_char s = '*' ∧ char_at s (s.current_pos + 1) = '/'
      · rw [if_pos h2] at h
        simp only [Option.some.injEq, Prod.mk.injEq] at h
        rw [← h.1]
        obtain ⟨r, hr⟩ := rest_of_peek h2.1 (by decide)
        have h3 := char_at_succ hr
        rw [h2.2] at h3
        obtain ⟨_, r1⟩ := consume_char_plain hr (by decide) (fun h => absurd h (by decide))
        have hp : peek_char (consume_char s) ≠ NUL := by
          rw [peek_char_eq, r1, ← h3]
          decide
        exact safeRun_trans (safeRun_step h1) (safeRun_step hp)
      · rw [if_neg h2] at h
        exact safeRun_trans (safeRun_step h1) (ih _ _ _ h)

theorem comment_open_safe {s : Scanner} {r : List Char} (hr : rest s = '/' :: '*' :: r) :
    SafeRun s (consume_char (consume_char s)) := by
  obtain ⟨_, r1⟩ := consume_char_plain hr (by decide) (fun h => absurd h (by decide))
  exact safeRun_trans (safeRun_step (peek_ne_NUL_of_rest hr)) (safeRun_step (peek_ne_NUL_of_rest r1))

theorem skip_reaches :
    ∀ k s w r, (rest s).length < k → rest s = w ++ r → WsComments w → r.headD NUL ≠ '\n' →
      ∃ s1, SafeRun s s1 ∧ Adv s s1 ∧ rest s1 = r ∧ get_next_token s = get_next_token s1 := by
  intro k
  induction k with
  | zero => intro s w r h; omega
  | succ k ih =>
    intro s w r hk hr hw hn
    cases hw with
    | nil => exact ⟨s, safeRun_refl s, Adv.refl s, by simpa using hr, rfl⟩
    | @space c w1 hc hw1 =>
      simp only [List.cons_append] at hr
      obtain ⟨ha, hlt, hcase⟩ := consume_char_adv hr
      have e := get_next_token_space hr hc
      rcases hcase with h1 | ⟨h1, h2⟩
      · obtain ⟨s1, q1, a1, r1, e1⟩ := ih (consume_char s) w1 r (by omega) h1 hw1 hn
        exact ⟨s1, safeRun_trans (safeRun_step (peek_ne_NUL_of_rest hr)) q1, ha.trans a1, r1, e.trans e1⟩
      · cases w1 with
        | nil =>
          simp only [List.nil_append] at h2
          rw [h2] at hn
          exact absurd rfl hn
        | cons d w2 =>
          simp only [List.cons_append, List.cons.injEq] at h2
          obtain ⟨h3, h4⟩ := h2
          subst h3
          obtain ⟨s1, q1, a1, r1, e1⟩ :=
            ih (consume_char s) w2 r (by omega) h4.symm (wsComments_tail_nl hw1) hn
          exact ⟨s1, safeRun_trans (safeRun_step (peek_ne_NUL_of_rest hr)) q1, ha.trans a1, r1, e.trans e1⟩
    | @comment b w1 hb hw1 =>
      simp only [List.cons_append, List.append_assoc] at hr
      obtain ⟨r2, a2, hstep⟩ := get_next_token_comment hr
      obtain ⟨s1, hc, a3, r3⟩ := comment_loop_closed (fuelOf s) (consume_char (consume_char s))
        b (w1 ++ r) (by have := rest_length_lt_fuelOf s; have := a2.len; omega) r2 hb
      have e := hstep s1 true hc a3
      simp only [if_true] at e
      have hlen : (rest s1).length < k := by
        rw [r3]
        rw [hr] at hk
        simp only [List.length_cons, List.length_append] at hk ⊢
        omega
      obtain ⟨s2, q4, a4, r4, e4⟩ := ih s1 w1 r hlen r3 hw1 hn
      exact ⟨s2, safeRun_trans (comment_open_safe hr) (safeRun_trans (comment_loop_safe _ _ _ _ hc) q4),
        (a2.trans a3).trans a4, r4, e.trans e4⟩

theorem noSpace_plain {c : Char} (h : isspace c = false) : c ≠ '\n' ∧ c ≠ '\r' := by
  constructor <;> intro e <;> rw [e] at h <;> exact absurd h (by decide)

theorem iterate_consume_advance :
    ∀ (lex : List Char) (s : Scanner) (tail : List Char), rest s = lex ++ tail → NoSpace lex →
      ∀ j, j ≤ lex.length → Nat.iterate consume_char j s = advance s j := by
  intro lex
  induction lex with
  | nil =>
    intro s tail _ _ j hj
    have : j = 0 := by simpa using hj
    subst this
    exact (advance_zero s).symm
  | cons c l ih =>
    intro s tail hr hns j hj
    cases j with
    | zero => exact (advance_zero s).symm
    | succ j =>
      obtain ⟨h1, h2⟩ := noSpace_plain (hns c (List.mem_cons_self _ _))
      obtain ⟨e, _⟩ := consume_char_advance (show rest s = c :: (l ++ tail) from hr) h1 h2
      have hr1 : rest (advance s 1) = l ++ tail :=
        rest_advance (show rest s = [c] ++ (l ++ tail) from hr)
      have hns1 : NoSpace l := fun x hx => hns x (List.mem_cons_of_mem _ hx)
      rw [Function.iterate_succ_apply, e, ih (advance s 1) tail hr1 hns1 j
        (by simpa using hj), advance_add, Nat.add_comm]

theorem lexed_safe {s1 : Scanner} {ty : TokenType} {lex : List Char} {t : Token}
    {s' : Scanner} (hl : Lexed s1 ty lex t s') (hns : NoSpace lex) : SafeRun s1 s' := by
  have hit := iterate_consume_advance lex s1 (rest s') hl.text hns
  refine ⟨lex.length, by rw [hit lex.length (le_refl _)]; exact hl.state, ?_⟩
  intro j hj
  rw [hit j (le_of_lt hj)]
  have hsplit : rest s1 = lex.take j ++ (lex.drop j ++ rest s') := by
    rw [← List.append_assoc, List.take_append_drop]
    exact hl.text
  have hr := rest_advance hsplit
  rw [List.length_take, Nat.min_eq_left (le_of_lt hj)] at hr
  cases hd : lex.drop j with
  | nil =>
    have := congrArg List.length hd
    simp only [List.length_drop, List.length_nil] at this
    omega
  | cons a l =>
    rw [hd] at hr
    exact peek_ne_NUL_of_rest hr

/-- The three ways a call of `get_next_token` can go, by what follows the
whitespace and terminated comments at the front of the unread input: nothing
(end-of-input token), an unterminated comment (`Unclosed comment` token), or
a significant character, at which a token of non-empty text `lex` without
whitespace is scanned from the state `s1` that the scanner has reached by
then.  In each case the final state is reached by calls of `consume_char`
made before the terminator. -/
theorem token_cases {s : Scanner} {t : Token} {s' : Scanner}
    (h : get_next_token s = some (t, s')) :
    (t.type = TOK_EOF ∧ t.lexeme = [] ∧ WsComments (rest s) ∧ SafeRun s s') ∨
    (t.type = TOK_ERROR ∧ t.lexeme = "Unclosed comment".toList ∧ SafeRun s s' ∧
      ∃ w body, rest s = w ++ '/' :: '*' :: body ∧ WsComments w) ∨
    (∃ s1 w c r ty lex, SafeRun s s1 ∧ Adv s s1 ∧ rest s = w ++ c :: r ∧ WsComments w ∧
      rest s1 = c :: r ∧ isspace c = false ∧ ¬ (c = '/' ∧ r.head? = some '*') ∧
      Lexed s1 ty lex t s' ∧ lex ≠ [] ∧ NoSpace lex ∧ ty ≠ TOK_EOF) := by
  obtain ⟨w, tail, hx, hw, hcase⟩ := ws_decompose _ (rest s) (Nat.lt_succ_self _)
  rcases hcase with rfl | ⟨body, rfl, hbody⟩ | ⟨c, r, rfl, hs, hcm⟩
  · obtain ⟨s1, q1, _, r1, e1⟩ := skip_reaches _ s w [] (Nat.lt_succ_self _) hx hw (by decide)
    rw [e1, get_next_token_at_end r1] at h
    simp only [Option.some.injEq, Prod.mk.injEq] at h
    left
    rw [← h.1, ← h.2]
    exact ⟨rfl, rfl, by rw [hx, List.append_nil]; exact hw, q1⟩
  · obtain ⟨s1, q1, a1, r1, e1⟩ := skip_reaches _ s w ('/' :: '*' :: body)
      (Nat.lt_succ_self _) hx hw (show '/' ≠ '\n' by decide)
    obtain ⟨r2, a2, hstep⟩ := get_next_token_comment r1
    obtain ⟨s2, hc, a3, r3⟩ := comment_loop_unclosed (fuelOf s1) (consume_char (consume_char s1))
      (by have := rest_length_lt_fuelOf s1; have := a2.len; omega) (by rw [r2]; exact hbody)
    have e := hstep s2 false hc a3
    simp only [Bool.false_eq_true, if_false] at e
    rw [e1, e] at h
    simp only [Option.some.injEq, Prod.mk.injEq] at h
    right; left
    rw [← h.1, ← h.2]
    exact ⟨rfl, by rfl,
      safeRun_trans q1 (safeRun_trans (comment_open_safe r1) (comment_loop_safe _ _ _ _ hc)),
      w, body, hx, hw⟩
  · obtain ⟨s1, q1, a1, r1, e1⟩ := skip_reaches _ s w (c :: r) (Nat.lt_succ_self _) hx hw
      (by
        intro hh
        have : c = '\n' := hh
        rw [this] at hs
        exact absurd hs (by decide))
    obtain ⟨ty, lex, t0, s0, hl, hne, hns, hty⟩ := lexed_exists r1 hs hcm
    have hcall := hl.call
    rw [← e1, h] at hcall
    simp only [Option.some.injEq, Prod.mk.injEq] at hcall
    obtain ⟨rfl, rfl⟩ := hcall
    right; right
    exact ⟨s1, w, c, r, ty, lex, q1, a1, hx, hw, r1, hs, hcm, hl, hne, hns, hty⟩

theorem lexed_unique {s1 : Scanner} {ty ty' : TokenType} {lex lex' : List Char}
    {t t' : Token} {s' s'' : Scanner} (h : Lexed s1 ty lex t s') (h' : Lexed s1 ty' lex' t' s'') :
    lex.length = lex'.length := by
  have e := h.call.symm.trans h'.call
  simp only [Option.some.injEq, Prod.mk.injEq] at e
  have e2 := congrArg Scanner.current_pos (h.state.symm.trans (e.2.trans h'.state))
  simp only [advance] at e2
  omega

/-- On a text whose lexemes fit, a call of `get_next_token` stays inside the
lexeme array: the lexeme handed to `make_token` has fewer than 256 characters,
and the lexemes of the remaining input fit again. -/
theorem lexemesFit_call {s : Scanner} {t : Token} {s' : Scanner}
    (hf : LexemesFit (rest s)) (h : get_next_token s = some (t, s')) :
    (∃ lexeme, t = make_token s' t.type lexeme ∧ lexeme.length < 256) ∧
      LexemesFit (rest s') := by
  rcases token_cases h with ⟨hty, _, _, _⟩ | ⟨_, hlex, _, w, body, hx, _⟩ |
    ⟨s1, w, c, r, ty, lex, _, a1, hx, hw, r1, hs, hcm, hl, hlne, hns, _⟩
  · obtain ⟨hr, hm⟩ := (tokenOk_of_eq h).eof hty
    refine ⟨⟨[], by rw [hty]; exact hm, by decide⟩, ?_⟩
    rw [hr]
    exact lexemesFit_of_length (by decide)
  · obtain ⟨lexeme, hm⟩ := (tokenOk_of_eq h).made
    have hok := tokenOk_of_eq h
    have hsuf : rest s' <:+ rest s := by
      have hp := hok.adv.pos
      have hi := hok.adv.input
      have hlen := hok.adv.len
      have := restAt_add s.input s.current_pos (s'.current_pos - s.current_pos) (by
        show _ ≤ (rest s).length
        omega)
      have e : s.current_pos + (s'.current_pos - s.current_pos) = s'.current_pos := by omega
      rw [e] at this
      have e2 : rest s' = (rest s).drop (s'.current_pos - s.current_pos) := by
        show restAt s'.input s'.current_pos = _
        rw [hi, this]
        rfl
      rw [e2]
      exact List.drop_suffix _ _
    refine ⟨⟨lexeme, hm, ?_⟩, lexemesFit_suffix hf hsuf⟩
    have e : t.lexeme = lexeme.take 255 := by rw [hm]; rfl
    have e2 := congrArg List.length (hlex.symm.trans e)
    rw [List.length_take] at e2
    have e3 : "Unclosed comment".toList.length = 16 := by decide
    omega
  · have hsuf1 : (c :: r) <:+ rest s := ⟨w, hx.symm⟩
    have htext := hl.text
    rw [r1] at htext
    have hsuf : rest s' <:+ rest s := ⟨w ++ lex, by rw [hx, htext]; simp⟩
    refine ⟨⟨lex, ?_, ?_⟩, lexemesFit_suffix hf hsuf⟩
    · rw [hl.facts.1]
      exact hl.token
    · by_cases hal : isalpha c = true
      · obtain ⟨t0, s0, h0⟩ := lexed_alpha r1 hal
        rw [lexed_unique hl h0]
        exact (hf _ hsuf1).1
      · by_cases hd : isdigit c = true
        · obtain ⟨t0, s0, h0⟩ := lexed_digit r1 hd
          rw [lexed_unique hl h0]
          exact (hf _ hsuf1).2 hd
        · obtain ⟨t0, s0, h0⟩ := lexed_operator r1 hs (by simpa using hal) (by simpa using hd) hcm
          rw [lexed_unique hl h0]
          rcases operator_spec_cases c r.head? with ⟨_, k, _, he⟩ | he <;> rw [he] <;> simp

/-- Every call of `get_next_token` that the parser makes is made by `match`:
from a state whose lexemes fit, the call stays inside the lexeme array and
the lexemes of the state after it fit again. -/
theorem lexemesFit_match {e : TokenType} {p p' : Parser} (hf : LexemesFit (rest p.sc))
    (h : match_ e p = .ok p') :
    (∃ lexeme, p'.lookahead = make_token p'.sc p'.lookahead.type lexeme ∧
      lexeme.length < 256) ∧ LexemesFit (rest p'.sc) :=
  lexemesFit_call hf (match_ok h).2

/-- C17 at the failing input `"/* abc"`: the scanner starts in column 1 and
returns the `Unclosed comment` token, a lexical-error token with non-empty
text, whose `start_pos` is `-9`: `make_token` subtracts the 16 characters of
the message from the column at the end of the input, 7 (in C the subtraction
is carried out in `size_t` and converted back to `int`, which gives the same
value).  The run of `main` then prints this number as the position:
`ERROR at line 1, position -9: Expected 'Program', found 'error'`. -/
theorem unclosed_comment_column_example :
    ∃ t s', get_next_token (init_scanner "/* abc".toList) = some (t, s') ∧
      t.type = TOK_ERROR ∧ t.lexeme = "Unclosed comment".toList ∧
      (init_scanner "/* abc".toList).column = 1 ∧
      t.start_pos = -9 ∧ t.end_pos = 6 ∧
      (∀ fuel, main fuel "/* abc".toList =
        some (.exited (.expected 1 (-9) TOK_PROGRAM TOK_ERROR) { sc := s', lookahead := t })) ∧
      (Diag.expected 1 (-9) TOK_PROGRAM TOK_ERROR).render =
        "ERROR at line 1, position -9: Expected 'Program', found 'error'" :=
  ⟨_, _, by rfl, by decide, by decide, by decide, by decide, by decide, fun _ => by rfl,
    by decide⟩

/-- Token position for every token with non-empty text other than the
`Unclosed comment` token, when the token spans at most 255 columns (its
lexeme fits the lexeme array): for these the code does what C17 says.  Let
`s1` be
the state the scanner has reached, by calls of `consume_char` over the
whitespace and terminated comments `w`, when its cursor stands on the first
significant character.  The token is scanned from `s1` by `n` calls of
`consume_char`, `1 ≤ n < 256`, each of which moves the cursor and the column by one and
leaves the line unchanged.  Then `start_pos` is the column of `s1`, `end_pos`
is the column at which the last of the `n` characters was consumed
(`start_pos + n - 1`, so `end_pos ≥ start_pos`), `line` is the line of `s1`,
and `start_pos ≥ 1` whenever the column was at least 1 before the call. -/
theorem token_position (s : Scanner) (t : Token) (s' : Scanner)
    (h : get_next_token s = some (t, s')) (hne : t.lexeme ≠ [])
    (hun : t.lexeme ≠ "Unclosed comment".toList) (hshort : t.end_pos - t.start_pos < 255) :
    ∃ s1 w n, Reaches s s1 ∧ rest s = w ++ rest s1 ∧ WsComments w ∧
      (∃ c r, rest s1 = c :: r ∧ isspace c = false ∧ ¬ (c = '/' ∧ r.head? = some '*')) ∧
      s1.current_pos = s.current_pos + w.length ∧
      0 < n ∧ n < 256 ∧ (∀ j, j ≤ n → Nat.iterate consume_char j s1 = advance s1 j) ∧
      s' = advance s1 n ∧
      t.start_pos = s1.column ∧ t.end_pos = (advance s1 (n - 1)).column ∧
      t.end_pos = s1.column + (n : Int) - 1 ∧ t.start_pos ≤ t.end_pos ∧
      t.line = s1.line ∧ (1 ≤ s.column → 1 ≤ t.start_pos) := by
  rcases token_cases h with ⟨_, h0, _⟩ | ⟨_, h0, _⟩ |
    ⟨s1, w, c, r, ty, lex, q1, a1, hx, hw, r1, hs, hcm, hl, hlne, hns, _⟩
  · exact absurd h0 hne
  · exact absurd h0 hun
  · obtain ⟨_, _, hline, hstart, hend, _, _, _, _⟩ := hl.facts
    have hpos : 0 < lex.length := List.length_pos.2 hlne
    have hp1 : s1.current_pos = s.current_pos + w.length := by
      have := a1.pos
      rw [r1, hx, List.length_append] at this
      omega
    refine ⟨s1, w, lex.length, safeRun_reaches q1, by rw [hx, r1], hw, ⟨c, r, r1, hs, hcm⟩,
      hp1, hpos, by rw [hstart, hend] at hshort; omega,
      iterate_consume_advance lex s1 (rest s') hl.text hns, hl.state, hstart, ?_, hend, ?_,
      hline, ?_⟩
    · rw [hend]
      show _ = s1.column + ((lex.length - 1 : Nat) : Int)
      omega
    · rw [hstart, hend]
      omega
    · intro hcol
      rw [hstart]
      exact a1.col hcol

/-- Token position at a concrete call: in `"\n ab"` the identifier `ab` stands
on line 2 in columns 2 to 3. -/
theorem token_position_witness :
    ∃ s1 w n, Reaches (init_scanner "\n ab".toList) s1 ∧
      rest (init_scanner "\n ab".toList) = w ++ rest s1 ∧ WsComments w ∧
      (∃ c r, rest s1 = c :: r ∧ isspace c = false ∧ ¬ (c = '/' ∧ r.head? = some '*')) ∧
      s1.current_pos = (init_scanner "\n ab".toList).current_pos + w.length ∧
      0 < n ∧ n < 256 ∧ (∀ j, j ≤ n → Nat.iterate consume_char j s1 = advance s1 j) ∧
      (⟨"\n ab".toList, 4, 2, 4⟩ : Scanner) = advance s1 n ∧
      (2 : Int) = s1.column ∧ (3 : Int) = (advance s1 (n - 1)).column ∧
      (3 : Int) = s1.column + (n : Int) - 1 ∧ (2 : Int) ≤ 3 ∧
      (2 : Int) = s1.line ∧ (1 ≤ (init_scanner "\n ab".toList).column → (1 : Int) ≤ 2) :=
  token_position (init_scanner "\n ab".toList) ⟨TOK_ID, ['a', 'b'], 2, 2, 3⟩
    ⟨"\n ab".toList, 4, 2, 4⟩ (by decide) (by decide) (by decide) (by decide)

/-! ## Token text and the source buffer -/

theorem get_next_token_safe {s : Scanner} {t : Token} {s' : Scanner}
    (h : get_next_token s = some (t, s')) : SafeRun s s' := by
  rcases token_cases h with ⟨_, _, _, q⟩ | ⟨_, _, q, _⟩ |
    ⟨s1, w, c, r, ty, lex, q1, _, _, _, _, _, _, hl, _, hns, _⟩
  · exact q
  · exact q
  · exact safeRun_trans q1 (lexed_safe hl hns)

theorem cursor_plus_rest {buffer : List Char} {s : Scanner} (hi : s.input = buffer)
    (hp : s.current_pos ≤ (cstr buffer).length) :
    s.current_pos + (rest s).length = (cstr buffer).length := by
  have h0 : restAt buffer 0 = cstr buffer := by simp [restAt, cstr]
  have h := restAt_add buffer 0 s.current_pos (by rw [h0]; exact hp)
  rw [Nat.zero_add, h0] at h
  show s.current_pos + (restAt s.input s.current_pos).length = _
  rw [hi, h, List.length_drop]
  omega

theorem call_in_bounds {buffer : List Char} {s : Scanner} (hi : s.input = buffer)
    (hp : s.current_pos ≤ (cstr buffer).length) :
    ∃ t s', get_next_token s = some (t, s') ∧ SafeRun s s' ∧ s'.input = buffer ∧
      s.current_pos ≤ s'.current_pos ∧ s'.current_pos ≤ (cstr buffer).length ∧
      (t.type ≠ TOK_EOF → s.current_pos < s'.current_pos) := by
  obtain ⟨t, s', hcall, hok⟩ := get_next_token_ok s
  have h1 := cursor_plus_rest hi hp
  have h2 := hok.adv.pos
  have h3 := hok.adv.len
  refine ⟨t, s', hcall, get_next_token_safe hcall, hok.adv.input.trans hi, by omega, by omega, ?_⟩
  intro hty
  have := hok.progress hty
  omega

theorem scan_calls_in_bounds (buffer : List Char) :
    ∀ k s, s.input = buffer → s.current_pos ≤ (cstr buffer).length →
      ∃ ts s', scan_calls k s = some (ts, s') ∧ s'.input = buffer ∧
        s'.current_pos ≤ (cstr buffer).length := by
  intro k
  induction k with
  | zero => intro s hi hp; exact ⟨[], s, rfl, hi, hp⟩
  | succ k ih =>
    intro s hi hp
    obtain ⟨t, s1, hcall, _, hi1, _, hp1, _⟩ := call_in_bounds hi hp
    obtain ⟨ts, s2, h2, hi2, hp2⟩ := ih s1 hi1 hp1
    exact ⟨t :: ts, s2, by simp [scan_calls, hcall, h2], hi2, hp2⟩

theorem rest_suffix_cstr {buffer : List Char} {s : Scanner} (hi : s.input = buffer)
    (hp : s.current_pos ≤ (cstr buffer).length) : rest s <:+ cstr buffer := by
  have h0 : restAt buffer 0 = cstr buffer := by simp [restAt, cstr]
  have h := restAt_add buffer 0 s.current_pos (by rw [h0]; exact hp)
  rw [Nat.zero_add, h0] at h
  show restAt s.input s.current_pos <:+ _
  rw [hi, h]
  exact List.drop_suffix _ _

/-- C19 at a failing input, the buffer of 300 letters `x`.  The first call of
`get_next_token` finds a letter and runs the identifier loop, which stores
300 characters: the writes `lexeme[i++]` for `i` from 256 to 299 and the
terminator write `lexeme[300]` are outside `char lexeme[256]`, so the call
has no defined result. -/
theorem scanner_overrun_example :
    isalpha 'x' = true ∧
      rest (init_scanner (List.replicate 300 'x')) = List.replicate 300 'x' ∧
      ∃ s1 l, lexeme_loop isalnum (fuelOf (init_scanner (List.replicate 300 'x')))
          (init_scanner (List.replicate 300 'x')) [] = some (s1, l) ∧
        l.length = 300 ∧ ¬ l.length < 256 := by
  have hr := rest_init_replicate (show 'x' ≠ NUL by decide) 300
  have ht := takeWhile_replicate_of (show isalnum 'x' = true by decide) 300
  have hl : ([] ++ (rest (init_scanner (List.replicate 300 'x'))).takeWhile isalnum).length
      = 300 := by
    rw [hr, ht, List.nil_append, List.length_replicate]
  exact ⟨by decide, hr, _, _, lexeme_loop_advance isalnum_plain _ _, hl, by rw [hl]; decide⟩

/-- Scanner progress and bounds on buffers whose lexemes fit the lexeme array:
there the code does what C19 says.  Let `n` be the length of the buffer's
string (the index of its terminator).  For every scanner state on the buffer
with cursor at most `n`, the call of `get_next_token` returns; the lexeme it
hands to `make_token` has fewer than 256 characters; the state after the call
is reached by calls of `consume_char` that were all made with the cursor on a
character other than the terminator; the cursor has not moved back, is still
at most `n`, and is strictly greater than before when the token is not
end-of-input.  Every number of successive calls from `init_scanner` returns
and ends in such a state, and an end-of-input token is returned after at most
`n + 1` calls. -/
theorem scanner_progress (buffer : List Char) (hfit : LexemesFit (cstr buffer)) :
    (∀ s : Scanner, s.input = buffer → s.current_pos ≤ (cstr buffer).length →
      ∃ t s', get_next_token s = some (t, s') ∧
        (∃ lexeme, t = make_token s' t.type lexeme ∧ lexeme.length < 256) ∧
        SafeRun s s' ∧ s'.input = buffer ∧
        s.current_pos ≤ s'.current_pos ∧ s'.current_pos ≤ (cstr buffer).length ∧
        (t.type ≠ TOK_EOF → s.current_pos < s'.current_pos)) ∧
    (∀ k, ∃ ts s, scan_calls k (init_scanner buffer) = some (ts, s) ∧ s.input = buffer ∧
      s.current_pos ≤ (cstr buffer).length) ∧
    (∃ m ts s t, m ≤ (cstr buffer).length + 1 ∧
      scan_calls m (init_scanner buffer) = some (ts, s) ∧
      ts.getLast? = some t ∧ t.type = TOK_EOF) := by
  refine ⟨fun s hi hp => ?_,
    fun k => scan_calls_in_bounds buffer k (init_scanner buffer) rfl (Nat.zero_le _), ?_⟩
  · obtain ⟨t, s', hcall, h1, h2, h3, h4, h5⟩ := call_in_bounds hi hp
    exact ⟨t, s', hcall,
      (lexemesFit_call (lexemesFit_suffix hfit (rest_suffix_cstr hi hp)) hcall).1,
      h1, h2, h3, h4, h5⟩
  · have h := scan_calls_reaches_eof _ (init_scanner buffer) (Nat.lt_succ_self _)
    rw [rest_init_scanner] at h
    exact h

/-- Scanner progress at a concrete state: the first call on the buffer `"a b"`. -/
theorem scanner_progress_witness :
    ∃ t s', get_next_token (init_scanner "a b".toList) = some (t, s') ∧
      (∃ lexeme, t = make_token s' t.type lexeme ∧ lexeme.length < 256) ∧
      SafeRun (init_scanner "a b".toList) s' ∧ s'.input = "a b".toList ∧
      (init_scanner "a b".toList).current_pos ≤ s'.current_pos ∧
      s'.current_pos ≤ (cstr "a b".toList).length ∧
      (t.type ≠ TOK_EOF → (init_scanner "a b".toList).current_pos < s'.current_pos) :=
  (scanner_progress "a b".toList
      (lexemesFit_of_length (lt_of_le_of_lt (List.takeWhile_prefix _).length_le (by decide)))).1
    (init_scanner "a b".toList) rfl (by decide)

/-- C13 as stated fails: the run on `Program P { } x` ends neither with the
success message nor with an `ERROR at line ...` diagnostic and `exit(1)`:
`program()` returns with the identifier `x` as lookahead and `main` prints
`Parsing failed.` and returns. -/
theorem trailing_token_run_example :
    ∃ p, p.lookahead.type = TOK_ID ∧
      ∃ N, ∀ fuel, N ≤ fuel →
        main fuel "Program P \x7b \x7d x".toList = some (.failed p) ∧
          (∀ q, main fuel "Program P \x7b \x7d x".toList ≠ some (.completed q)) ∧
          (∀ d q, main fuel "Program P \x7b \x7d x".toList ≠ some (.exited d q)) := by
  obtain ⟨p, hp, N, hN⟩ := @main_trailing_token [] [] DeclList.nil StmtList.nil
    "Program P \x7b \x7d x".toList TOK_ID [TOK_EOF] (by decide) (by decide)
  refine ⟨p, hp, N, fun fuel hf => ⟨hN fuel hf, fun q hq => ?_, fun d q hq => ?_⟩⟩
  · rw [hN fuel hf] at hq; cases hq
  · rw [hN fuel hf] at hq; cases hq

/-- C13 (amended): for every buffer whose lexemes fit the scanner's lexeme
array (no run of alphanumeric characters and no number of 256 or more
characters), the run (`init_scanner`, the first `get_next_token`,
`program()`, the final test in `main`) ends, and in exactly one of three ways.
(1) The success message: exactly when `program()` has returned, that is right
after the closing brace was matched, and the lookahead is end-of-input.
(2) `program()` has returned the same way but the lookahead is not
end-of-input: the message `Parsing failed.` and no `ERROR` diagnostic.
(3) One diagnostic of the form `ERROR at line <L>, position <C>: ...` and
`exit(1)`, when a `match` or a check inside `program()` fails.
A well-formed program block followed by a further token ends in way (2).
On such a buffer no call of `get_next_token` leaves its lexeme array: the
first call hands a lexeme of fewer than 256 characters to `make_token` and
leaves a state whose lexemes fit, and so does every successful `match`, which
makes all later calls.  What the C code does on other buffers is left open. -/
theorem run_outcomes (buffer : List Char) (hfit : LexemesFit (cstr buffer)) :
    (∃ t sc N, get_next_token (init_scanner buffer) = some (t, sc) ∧
      (∃ lexeme, t = make_token sc t.type lexeme ∧ lexeme.length < 256) ∧
      LexemesFit (rest sc) ∧
      ((∃ p p5, p.lookahead.type = TOK_EOF ∧ p5.lookahead.type = TOK_RBRACE ∧
          match_ TOK_RBRACE p5 = .ok p ∧
          ∀ fuel, N ≤ fuel → program fuel { sc := sc, lookahead := t } = .ok p ∧
            main fuel buffer = some (.completed p)) ∨
        (∃ p p5, p.lookahead.type ≠ TOK_EOF ∧ p5.lookahead.type = TOK_RBRACE ∧
          match_ TOK_RBRACE p5 = .ok p ∧
          ∀ fuel, N ≤ fuel → program fuel { sc := sc, lookahead := t } = .ok p ∧
            main fuel buffer = some (.failed p)) ∨
        (∃ d p, (∃ (L C : Int) (msg : String), d.render =
            "ERROR at line " ++ toString L ++ ", position " ++ toString C ++ ": " ++ msg) ∧
          ∀ fuel, N ≤ fuel →
            program fuel { sc := sc, lookahead := t } = .error (.exit d p) ∧
              main fuel buffer = some (.exited d p)))) ∧
    (∀ (ds ss : List TokenType) (k : TokenType) (rest : List TokenType),
      DeclList ds → StmtList ss →
      buffer_tokens buffer
        (TOK_PROGRAM :: TOK_ID :: TOK_LBRACE :: (ds ++ ss ++ TOK_RBRACE :: k :: rest)) = true →
      k ≠ TOK_EOF →
      ∃ p, p.lookahead.type = k ∧
        ∃ N, ∀ fuel, N ≤ fuel → main fuel buffer = some (.failed p)) ∧
    (∀ (e : TokenType) (p p' : Parser), LexemesFit (rest p.sc) → match_ e p = .ok p' →
      (∃ lexeme, p'.lookahead = make_token p'.sc p'.lookahead.type lexeme ∧
        lexeme.length < 256) ∧ LexemesFit (rest p'.sc)) := by
  refine ⟨?_, fun ds ss k rest hds hss hk hne => main_trailing_token hds hss hk hne,
    fun e p p' hf h => lexemesFit_match hf h⟩
  obtain ⟨t, sc, hg, N, h⟩ := main_halts buffer
  obtain ⟨hin, hf⟩ := lexemesFit_call (by rw [rest_init_scanner]; exact hfit) hg
  rcases h with h | h | h
  · obtain ⟨p, hp, hN⟩ := h
    obtain ⟨p5, h5, h6⟩ := program_last_match (hN N (Nat.le_refl _)).1
    exact ⟨t, sc, N, hg, hin, hf, Or.inl ⟨p, p5, hp, h5, h6, hN⟩⟩
  · obtain ⟨p, hp, hN⟩ := h
    obtain ⟨p5, h5, h6⟩ := program_last_match (hN N (Nat.le_refl _)).1
    exact ⟨t, sc, N, hg, hin, hf, Or.inr (Or.inl ⟨p, p5, hp, h5, h6, hN⟩)⟩
  · obtain ⟨d, p, hN⟩ := h
    exact ⟨t, sc, N, hg, hin, hf, Or.inr (Or.inr ⟨d, p, render_form d, hN⟩)⟩

theorem run_outcomes_witness :
    ∃ p, p.lookahead.type = TOK_SEMI ∧
      ∃ N, ∀ fuel, N ≤ fuel → main fuel "Program Q \x7b \x7d ;".toList = some (.failed p) :=
  (run_outcomes "Program Q \x7b \x7d ;".toList
      (lexemesFit_of_length (lt_of_le_of_lt (List.takeWhile_prefix _).length_le (by decide)))).2.1
    [] [] TOK_SEMI [TOK_EOF] DeclList.nil StmtList.nil (by decide) (by decide)

/-- C20 at a failing input, the buffer `Program ` followed by 256 letters `b`.
The first call of `get_next_token` returns the keyword `Program`.  `program()`
then calls `match(TOK_PROGRAM)`, whose call of `get_next_token` skips the
blank and runs the identifier loop on the 256 letters: it stores 256
characters, so the terminator write `lexeme[i] = '\0'` has index 256, outside
`char lexeme[256]`, and the run has no defined continuation. -/
theorem parser_overrun_example :
    ∃ t s1, get_next_token (init_scanner ("Program ".toList ++ List.replicate 256 'b')) =
        some (t, s1) ∧ t.type = TOK_PROGRAM ∧
      rest s1 = ' ' :: List.replicate 256 'b' ∧
      rest (consume_char s1) = List.replicate 256 'b' ∧ isalpha 'b' = true ∧
      ∃ s2 l, lexeme_loop isalnum (fuelOf (consume_char s1)) (consume_char s1) [] =
          some (s2, l) ∧ l.length = 256 := by
  have hb := @takeWhile_replicate_of (fun c => c != NUL) 'b' (by decide) 256
  have hr : rest (init_scanner ("Program ".toList ++ List.replicate 256 'b')) =
      'P' :: ("rogram ".toList ++ List.replicate 256 'b') := by
    rw [rest_init_scanner]
    show List.takeWhile _ ("Program ".toList ++ _) = _
    rw [List.takeWhile_append_of_pos (by decide), hb]
    rfl
  obtain ⟨t, s1, hl⟩ := lexed_alpha hr (by decide)
  have hrun : ('P' :: ("rogram ".toList ++ List.replicate 256 'b')).takeWhile isalnum =
      "Program".toList := rfl
  rw [hrun] at hl
  have htext := hl.text
  rw [hr] at htext
  have hrest : rest s1 = ' ' :: List.replicate 256 'b' :=
    (List.append_cancel_left
      (show "Program".toList ++ (' ' :: List.replicate 256 'b') = "Program".toList ++ rest s1
        from htext)).symm
  obtain ⟨_, hr2⟩ := consume_char_plain hrest (by decide) (fun h => absurd h (by decide))
  have ht := takeWhile_replicate_of (show isalnum 'b' = true by decide) 256
  refine ⟨t, s1, hl.call, hl.facts.1, hrest, hr2, by decide, _, _,
    lexeme_loop_advance isalnum_plain _ _, ?_⟩
  rw [hr2, ht, List.nil_append, List.length_replicate]

/-- Parser termination on inputs whose lexemes fit the lexeme array: there the
code does what C20 says.  For every parser state whose unread input has
fitting lexemes, `program()` has, from some amount of fuel on, one result that
is a return or an exit with a diagnostic, and so has the run of `main` on
every buffer with fitting lexemes; every successful `match` from such a state
leaves such a state.  Every successful `match` of a token other than
end-of-input decreases `tokens_left`; hence each iteration of the loops of
`declaration_list`, `statement_list`, `term` and `additive_expression`, and
the recursive call of `expression` in the `(` case of `factor`, starts from a
state with fewer tokens left.  With an end-of-input lookahead
`statement_list` exits in `match(TOK_ID)`. -/
theorem parser_terminates :
    (∀ p : Parser, LexemesFit (rest p.sc) →
      ∃ r N, r ≠ .error .fuel ∧ ∀ fuel, N ≤ fuel → program fuel p = r) ∧
    (∀ buffer : List Char, LexemesFit (cstr buffer) →
      ∃ res N, ∀ fuel, N ≤ fuel → main fuel buffer = some res) ∧
    (∀ (e : TokenType) (p p' : Parser), LexemesFit (rest p.sc) → match_ e p = .ok p' →
      LexemesFit (rest p'.sc)) ∧
    (∀ (e : TokenType) (p p' : Parser), e ≠ TOK_EOF → match_ e p = .ok p' →
      tokens_left p' < tokens_left p) ∧
    (∀ (p p1 p2 p3 : Parser), p.lookahead.type = TOK_INT ∨ p.lookahead.type = TOK_FLOAT →
      match_ p.lookahead.type p = .ok p1 → match_ TOK_ID p1 = .ok p2 →
      match_ TOK_SEMI p2 = .ok p3 → tokens_left p3 < tokens_left p) ∧
    (∀ (fuel : Nat) (p p1 : Parser), statement fuel p = .ok p1 →
      tokens_left p1 < tokens_left p) ∧
    (∀ (fuel : Nat) (p p1 p2 : Parser), p.lookahead.type = TOK_MUL ∨ p.lookahead.type = TOK_DIV →
      match_ p.lookahead.type p = .ok p1 → factor fuel p1 = .ok p2 →
      tokens_left p2 < tokens_left p) ∧
    (∀ (fuel : Nat) (p p1 p2 : Parser),
      p.lookahead.type = TOK_PLUS ∨ p.lookahead.type = TOK_MINUS →
      match_ p.lookahead.type p = .ok p1 → term fuel p1 = .ok p2 →
      tokens_left p2 < tokens_left p) ∧
    (∀ (p p1 : Parser), match_ TOK_LPAREN p = .ok p1 → tokens_left p1 < tokens_left p) ∧
    (∀ (fuel : Nat) (p : Parser), p.lookahead.type = TOK_EOF →
      statement_list (fuel + 1) p =
        .error (.exit (.expected p.lookahead.line p.lookahead.start_pos TOK_ID TOK_EOF) p)) := by
  refine ⟨?_, ?_, fun e p p' hf h => (lexemesFit_match hf h).2, ?_, ?_, ?_, ?_, ?_, ?_, ?_⟩
  · intro p _
    obtain ⟨r, N, hr, hne, _⟩ := program_halts p
    exact ⟨r, N, hne, hr⟩
  · intro buffer _
    obtain ⟨t, sc, _, N, h | h | h⟩ := main_halts buffer
    · obtain ⟨p, _, hp⟩ := h
      exact ⟨_, N, fun fuel hf => (hp fuel hf).2⟩
    · obtain ⟨p, _, hp⟩ := h
      exact ⟨_, N, fun fuel hf => (hp fuel hf).2⟩
    · obtain ⟨d, p, hp⟩ := h
      exact ⟨_, N, fun fuel hf => (hp fuel hf).2⟩
  · intro e p p' he h
    exact match_decreases h he
  · intro p p1 p2 p3 hty h1 h2 h3
    have a := match_decreases h1 (by rcases hty with h | h <;> rw [h] <;> decide)
    have b := match_decreases h2 (by decide)
    have c := match_decreases h3 (by decide)
    omega
  · intro fuel p p1 h
    exact statement_decreases h
  · intro fuel p p1 p2 hop h1 h2
    have a := match_decreases h1 (by rcases hop with h | h <;> rw [h] <;> decide)
    have b := factor_decreases h2
    omega
  · intro fuel p p1 p2 hop h1 h2
    have a := match_decreases h1 (by rcases hop with h | h <;> rw [h] <;> decide)
    have b := term_decreases h2
    omega
  · intro p p1 h
    exact match_decreases h (by decide)
  · intro fuel p h
    exact statement_list_at_eof fuel p h

theorem parser_terminates_witness :
    (∃ res N, ∀ fuel, N ≤ fuel → main fuel "Program P \x7b x = (1 + ; \x7d".toList = some res) ∧
      statement_list 1
          { sc := ⟨"x;".toList, 2, 1, 3⟩
            lookahead := make_token ⟨"x;".toList, 2, 1, 3⟩ TOK_EOF [] } =
        .error (.exit (.expected 1 3 TOK_ID TOK_EOF)
          { sc := ⟨"x;".toList, 2, 1, 3⟩
            lookahead := make_token ⟨"x;".toList, 2, 1, 3⟩ TOK_EOF [] }) :=
  ⟨parser_terminates.2.1 "Program P \x7b x = (1 + ; \x7d".toList
      (lexemesFit_of_length (lt_of_le_of_lt (List.takeWhile_prefix _).length_le (by decide))),
    parser_terminates.2.2.2.2.2.2.2.2.2 0
      { sc := ⟨"x;".toList, 2, 1, 3⟩
        lookahead := make_token ⟨"x;".toList, 2, 1, 3⟩ TOK_EOF [] } rfl⟩

end RDP
